import Mathlib

/-!
Shallow embedding of `chython/reactor/base.py` (`BaseReactor._get_deleted`
and `BaseReactor._patcher`), the engine applying reaction templates such as
the one of `chython/reactor/reactions/_sulfonamidation.py`.

Python dictionaries are modelled as insertion-ordered association lists
(`List (Nat × _)`); Python sets that are only queried for membership and
extended are modelled as duplicate-free lists built with `sinsert`.
External collaborators (stereocenter indices, sign-translation primitives,
hydrogen-count calculation, kekulization, aromatization, stereo fixing) are
parameters of the embedded functions, so every theorem about the core holds
for arbitrary behaviour of the black boxes unless it instantiates them.
-/

namespace Chython

/-- Atom value as used by `_patcher`: element identity, isotope, charge,
radical flag, implicit-hydrogen count (`none` = undetermined, to be
computed), an atom stereo label, and 2-D coordinates. -/
structure Atom where
  anum : Nat
  isotope : Option Nat := none
  charge : Int := 0
  isRadical : Bool := false
  hyd : Option Nat := none
  stereo : Option Bool := none
  x : Int := 0
  y : Int := 0
deriving Repr, DecidableEq

/-- Bond value: a single order and an optional cis/trans stereo label. -/
structure Bond where
  order : Nat
  stereo : Option Bool := none
deriving Repr, DecidableEq

/-- Modelled from the spec: `Atom.copy(hydrogens=..., stereo=...)` of the
(absent) containers module.  A value copy of the atom; the flags control
whether the implicit-hydrogen count and the stereo label are retained, both
dropped by default (`sa.copy()` at line 89 yields an undetermined hydrogen
count recomputed post-assembly, `a.copy(hydrogens=True, stereo=True)` at
line 145 keeps both). -/
def Atom.copy (a : Atom) (hydrogens : Bool := false) (stereo : Bool := false) : Atom :=
  { a with hyd := if hydrogens then a.hyd else none,
           stereo := if stereo then a.stereo else none }

/-- Modelled from the spec: `Bond.copy(stereo=...)` of the (absent)
containers module: value copy, stereo label dropped unless requested. -/
def Bond.copy (b : Bond) (stereo : Bool := false) : Bond :=
  { b with stereo := if stereo then b.stereo else none }

/-- A molecular graph: an atom table and a symmetric bond-adjacency table,
both insertion-ordered like Python dicts. -/
structure Molecule where
  atoms : List (Nat × Atom)
  bonds : List (Nat × List (Nat × Bond))
deriving Repr, DecidableEq

/-- Replacement-template atom: the three variants dispatched on in the atom
loop of `_patcher` (`AnyElement` / `QueryElement` / `Element`). -/
inductive TAtom where
  | anyE (charge : Int) (isRadical : Bool) (stereo : Option Bool)
  | queryE (anum : Nat) (isotope : Option Nat) (charge : Int) (isRadical : Bool)
      (stereo : Option Bool) (hydList : List Nat)
  | elemE (anum : Nat) (isotope : Option Nat) (charge : Int) (isRadical : Bool)
      (stereo : Option Bool) (hyd : Option Nat) (x : Int) (y : Int)
deriving Repr, DecidableEq

/-- Replacement-template bond: a single fixed order (`int(rb)`) plus an
optional stereo override (construction rejects variable orders). -/
structure TBond where
  order : Nat
  stereo : Option Bool := none
deriving Repr, DecidableEq

/-- The replacement fragment: atom table and symmetric adjacency, both
insertion-ordered. -/
structure Replacement where
  atoms : List (Nat × TAtom)
  bonds : List (Nat × List (Nat × TBond))
deriving Repr, DecidableEq

/-! ### Dict and set helpers -/

/-- `d[k]` lookup of a Python dict. -/
def dget {α : Type} (l : List (Nat × α)) (k : Nat) : Option α :=
  l.lookup k

/-- In-place mutation of the value stored under an existing key of a dict
(the source only ever does this for keys it knows are present). -/
def updVal {α : Type} (l : List (Nat × α)) (n : Nat) (f : α → α) : List (Nat × α) :=
  l.map (fun p => if p.1 = n then (p.1, f p.2) else p)

/-- `d[k] = v` on a Python dict: replace the binding in place if the key is
present, else append it (insertion order preserved). -/
def dput {α : Type} (l : List (Nat × α)) (k : Nat) (v : α) : List (Nat × α) :=
  if (l.lookup k).isSome then updVal l k (fun _ => v)
  else l ++ [(k, v)]

/-- Keys of a dict, in insertion order. -/
def dkeys {α : Type} (l : List (Nat × α)) : List Nat := l.map (·.1)

/-- `s.add(x)` on a Python set (kept duplicate-free). -/
def sinsert (k : Nat) (s : List Nat) : List Nat :=
  if k ∈ s then s else s ++ [k]

/-- `s.update(xs)` on a Python set. -/
def supdate (s : List Nat) (xs : List Nat) : List Nat :=
  xs.foldl (fun acc k => sinsert k acc) s

/-- Truthiness-respecting `mapping.get(n)` as used at lines 86 and 102:
Python treats the atom identifier `0` as falsy, so a binding to `0` behaves
like an absent binding (atom identifiers are positive). -/
def pyGet (mapping : List (Nat × Nat)) (n : Nat) : Option Nat :=
  match mapping.lookup n with
  | some m => if m = 0 then none else some m
  | none => none

/-- `max(atoms)` over the keys of the host atom table (the source raises on
an empty molecule; theorems needing the true maximum assume nonemptiness). -/
def maxKey {α : Type} (l : List (Nat × α)) : Nat :=
  (l.map (·.1)).foldr max 0

/-! ### DeletionAnalyzer: `BaseReactor._get_deleted`, lines 41-70 -/

/-- Adjacency keys of `bonds[n]` (`for x in bonds[n]` iterates dict keys). -/
def adj (bonds : List (Nat × List (Nat × Bond))) (n : Nat) : List Nat :=
  dkeys ((dget bonds n).getD [])

/-- Every atom identifier occurring in the bond table (keys and adjacency
entries); the walk only ever pushes or seeds such atoms. -/
def duniv (bonds : List (Nat × List (Nat × Bond))) : List Nat :=
  dkeys bonds ++ (bonds.map (fun p => dkeys p.2)).flatten

/-- Number of core-deleted adjacency entries of `x` (termination measure
only). -/
def dDel (bonds : List (Nat × List (Nat × Bond))) (toDelete : List Nat) (x : Nat) : Nat :=
  ((adj bonds x).filter (fun y => y ∈ toDelete)).length

/-- Weight of one pending stack entry (termination measure only): a
core-deleted entry pops in one cheap step; an already-visited entry with
adjacency re-pushes at most its core-deleted neighbours, which it pays for
here; an unvisited entry is paid by the shrinking unvisited set. -/
def wAtom (bonds : List (Nat × List (Nat × Bond))) (toDelete gs : List Nat)
    (x : Nat) : Nat :=
  if x ∈ toDelete then 1
  else if x ∈ gs ∧ (dget bonds x).isSome then 1 + dDel bonds toDelete x
  else 0

/-- Total weight of the pending stack (termination measure only). -/
def stackW (bonds : List (Nat × List (Nat × Bond))) (toDelete gs stack : List Nat) :
    Nat :=
  (stack.map (wAtom bonds toDelete gs)).sum

/-- Number of graph atoms not yet globally visited (termination measure
only). -/
def gsLeft (bonds : List (Nat × List (Nat × Bond))) (gs : List Nat) : Nat :=
  ((duniv bonds).filter (fun a => a ∉ gs)).length

/-- The inner `while stack:` loop (lines 57-65), unbounded exactly like the
source.  The Python stack pops from the end; the model keeps the stack
reversed so the next `current` is the head, and `stack.extend(l)` becomes
`l.reverse ++ stack`.  Returns `(didBreak, seen, globalSeen)`:
`didBreak = true` means the walk reached a `remain` atom and broke (line
60, the branch is preserved), `false` means the loop exhausted and line 67
commits `seen`.  The loop terminates because each iteration either visits
a new graph atom, or pops a pending entry whose weight covers everything
it can push: an already-visited atom only re-pushes core-deleted
neighbours (all other neighbours are globally seen by then), and a
core-deleted entry pops without pushing. -/
def walkLoop (bonds : List (Nat × List (Nat × Bond))) (toDelete remain : List Nat) :
    List Nat → List Nat → List Nat → Bool × List Nat × List Nat
  | [], seen, g => (false, seen, g)
  | current :: stack, seen, g =>
    if current ∈ remain then (true, seen, g)
    else if current ∈ toDelete then walkLoop bonds toDelete remain stack seen g
    else
      let seen' := sinsert current seen
      let g' := sinsert current g
      let pushed := (adj bonds current).filter (fun x => x ∉ g')
      walkLoop bonds toDelete remain (pushed.reverse ++ stack) seen' g'
termination_by stack _ g => (gsLeft bonds g, stackW bonds toDelete g stack, stack.length)
decreasing_by
· rename_i h1 h2
  apply Prod.Lex.right
  apply Prod.Lex.left
  have hc : stackW bonds toDelete g (current :: stack)
      = wAtom bonds toDelete g current + stackW bonds toDelete g stack := by
    simp only [stackW, List.map_cons, List.sum_cons]
  have hw : wAtom bonds toDelete g current = 1 := by
    simp [wAtom, h2]
  omega
· rename_i h1 h2
  have hsum : ∀ gs : List Nat, ∀ l : List Nat, (∀ y ∈ l, y ∉ gs) →
      (l.map (wAtom bonds toDelete gs)).sum
        = (l.filter (fun y => decide (y ∈ toDelete))).length := by
    intro gs l
    induction l with
    | nil => intro _; rfl
    | cons a t ih =>
      intro hl
      have ha := hl a (List.mem_cons_self _ _)
      have ht := ih (fun y hy => hl y (List.mem_cons_of_mem _ hy))
      have hwa : wAtom bonds toDelete gs a = if a ∈ toDelete then 1 else 0 := by
        by_cases hat : a ∈ toDelete
        · simp [wAtom, hat]
        · simp [wAtom, hat, ha]
      by_cases hat : a ∈ toDelete
      · rw [List.map_cons, List.sum_cons, hwa, if_pos hat, ht,
          show List.filter (fun y => decide (y ∈ toDelete)) (a :: t)
              = a :: List.filter (fun y => decide (y ∈ toDelete)) t from by
            simp [List.filter_cons, hat],
          List.length_cons]
        omega
      · rw [List.map_cons, List.sum_cons, hwa, if_neg hat, ht,
          show List.filter (fun y => decide (y ∈ toDelete)) (a :: t)
              = List.filter (fun y => decide (y ∈ toDelete)) t from by
            simp [List.filter_cons, hat]]
        omega
  by_cases hg : current ∈ g
  · have hgs : sinsert current g = g := by simp [sinsert, hg]
    simp only [hgs]
    apply Prod.Lex.right
    by_cases hk : (dget bonds current).isSome
    · apply Prod.Lex.left
      have hsplit : stackW bonds toDelete g
          ((List.filter (fun x => decide (x ∉ g)) (adj bonds current)).reverse ++ stack)
          = ((List.filter (fun x => decide (x ∉ g)) (adj bonds current)).map
              (wAtom bonds toDelete g)).sum
            + stackW bonds toDelete g stack := by
        simp only [stackW, List.map_append, List.map_reverse, List.sum_append,
          List.sum_reverse]
      have hcons : stackW bonds toDelete g (current :: stack)
          = wAtom bonds toDelete g current + stackW bonds toDelete g stack := by
        simp only [stackW, List.map_cons, List.sum_cons]
      have hwc : wAtom bonds toDelete g current
          = 1 + ((adj bonds current).filter (fun y => decide (y ∈ toDelete))).length := by
        have hd1 : wAtom bonds toDelete g current = 1 + dDel bonds toDelete current := by
          simp [wAtom, h2, hg, hk]
        rw [hd1]
        rfl
      have hps := hsum g (List.filter (fun x => decide (x ∉ g)) (adj bonds current))
        (by
          intro y hy
          have := List.of_mem_filter hy
          simpa using this)
      have hmm : ((List.filter (fun x => decide (x ∉ g)) (adj bonds current)).filter
              (fun y => decide (y ∈ toDelete))).length
            ≤ ((adj bonds current).filter (fun y => decide (y ∈ toDelete))).length :=
        List.Sublist.length_le (List.Sublist.filter _ (List.filter_sublist _))
      omega
    · have hkey : dget bonds current = none := by
        cases hd : dget bonds current with
        | none => rfl
        | some l =>
          rw [hd] at hk
          simp at hk
      have hadj : adj bonds current = [] := by
        unfold adj
        rw [hkey]
        rfl
      simp only [hadj, List.filter_nil, List.reverse_nil, List.nil_append]
      have hw0 : wAtom bonds toDelete g current = 0 := by
        simp [wAtom, h2, hk]
      have hse : stackW bonds toDelete g (current :: stack)
          = stackW bonds toDelete g stack := by
        simp only [stackW, List.map_cons, List.sum_cons, hw0]
        omega
      simp only [hse]
      apply Prod.Lex.right
      simp
  · have hgs : sinsert current g = g ++ [current] := by simp [sinsert, hg]
    simp only [hgs]
    by_cases hu : current ∈ duniv bonds
    · apply Prod.Lex.left
      show (((duniv bonds).filter (fun a => decide (a ∉ g ++ [current]))).length
        < ((duniv bonds).filter (fun a => decide (a ∉ g))).length)
      have hsub : List.Sublist
          ((duniv bonds).filter (fun a => decide (a ∉ g ++ [current])))
          ((duniv bonds).filter (fun a => decide (a ∉ g))) := by
        apply List.monotone_filter_right
        intro a ha
        simp only [decide_eq_true_eq] at ha ⊢
        intro hag
        exact ha (List.mem_append.mpr (Or.inl hag))
      have hle := hsub.length_le
      rcases Nat.lt_or_ge ((List.filter (fun a => decide (a ∉ g ++ [current]))
          (duniv bonds)).length)
          ((List.filter (fun a => decide (a ∉ g)) (duniv bonds)).length) with hlt | hge
      · exact hlt
      · exfalso
        have heqlen : ((duniv bonds).filter (fun a => decide (a ∉ g ++ [current]))).length
            = ((duniv bonds).filter (fun a => decide (a ∉ g))).length :=
          Nat.le_antisymm hle hge
        have heq := hsub.eq_of_length heqlen
        have hcr : current ∈ (duniv bonds).filter (fun a => decide (a ∉ g)) :=
          List.mem_filter.mpr ⟨hu, by simpa using hg⟩
        rw [← heq] at hcr
        have := (List.mem_filter.mp hcr).2
        simp at this
    · have hkey : dget bonds current = none := by
        cases hd : dget bonds current with
        | none => rfl
        | some l =>
          exfalso
          apply hu
          have hlm : ∀ (L : List (Nat × List (Nat × Bond))) (k : Nat),
              (L.lookup k).isSome = true → k ∈ dkeys L := by
            intro L
            induction L with
            | nil =>
              intro k h
              simp [List.lookup] at h
            | cons p t ih =>
              intro k h
              rcases p with ⟨pk, pv⟩
              rw [List.lookup_cons] at h
              cases hb : k == pk with
              | true =>
                have hkp : k = pk := eq_of_beq hb
                subst hkp
                exact List.mem_cons_self _ _
              | false =>
                rw [hb] at h
                exact List.mem_cons_of_mem _ (ih k h)
          have hs2 : (bonds.lookup current).isSome = true := by
            show (dget bonds current).isSome = true
            rw [hd]
            rfl
          exact List.mem_append.mpr (Or.inl (hlm bonds current hs2))
      have hadj : adj bonds current = [] := by
        unfold adj
        rw [hkey]
        rfl
      simp only [hadj, List.filter_nil, List.reverse_nil, List.nil_append]
      have hgse : gsLeft bonds (g ++ [current]) = gsLeft bonds g := by
        unfold gsLeft
        congr 1
        apply List.filter_congr
        intro a ha
        have hane : a ≠ current := fun h => hu (h ▸ ha)
        simp [List.mem_append, hane]
      have hwe : ∀ x, wAtom bonds toDelete (g ++ [current]) x
          = wAtom bonds toDelete g x := by
        intro x
        by_cases ht : x ∈ toDelete
        · simp [wAtom, ht]
        · by_cases hx : x = current
          · subst hx
            simp [wAtom, ht, hg, hkey]
          · simp [wAtom, ht, List.mem_append, hx]
      have hw0 : wAtom bonds toDelete g current = 0 := by
        simp [wAtom, h2, hg]
      have hsw : stackW bonds toDelete (g ++ [current]) stack
          = stackW bonds toDelete g stack := by
        unfold stackW
        rw [List.map_congr_left (fun x _ => hwe x)]
      have hse : stackW bonds toDelete g (current :: stack)
          = stackW bonds toDelete g stack := by
        simp only [stackW, List.map_cons, List.sum_cons, hw0]
        omega
      simp only [hgse, hsw, hse]
      apply Prod.Lex.right
      apply Prod.Lex.right
      simp

/-- The body of `for n in bonds[x]:` (lines 51-67): skip already-visited or
retained neighbours, otherwise walk and either preserve or commit. -/
def neighborLoop (bonds : List (Nat × List (Nat × Bond))) (toDelete remain : List Nat) :
    List Nat → List Nat × List Nat → List Nat × List Nat
  | [], st => st
  | n :: ns, (delete, g) =>
    if n ∈ g ∨ n ∈ remain then neighborLoop bonds toDelete remain ns (delete, g)
    else
      match walkLoop bonds toDelete remain
          (((adj bonds n).filter (fun x => x ∉ sinsert n g)).reverse) [n] (sinsert n g) with
      | (true, _, g2) => neighborLoop bonds toDelete remain ns (delete, g2)
      | (false, seen, g2) => neighborLoop bonds toDelete remain ns (supdate delete seen, g2)

/-- `computeDeletions(hostBonds, coreDeleteSet, retainedAtoms)`: the loop of
lines 49-70 over an already host-side core deletion set `toDelete` and
barrier set `remain`.  Result is `toDelete ∪ delete` (line 69). -/
def getDeletedCore (bonds : List (Nat × List (Nat × Bond)))
    (toDelete remain : List Nat) : List Nat :=
  let st := toDelete.foldl
    (fun st x => neighborLoop bonds toDelete remain (adj bonds x) st) ([], [])
  supdate (supdate [] toDelete) st.1

/-- `BaseReactor._get_deleted` (lines 41-70): map the reactor's pattern-side
deletion set through `mapping` (line 46), take the remaining mapped atoms as
barrier (line 48), and expand.  Unmapped pattern atoms default to `0`
(the source would raise a `KeyError`; callers guarantee coverage). -/
def getDeleted (host : Molecule) (mapping : List (Nat × Nat))
    (toDeletePattern : List Nat) : List Nat :=
  if toDeletePattern = [] then []
  else
    let toDelete := toDeletePattern.map (fun x => (mapping.lookup x).getD 0)
    let remain := (mapping.map (·.2)).filter (fun v => v ∉ toDelete)
    getDeletedCore host.bonds toDelete remain

/-- Instrumented variant of the neighbour loop: the same process as
`neighborLoop`, additionally recording the `seen` set of every walk that
exhausted (the branches the `for`-`else` of line 67 commits), in process
order. -/
def neighborLoopT (bonds : List (Nat × List (Nat × Bond))) (toDelete remain : List Nat) :
    List Nat → List Nat × List Nat × List (List Nat) →
      List Nat × List Nat × List (List Nat)
  | [], st => st
  | n :: ns, (delete, g, tr) =>
    if n ∈ g ∨ n ∈ remain then neighborLoopT bonds toDelete remain ns (delete, g, tr)
    else
      match walkLoop bonds toDelete remain
          (((adj bonds n).filter (fun x => x ∉ sinsert n g)).reverse) [n] (sinsert n g) with
      | (true, _, g2) => neighborLoopT bonds toDelete remain ns (delete, g2, tr)
      | (false, seen, g2) =>
        neighborLoopT bonds toDelete remain ns (supdate delete seen, g2, tr ++ [seen])

/-- The committed branches of the deletion analysis: the `seen` sets of
exactly those walks that exhausted without reaching a retained atom. -/
def committedSeens (bonds : List (Nat × List (Nat × Bond)))
    (toDelete remain : List Nat) : List (List Nat) :=
  (toDelete.foldl (fun st x => neighborLoopT bonds toDelete remain (adj bonds x) st)
    ([], [], [])).2.2

/-! ### GraphPatcher: `BaseReactor._patcher`, lines 72-199 -/

/-- Patch-application-time errors: line 97 and line 114. -/
inductive PatchErr where
  | unmatchedAny
  | ambiguousHydrogens
deriving Repr, DecidableEq

/-- Placeholder for dict accesses the source performs without a guard
(callers guarantee the key is present; the source would raise `KeyError`). -/
def dummyAtom : Atom := { anum := 0 }

/-- Placeholder bond, see `dummyAtom`. -/
def dummyBond : Bond := { order := 0 }

/-- Mutable state of the assembly phase: the new graph's tables, the live
mapping, the fresh-identifier counter and the two re-evaluation queues. -/
structure AsmState where
  natoms : List (Nat × Atom)
  nbonds : List (Nat × List (Nat × Bond))
  mapping : List (Nat × Nat)
  maxAtom : Nat
  stereoAtoms : List Nat
  stereoBonds : List (Nat × Nat)
deriving Repr, DecidableEq

/-- `nbonds[n][m] = b` (inner dict assignment; `nbonds[n]` exists for every
atom placed in the new graph). -/
def bput (bs : List (Nat × List (Nat × Bond))) (n m : Nat) (b : Bond) :
    List (Nat × List (Nat × Bond)) :=
  dput bs n (dput ((dget bs n).getD []) m b)

/-- One iteration of the atom loop (lines 84-124) for template atom `n`.
On the two raises the error carries the state, whose `mapping` field is the
caller-visible dict already extended by earlier fresh allocations. -/
def atomStep (hostAtoms : List (Nat × Atom)) (st : AsmState) (n : Nat) (ra : TAtom) :
    Except (PatchErr × AsmState) AsmState :=
  match ra with
  | .anyE charge isRadical stereo =>
    match pyGet st.mapping n with
    | some m =>
      -- keep matched atom type and isotope (lines 87-95)
      let sa := (dget hostAtoms m).getD dummyAtom
      let a0 := { sa.copy with charge := charge, isRadical := isRadical }
      let a := if stereo.isSome then { a0 with stereo := stereo } else a0
      let st1 := if stereo.isSome then st
        else if sa.stereo.isSome then { st with stereoAtoms := st.stereoAtoms ++ [m] }
        else st
      .ok { st1 with natoms := dput st1.natoms m a, nbonds := dput st1.nbonds m [] }
    | none => .error (.unmatchedAny, st)
  | .queryE anum isotope charge isRadical stereo hydList =>
    let a0 : Atom := { anum := anum, isotope := isotope, charge := charge,
                       isRadical := isRadical }
    match pyGet st.mapping n with
    | none =>
      -- new atom (lines 102-114); the mapping is extended before the
      -- hydrogen-alternative check, so the raise at line 114 leaves it extended
      let m := st.maxAtom + 1
      let st1 := { st with maxAtom := m, mapping := dput st.mapping n m }
      let a1 := { a0 with stereo := stereo }
      if hydList.length = 1 then
        let a := { a1 with hyd := some (hydList.headD 0) }
        .ok { st1 with natoms := dput st1.natoms m a, nbonds := dput st1.nbonds m [] }
      else if hydList.isEmpty then
        .ok { st1 with natoms := dput st1.natoms m a1, nbonds := dput st1.nbonds m [] }
      else .error (.ambiguousHydrogens, st1)
    | some m =>
      -- existing atom (lines 115-122)
      let sa := (dget hostAtoms m).getD dummyAtom
      let a1 := { a0 with x := sa.x, y := sa.y }
      let a := if stereo.isSome then { a1 with stereo := stereo } else a1
      let st1 := if stereo.isSome then st
        else if sa.stereo.isSome then { st with stereoAtoms := st.stereoAtoms ++ [m] }
        else st
      .ok { st1 with natoms := dput st1.natoms m a, nbonds := dput st1.nbonds m [] }
  | .elemE anum isotope charge isRadical stereo hyd x y =>
    let a0 : Atom := { anum := anum, isotope := isotope, charge := charge,
                       isRadical := isRadical }
    match pyGet st.mapping n with
    | none =>
      let m := st.maxAtom + 1
      let st1 := { st with maxAtom := m, mapping := dput st.mapping n m }
      let a := { a0 with stereo := stereo, hyd := hyd, x := x, y := y }
      .ok { st1 with natoms := dput st1.natoms m a, nbonds := dput st1.nbonds m [] }
    | some m =>
      let sa := (dget hostAtoms m).getD dummyAtom
      let a1 := { a0 with x := sa.x, y := sa.y }
      let a := if stereo.isSome then { a1 with stereo := stereo } else a1
      let st1 := if stereo.isSome then st
        else if sa.stereo.isSome then { st with stereoAtoms := st.stereoAtoms ++ [m] }
        else st
      .ok { st1 with natoms := dput st1.natoms m a, nbonds := dput st1.nbonds m [] }

/-- The atom loop over the replacement's atoms. -/
def atomLoop (hostAtoms : List (Nat × Atom)) :
    List (Nat × TAtom) → AsmState → Except (PatchErr × AsmState) AsmState
  | [], st => .ok st
  | (n, ra) :: rest, st =>
    match atomStep hostAtoms st n ra with
    | .ok st1 => atomLoop hostAtoms rest st1
    | .error e => .error e

/-- One inner iteration of the template-bond loop (lines 129-140), with
`n m` already mapped to host-side identifiers. -/
def templateBondStep (hostBonds : List (Nat × List (Nat × Bond)))
    (st : AsmState) (n m : Nat) (rb : TBond) : AsmState :=
  match ((dget st.nbonds m).getD []).lookup n with
  | some bv =>
    -- back-link (lines 131-132)
    { st with nbonds := bput st.nbonds n m bv }
  | none =>
    let b0 : Bond := { order := rb.order }
    match rb.stereo with
    | some s =>
      -- override stereo (lines 135-136)
      { st with nbonds := bput st.nbonds n m { b0 with stereo := some s } }
    | none =>
      match (dget hostBonds n).bind (fun sbn => sbn.lookup m) with
      | some sb =>
        if sb.stereo.isSome then
          -- original structure has stereo bond (lines 139-140)
          { st with nbonds := bput st.nbonds n m b0,
                    stereoBonds := st.stereoBonds ++ [(n, m)] }
        else { st with nbonds := bput st.nbonds n m b0 }
      | none => { st with nbonds := bput st.nbonds n m b0 }

/-- The template-bond loop (lines 126-140); every replacement atom is in the
mapping after the atom loop. -/
def templateBondLoop (hostBonds : List (Nat × List (Nat × Bond)))
    (rbonds : List (Nat × List (Nat × TBond))) (st : AsmState) : AsmState :=
  rbonds.foldl (fun st p =>
    let n := (st.mapping.lookup p.1).getD 0
    p.2.foldl (fun st q =>
      let m := (st.mapping.lookup q.1).getD 0
      templateBondStep hostBonds st n m q.2) st) st

/-- Carry-over of unmatched or masked atoms (lines 142-146); `patched` is
`set(new)` computed once before the loop. -/
def carryAtoms (hostAtoms : List (Nat × Atom)) (toDelete patched : List Nat)
    (st : AsmState) : AsmState :=
  hostAtoms.foldl (fun st p =>
    if p.1 ∉ patched ∧ p.1 ∉ toDelete then
      { st with natoms := dput st.natoms p.1 (p.2.copy true true),
                nbonds := dput st.nbonds p.1 [] }
    else st) st

/-- One inner iteration of the carry-over bond loop (lines 151-163). -/
def carryBondStep (toDelete patched : List Nat) (st : AsmState)
    (n m : Nat) (b : Bond) : AsmState :=
  if m ∈ toDelete ∨ (n ∈ patched ∧ m ∈ patched) then st
  else
    match ((dget st.nbonds m).getD []).lookup n with
    | some bv => { st with nbonds := bput st.nbonds n m bv }
    | none =>
      if b.stereo.isSome ∧ (n ∈ patched ∨ m ∈ patched) then
        -- linker bond: stereo label should be recalculated (lines 157-161)
        { st with nbonds := bput st.nbonds n m b.copy,
                  stereoBonds := st.stereoBonds ++ [(n, m)] }
      else { st with nbonds := bput st.nbonds n m (b.copy true) }

/-- The carry-over bond loop (lines 148-163). -/
def carryBonds (hostBonds : List (Nat × List (Nat × Bond)))
    (toDelete patched : List Nat) (st : AsmState) : AsmState :=
  hostBonds.foldl (fun st p =>
    if p.1 ∈ toDelete then st
    else p.2.foldl (fun st q => carryBondStep toDelete patched st p.1 q.1 q.2) st) st

/-- In-place update of one atom's implicit-hydrogen count. -/
def setHyd (g : Molecule) (k : Nat) (v : Option Nat) : Molecule :=
  { g with atoms := updVal g.atoms k (fun a => { a with hyd := v }) }

/-- In-place update of one atom's stereo label (`natoms[n]._stereo = s`). -/
def setAtomStereo (g : Molecule) (n : Nat) (s : Option Bool) : Molecule :=
  { g with atoms := updVal g.atoms n (fun a => { a with stereo := s }) }

/-- The fold of lines 165-167 over an explicit iteration list. -/
def hfold (calcH : Molecule → Nat → Option Nat) (l : List (Nat × Atom)) (acc : Molecule) :
    Molecule :=
  l.foldl (fun acc p =>
    if p.2.hyd = none then setHyd acc p.1 (calcH acc p.1) else acc) acc

/-- Lines 165-167: every atom whose implicit-hydrogen count is undetermined
gets it from the external `calc_implicit` routine, sequentially. -/
def hPass (calcH : Molecule → Nat → Option Nat) (g : Molecule) : Molecule :=
  hfold calcH g.atoms g

/-! ### StereoTranslator: lines 170-191 -/

/-- Python set equality of two key lists (`dict.keys()` views and `set(...)`
comparisons compare as sets). -/
def listSetEq (a b : List Nat) : Bool :=
  a.all (b.contains ·) && b.all (a.contains ·)

/-- `atoms[n].stereo` on the host. -/
def atomStereoOf (g : Molecule) (n : Nat) : Option Bool :=
  ((dget g.atoms n).getD dummyAtom).stereo

/-- `bonds[n][m].stereo` on the host. -/
def bondStereoOf (g : Molecule) (n m : Nat) : Option Bool :=
  (((dget g.bonds n).getD []).lookup m |>.getD dummyBond).stereo

/-- The external stereocenter index and sign-translation primitives
(`stereogenic_tetrahedrons`, `stereogenic_allenes`, `stereogenic_cis_trans`,
`_stereo_cis_trans_terminals`, `_translate_*_sign`), out-of-scope
collaborators taken as parameters.  The index functions are cached
properties: they are evaluated once per graph, on the graph entering the
respective pass (later stereo-label mutations do not alter connectivity,
which is all the enumeration depends on).  The `_translate_*_sign`
primitives are pure: they receive the current new graph, the atom or
terminal pair, the old ordered environment and the old sign, and return the
translated sign. -/
structure StereoExt where
  tetra : Molecule → List (Nat × List Nat)
  allenes : Molecule → List (Nat × List Nat)
  cisTrans : Molecule → List ((Nat × Nat) × List Nat)
  ctTerm : Molecule → List (Nat × (Nat × Nat))
  transTetra : Molecule → Nat → List Nat → Option Bool → Bool
  transAllene : Molecule → Nat → Nat → Nat → Option Bool → Bool
  transCT : Molecule → Nat → Nat → Nat → Nat → Option Bool → Bool

/-- One iteration of the marked-atom loop (lines 171-184). -/
def stereoAtomStep (ext : StereoExt) (host : Molecule)
    (tetraNew alleneNew hostTetra hostAllene : List (Nat × List Nat))
    (g : Molecule) (n : Nat) : Molecule :=
  if (tetraNew.lookup n).isSome then
    if listSetEq (adj host.bonds n) (adj g.bonds n) then
      let s := ext.transTetra g n ((hostTetra.lookup n).getD []) (atomStereoOf host n)
      setAtomStereo g n (some s)
    else g  -- flush stereo from reaction center (lines 173-175)
  else if (alleneNew.lookup n).isSome then
    if listSetEq ((alleneNew.lookup n).getD []) ((hostAllene.lookup n).getD []) then
      let env := (hostAllene.lookup n).getD []
      let s := ext.transAllene g n (env.headD 0) ((env.drop 1).headD 0) (atomStereoOf host n)
      setAtomStereo g n (some s)
    else g  -- flush stereo for changed allene substituents (lines 179-181)
  else g  -- ignore label (line 184)

/-- The marked-atom loop of the stereo translation phase. -/
def stereoAtomPass (ext : StereoExt) (host : Molecule)
    (tetraNew alleneNew hostTetra hostAllene : List (Nat × List Nat))
    (marked : List Nat) (g : Molecule) : Molecule :=
  marked.foldl (stereoAtomStep ext host tetraNew alleneNew hostTetra hostAllene) g

/-- One iteration of the marked-bond loop (lines 186-191).
`_stereo_cis_trans_terminals.get(n, True) == ....get(m, False)` proceeds
exactly when both lookups succeed with the same terminal pair (the distinct
defaults `True`/`False` make any miss compare unequal).  The source then
computes `new._translate_cis_trans_sign(...)` at line 190 but never assigns
the result, so the step leaves the graph unchanged in every case. -/
def stereoBondStep (ext : StereoExt) (host : Molecule)
    (ctTermNew : List (Nat × (Nat × Nat)))
    (ctNew ctHost : List ((Nat × Nat) × List Nat))
    (g : Molecule) (nm : Nat × Nat) : Molecule :=
  match ctTermNew.lookup nm.1, ctTermNew.lookup nm.2 with
  | some t1, some t2 =>
    if t1 = t2 then
      if listSetEq ((ctNew.lookup t1).getD []) ((ctHost.lookup t1).getD []) then
        let env := (ctHost.lookup t1).getD []
        let _ := ext.transCT g t1.1 t1.2 (env.headD 0) ((env.drop 1).headD 0)
                   (bondStereoOf host nm.1 nm.2)
        g
      else g
    else g
  | _, _ => g

/-- The marked-bond loop of the stereo translation phase. -/
def stereoBondPass (ext : StereoExt) (host : Molecule)
    (ctTermNew : List (Nat × (Nat × Nat)))
    (ctNew ctHost : List ((Nat × Nat) × List Nat))
    (marked : List (Nat × Nat)) (g : Molecule) : Molecule :=
  marked.foldl (stereoBondStep ext host ctTermNew ctNew ctHost) g

/-! ### Finalizer: lines 193-198 -/

/-- The external routines invoked during finalization, in call order. -/
inductive FinStep where
  | kekule
  | thiele
  | fixStereo
deriving Repr, DecidableEq

/-- External finalization routines: kekulization, aromatization/tautomer
normalization (returns the normalized graph and whether any ring was
aromatized), and the stereo-consistency fix. -/
structure FinExt where
  kek : Molecule → Molecule
  thiele : Bool → Molecule → Molecule × Bool
  fixS : Molecule → Molecule

/-- Lines 193-198, with the call sequence recorded: if `fixRings`, kekulize,
then aromatize; `fix_stereo` runs only when `thiele` reports that nothing
changed (`if not new.thiele(...): new.fix_stereo()`).  Without `fixRings`,
only `fix_stereo` runs. -/
def finalize (fx : FinExt) (fixRings fixTautomers : Bool) (g : Molecule) :
    Molecule × List FinStep :=
  if fixRings then
    let g1 := fx.kek g
    let r := fx.thiele fixTautomers g1
    if r.2 then (r.1, [.kekule, .thiele])
    else (fx.fixS r.1, [.kekule, .thiele, .fixStereo])
  else (fx.fixS g, [.fixStereo])

/-! ### The full `_patcher` -/

/-- All external collaborators of `_patcher`. -/
structure Ext where
  calcH : Molecule → Nat → Option Nat
  st : StereoExt
  fin : FinExt

/-- The assembled new graph and mapping before the hydrogen/label/stereo
post-processing: atom loop, template-bond loop, atom carry-over, bond
carry-over (lines 76-163). -/
def assemble (host : Molecule) (repl : Replacement) (toDeletePattern : List Nat)
    (mapping : List (Nat × Nat)) : Except (PatchErr × AsmState) AsmState :=
  let toDelete := getDeleted host mapping toDeletePattern
  let st0 : AsmState := { natoms := [], nbonds := [], mapping := mapping,
                          maxAtom := maxKey host.atoms, stereoAtoms := [],
                          stereoBonds := [] }
  match atomLoop host.atoms repl.atoms st0 with
  | .error e => .error e
  | .ok st1 =>
    let st2 := templateBondLoop host.bonds repl.bonds st1
    let patched := dkeys st2.natoms
    let st3 := carryAtoms host.atoms toDelete patched st2
    .ok (carryBonds host.bonds toDelete patched st3)

/-- `BaseReactor._patcher` (lines 72-199).  On error the payload carries the
mapping as the caller observes it after the raise (extended in place by any
fresh allocations made before the error).  `new.calc_labels()` recomputes
canonical labels, which the data model does not represent. -/
def patcher (ext : Ext) (host : Molecule) (repl : Replacement)
    (toDeletePattern : List Nat) (fixRings fixTautomers : Bool)
    (mapping : List (Nat × Nat)) :
    Except (PatchErr × List (Nat × Nat)) (Molecule × List (Nat × Nat)) :=
  match assemble host repl toDeletePattern mapping with
  | .error e => .error (e.1, e.2.mapping)
  | .ok st =>
    let g0 : Molecule := { atoms := st.natoms, bonds := st.nbonds }
    let g1 := hPass ext.calcH g0
    let g2 := stereoAtomPass ext.st host (ext.st.tetra g1) (ext.st.allenes g1)
                (ext.st.tetra host) (ext.st.allenes host) st.stereoAtoms g1
    let g3 := stereoBondPass ext.st host (ext.st.ctTerm g2) (ext.st.cisTrans g2)
                (ext.st.cisTrans host) st.stereoBonds g2
    let r := finalize ext.fin fixRings fixTautomers g3
    .ok (r.1, st.mapping)

/-! ## Concrete instances used by the example-level theorems -/

/-- A plain carbon atom. -/
def cAtom : Atom := { anum := 6 }

/-- The empty molecule (`structure.__class__()`). -/
def emptyMol : Molecule := { atoms := [], bonds := [] }

/-- Scenario B host connectivity: `A=1, B=2, C=3, D=4` with bonds `A-B`,
`B-C`, `B-D`, `D-C` (symmetric adjacency, single bonds). -/
def branchBonds : List (Nat × List (Nat × Bond)) :=
  [(1, [(2, ⟨1, none⟩)]),
   (2, [(1, ⟨1, none⟩), (3, ⟨1, none⟩), (4, ⟨1, none⟩)]),
   (3, [(2, ⟨1, none⟩), (4, ⟨1, none⟩)]),
   (4, [(2, ⟨1, none⟩), (3, ⟨1, none⟩)])]

/-- Stereocenter-index instantiation whose indices are all empty and whose
sign translations return the old sign (defaulting to `true`). -/
def trivialStereoExt : StereoExt :=
  { tetra := fun _ => [], allenes := fun _ => [], cisTrans := fun _ => [],
    ctTerm := fun _ => [],
    transTetra := fun _ _ _ s => s.getD true,
    transAllene := fun _ _ _ _ s => s.getD true,
    transCT := fun _ _ _ _ _ s => s.getD true }

/-- Finalization externals where `thiele` reports that it aromatized a ring. -/
def finThieleChanged : FinExt :=
  { kek := id, thiele := fun _ g => (g, true), fixS := id }

/-- A 4-atom chain `1-2=3-4` whose double bond `(2,3)` carries a cis/trans
stereo label. -/
def c2Host : Molecule :=
  { atoms := [(1, cAtom), (2, cAtom), (3, cAtom), (4, cAtom)],
    bonds := [(1, [(2, ⟨1, none⟩)]),
              (2, [(1, ⟨1, none⟩), (3, ⟨2, some true⟩)]),
              (3, [(2, ⟨2, some true⟩), (4, ⟨1, none⟩)]),
              (4, [(3, ⟨1, none⟩)])] }

/-- The same chain as freshly assembled by the patcher: the marked bond
`(2,3)` carries no label yet. -/
def c2New : Molecule :=
  { atoms := [(1, cAtom), (2, cAtom), (3, cAtom), (4, cAtom)],
    bonds := [(1, [(2, ⟨1, none⟩)]),
              (2, [(1, ⟨1, none⟩), (3, ⟨2, none⟩)]),
              (3, [(2, ⟨2, none⟩), (4, ⟨1, none⟩)]),
              (4, [(3, ⟨1, none⟩)])] }

/-- Cis/trans terminals of the `(2,3)` system, identical for old and new. -/
def c2Term : List (Nat × (Nat × Nat)) := [(2, (2, 3)), (3, (2, 3))]

/-- Terminal environment of the `(2,3)` system, identical for old and new. -/
def c2Env : List ((Nat × Nat) × List Nat) := [((2, 3), [1, 4])]

/-- Identity-law host: a 4-atom chain `1-2=3-4`, carbons with known
hydrogen counts, and a cis/trans stereo label on the double bond `(2,3)`. -/
def idHost : Molecule :=
  { atoms := [(1, { cAtom with hyd := some 3 }), (2, { cAtom with hyd := some 1 }),
              (3, { cAtom with hyd := some 1 }), (4, { cAtom with hyd := some 3 })],
    bonds := [(1, [(2, ⟨1, none⟩)]),
              (2, [(1, ⟨1, none⟩), (3, ⟨2, some true⟩)]),
              (3, [(2, ⟨2, some true⟩), (4, ⟨1, none⟩)]),
              (4, [(3, ⟨1, none⟩)])] }

/-- Identity-law template: structurally identical to the matched fragment —
four `AnyElement` atoms with the host's charges and radical flags, no
stereo overrides, and the host's bonds with the host's orders. -/
def idRepl : Replacement :=
  { atoms := [(1, .anyE 0 false none), (2, .anyE 0 false none),
              (3, .anyE 0 false none), (4, .anyE 0 false none)],
    bonds := [(1, [(2, ⟨1, none⟩)]),
              (2, [(1, ⟨1, none⟩), (3, ⟨2, none⟩)]),
              (3, [(2, ⟨2, none⟩), (4, ⟨1, none⟩)]),
              (4, [(3, ⟨1, none⟩)])] }

/-- Identity mapping of the four matched atoms. -/
def idMap : List (Nat × Nat) := [(1, 1), (2, 2), (3, 3), (4, 4)]

/-- Externals for the identity scenario: the hydrogen-count routine returns
the host's counts, the stereocenter index reports the `(2,3)` cis/trans
system with identical terminals/environment for any graph of this shape,
sign translation returns the old sign, finalization routines change
nothing. -/
def idExt : Ext :=
  { calcH := fun _ k => ((dget idHost.atoms k).getD dummyAtom).hyd,
    st := { tetra := fun _ => [], allenes := fun _ => [],
            cisTrans := fun _ => [((2, 3), [1, 4])],
            ctTerm := fun _ => [(2, (2, 3)), (3, (2, 3))],
            transTetra := fun _ _ _ s => s.getD true,
            transAllene := fun _ _ _ _ s => s.getD true,
            transCT := fun _ _ _ _ _ s => s.getD true },
    fin := { kek := id, thiele := fun _ g => (g, false), fixS := id } }

/-- What the patcher actually returns on the identity scenario: the host
graph with the `(2,3)` stereo label lost. -/
def idLost : Molecule :=
  { atoms := idHost.atoms,
    bonds := [(1, [(2, ⟨1, none⟩)]),
              (2, [(1, ⟨1, none⟩), (3, ⟨2, none⟩)]),
              (3, [(2, ⟨2, none⟩), (4, ⟨1, none⟩)]),
              (4, [(3, ⟨1, none⟩)])] }

/-- A template atom that makes the atom loop raise: an `AnyElement` with no
(truthy) mapping entry, or a `QueryElement` at an unmapped position with
more than one implicit-hydrogen alternative. -/
def offends (mapping : List (Nat × Nat)) (p : Nat × TAtom) : Bool :=
  match p.2 with
  | .anyE _ _ _ => (pyGet mapping p.1).isNone
  | .queryE _ _ _ _ _ hydList => (pyGet mapping p.1).isNone && decide (1 < hydList.length)
  | .elemE _ _ _ _ _ _ _ _ => false

/-- The mapping as the caller observes it after the atom loop, whether the
loop succeeded or raised (the dict is mutated in place). -/
def loopMapping : Except (PatchErr × AsmState) AsmState → List (Nat × Nat)
  | .ok st => st.mapping
  | .error e => e.2.mapping

/-- Template whose first atom is an unmapped `QueryElement` (allocating a
fresh identifier) and whose second is an unmatched `AnyElement` (raising
after the allocation). -/
def freshThenAnyRepl : Replacement :=
  { atoms := [(10, .queryE 6 none 0 false none []), (11, .anyE 0 false none)],
    bonds := [] }

/-- Host with one atom, for the error-characterization witness. -/
def oneAtomHost : Molecule := { atoms := [(1, cAtom)], bonds := [(1, [])] }

/-- Template with a single unmatched `AnyElement` atom. -/
def unmatchedAnyRepl : Replacement :=
  { atoms := [(5, .anyE 0 false none)], bonds := [] }

/-- Template with one `QueryElement` atom mapped onto host atom 1. -/
def c9Repl : Replacement :=
  { atoms := [(1, .queryE 6 none 0 false none [])], bonds := [] }

/-- The assembled state of the mapped-query scenario (host `idHost`,
mapping `1 ↦ 1`). -/
def c9St : AsmState :=
  match assemble idHost c9Repl [] [(1, 1)] with
  | .ok st => st
  | .error e => e.2

/-- Template with a single fresh `Element` atom carrying an explicit
hydrogen count. -/
def freshElemRepl : Replacement :=
  { atoms := [(10, .elemE 7 none 0 false none (some 2) 1 1)], bonds := [] }

/-- Host for the stereo-support counterexample: two bonded atoms. -/
def c4Host : Molecule :=
  { atoms := [(1, cAtom), (2, cAtom)],
    bonds := [(1, [(2, ⟨1, none⟩)]), (2, [(1, ⟨1, none⟩)])] }

/-- Template mapping onto host atom 1 with an explicit stereo override and
a fresh atom bonded to it, so atom 1's neighbour set changes. -/
def c4Repl : Replacement :=
  { atoms := [(1, .queryE 6 none 0 false (some true) []),
              (3, .queryE 6 none 0 false none [])],
    bonds := [(1, [(3, ⟨1, none⟩)]), (3, [(1, ⟨1, none⟩)])] }

/-- Externals whose stereocenter index reports atom 1 tetrahedral. -/
def c4Ext : Ext :=
  { calcH := fun _ _ => some 0,
    st := { tetra := fun _ => [(1, [])], allenes := fun _ => [],
            cisTrans := fun _ => [], ctTerm := fun _ => [],
            transTetra := fun _ _ _ s => s.getD true,
            transAllene := fun _ _ _ _ s => s.getD true,
            transCT := fun _ _ _ _ _ s => s.getD true },
    fin := { kek := id, thiele := fun _ g => (g, false), fixS := id } }

/-- The output graph of the stereo-support counterexample. -/
def c4Out : Molecule :=
  match patcher c4Ext c4Host c4Repl [] false false [(1, 1)] with
  | .ok r => r.1
  | .error _ => emptyMol

/-- Conservation-scenario host: chain `1-2-3` with single bonds. -/
def c5Host : Molecule :=
  { atoms := [(1, cAtom), (2, cAtom), (3, cAtom)],
    bonds := [(1, [(2, ⟨1, none⟩)]),
              (2, [(1, ⟨1, none⟩), (3, ⟨1, none⟩)]),
              (3, [(2, ⟨1, none⟩)])] }

/-- Conservation-scenario template: one `Element` atom replacing host atom
1 plus one fresh `Element` atom, no template bonds. -/
def c5Repl : Replacement :=
  { atoms := [(1, .elemE 6 none 0 false none (some 3) 0 0),
              (5, .elemE 8 none 0 false none (some 1) 0 0)],
    bonds := [] }

/-- Conservation-scenario mapping: pattern atoms 1 and 2 onto host atoms
1 and 2; pattern atom 2 is slated for deletion. -/
def c5Map : List (Nat × Nat) := [(1, 1), (2, 2)]

/-- The output of the conservation scenario. -/
def c5Res : Molecule × List (Nat × Nat) :=
  match patcher idExt c5Host c5Repl [2] false false c5Map with
  | .ok r => r
  | .error _ => (emptyMol, [])

/-! ### Allocation-instrumented model of the same lines, for the frame
property

`_patcher` manipulates heap objects: atom and bond values live in mutable
cells, dict entries hold references, `sa.copy()` / `Element.from_...` /
`Bond(int(rb))` / `.copy(...)` allocate fresh cells,
`nbonds[n][m] = nbonds[m][n]` shares a reference, and
`natoms[n]._stereo = s` or `calc_implicit` writes through a reference.  The
pure model above cannot say which object a write lands on, so lines 72-190
are embedded a second time over an explicit store: cells are addressed by
identity, a bump allocator hands out fresh addresses, and graphs hold cell
addresses instead of values.  Every read-only collaborator (the deletion
walk, the stereocenter indices, the sign translators, `calc_implicit`)
observes a graph through `realize`; the finalization externals of lines
193-198 are methods of `new` and receive only the realized new graph. -/

/-- A heap of atom cells and bond cells with a bump allocator. -/
structure Store where
  acells : List (Nat × Atom)
  bcells : List (Nat × Bond)
  anext : Nat
  bnext : Nat
deriving Repr, DecidableEq

/-- Allocate a fresh atom cell, returning its address. -/
def allocA (s : Store) (a : Atom) : Store × Nat :=
  ({ s with acells := s.acells ++ [(s.anext, a)], anext := s.anext + 1 }, s.anext)

/-- Allocate a fresh bond cell, returning its address. -/
def allocB (s : Store) (b : Bond) : Store × Nat :=
  ({ s with bcells := s.bcells ++ [(s.bnext, b)], bnext := s.bnext + 1 }, s.bnext)

/-- Dereference an atom cell. -/
def readA (s : Store) (c : Nat) : Atom := (s.acells.lookup c).getD dummyAtom

/-- Dereference a bond cell. -/
def readB (s : Store) (c : Nat) : Bond := (s.bcells.lookup c).getD dummyBond

/-- Mutate an atom cell in place. -/
def writeA (s : Store) (c : Nat) (f : Atom → Atom) : Store :=
  { s with acells := updVal s.acells c f }

/-- A molecular graph by reference: the tables hold cell addresses. -/
structure MoleculeRef where
  atoms : List (Nat × Nat)
  bonds : List (Nat × List (Nat × Nat))
deriving Repr, DecidableEq

/-- Realize a reference graph into a value graph. -/
def realize (s : Store) (g : MoleculeRef) : Molecule :=
  { atoms := g.atoms.map (fun p => (p.1, readA s p.2)),
    bonds := g.bonds.map (fun p => (p.1, p.2.map (fun q => (q.1, readB s q.2)))) }

/-- Adjacency keys of a reference bond table (`dict.keys()` view). -/
def adjR (bonds : List (Nat × List (Nat × Nat))) (n : Nat) : List Nat :=
  dkeys ((dget bonds n).getD [])

/-- `atoms[m]` on the host reference graph. -/
def hostAtomVal (s : Store) (hostRef : MoleculeRef) (m : Nat) : Atom :=
  match dget hostRef.atoms m with
  | some c => readA s c
  | none => dummyAtom

/-- Assembly state over the store: as `AsmState`, with the new graph's
tables holding cell addresses. -/
structure AsmStateS where
  natoms : List (Nat × Nat)
  nbonds : List (Nat × List (Nat × Nat))
  mapping : List (Nat × Nat)
  maxAtom : Nat
  stereoAtoms : List Nat
  stereoBonds : List (Nat × Nat)
deriving Repr, DecidableEq

/-- `nbonds[n][m] = c` over reference tables. -/
def bputS (bs : List (Nat × List (Nat × Nat))) (n m c : Nat) :
    List (Nat × List (Nat × Nat)) :=
  dput bs n (dput ((dget bs n).getD []) m c)

/-- `atomStep` over the store: every atom placed in `natoms` is a freshly
allocated cell (`sa.copy()` at line 89, the `Element` constructors at
lines 100-101). -/
def atomStepS (hostRef : MoleculeRef) (s : Store) (st : AsmStateS) (n : Nat)
    (ra : TAtom) : Except (PatchErr × (Store × AsmStateS)) (Store × AsmStateS) :=
  match ra with
  | .anyE charge isRadical stereo =>
    match pyGet st.mapping n with
    | some m =>
      let sa := hostAtomVal s hostRef m
      let a0 := { sa.copy with charge := charge, isRadical := isRadical }
      let a := if stereo.isSome then { a0 with stereo := stereo } else a0
      let st1 := if stereo.isSome then st
        else if sa.stereo.isSome then { st with stereoAtoms := st.stereoAtoms ++ [m] }
        else st
      let r := allocA s a
      .ok (r.1, { st1 with natoms := dput st1.natoms m r.2,
                           nbonds := dput st1.nbonds m [] })
    | none => .error (.unmatchedAny, (s, st))
  | .queryE anum isotope charge isRadical stereo hydList =>
    let a0 : Atom := { anum := anum, isotope := isotope, charge := charge,
                       isRadical := isRadical }
    match pyGet st.mapping n with
    | none =>
      let m := st.maxAtom + 1
      let st1 := { st with maxAtom := m, mapping := dput st.mapping n m }
      let a1 := { a0 with stereo := stereo }
      if hydList.length = 1 then
        let r := allocA s { a1 with hyd := some (hydList.headD 0) }
        .ok (r.1, { st1 with natoms := dput st1.natoms m r.2,
                             nbonds := dput st1.nbonds m [] })
      else if hydList.isEmpty then
        let r := allocA s a1
        .ok (r.1, { st1 with natoms := dput st1.natoms m r.2,
                             nbonds := dput st1.nbonds m [] })
      else .error (.ambiguousHydrogens, (s, st1))
    | some m =>
      let sa := hostAtomVal s hostRef m
      let a1 := { a0 with x := sa.x, y := sa.y }
      let a := if stereo.isSome then { a1 with stereo := stereo } else a1
      let st1 := if stereo.isSome then st
        else if sa.stereo.isSome then { st with stereoAtoms := st.stereoAtoms ++ [m] }
        else st
      let r := allocA s a
      .ok (r.1, { st1 with natoms := dput st1.natoms m r.2,
                           nbonds := dput st1.nbonds m [] })
  | .elemE anum isotope charge isRadical stereo hyd x y =>
    let a0 : Atom := { anum := anum, isotope := isotope, charge := charge,
                       isRadical := isRadical }
    match pyGet st.mapping n with
    | none =>
      let m := st.maxAtom + 1
      let st1 := { st with maxAtom := m, mapping := dput st.mapping n m }
      let r := allocA s { a0 with stereo := stereo, hyd := hyd, x := x, y := y }
      .ok (r.1, { st1 with natoms := dput st1.natoms m r.2,
                           nbonds := dput st1.nbonds m [] })
    | some m =>
      let sa := hostAtomVal s hostRef m
      let a1 := { a0 with x := sa.x, y := sa.y }
      let a := if stereo.isSome then { a1 with stereo := stereo } else a1
      let st1 := if stereo.isSome then st
        else if sa.stereo.isSome then { st with stereoAtoms := st.stereoAtoms ++ [m] }
        else st
      let r := allocA s a
      .ok (r.1, { st1 with natoms := dput st1.natoms m r.2,
                           nbonds := dput st1.nbonds m [] })

/-- The atom loop over the store. -/
def atomLoopS (hostRef : MoleculeRef) :
    List (Nat × TAtom) → Store → AsmStateS →
      Except (PatchErr × (Store × AsmStateS)) (Store × AsmStateS)
  | [], s, st => .ok (s, st)
  | (n, ra) :: rest, s, st =>
    match atomStepS hostRef s st n ra with
    | .ok r => atomLoopS hostRef rest r.1 r.2
    | .error e => .error e

/-- `templateBondStep` over the store: the back-link at lines 131-132
shares the cell of the sibling entry of the new table, every other branch
allocates a fresh bond cell (`Bond(int(rb))` at line 134). -/
def templateBondStepS (hostRef : MoleculeRef) (s : Store) (st : AsmStateS)
    (n m : Nat) (rb : TBond) : Store × AsmStateS :=
  match ((dget st.nbonds m).getD []).lookup n with
  | some c =>
    (s, { st with nbonds := bputS st.nbonds n m c })
  | none =>
    let b0 : Bond := { order := rb.order }
    match rb.stereo with
    | some sg =>
      let r := allocB s { b0 with stereo := some sg }
      (r.1, { st with nbonds := bputS st.nbonds n m r.2 })
    | none =>
      match (dget hostRef.bonds n).bind (fun sbn => sbn.lookup m) with
      | some cb =>
        if (readB s cb).stereo.isSome then
          let r := allocB s b0
          (r.1, { st with nbonds := bputS st.nbonds n m r.2,
                          stereoBonds := st.stereoBonds ++ [(n, m)] })
        else
          let r := allocB s b0
          (r.1, { st with nbonds := bputS st.nbonds n m r.2 })
      | none =>
        let r := allocB s b0
        (r.1, { st with nbonds := bputS st.nbonds n m r.2 })

/-- The template-bond loop over the store. -/
def templateBondLoopS (hostRef : MoleculeRef)
    (rbonds : List (Nat × List (Nat × TBond))) (s : Store) (st : AsmStateS) :
    Store × AsmStateS :=
  rbonds.foldl (fun acc p =>
    let n := (acc.2.mapping.lookup p.1).getD 0
    p.2.foldl (fun acc q =>
      let m := (acc.2.mapping.lookup q.1).getD 0
      templateBondStepS hostRef acc.1 acc.2 n m q.2) acc) (s, st)

/-- Carry-over of unmatched or masked atoms over the store: line 145
allocates a fresh cell holding `a.copy(hydrogens=True, stereo=True)`. -/
def carryAtomsS (hostRef : MoleculeRef) (toDelete patched : List Nat)
    (s : Store) (st : AsmStateS) : Store × AsmStateS :=
  hostRef.atoms.foldl (fun acc p =>
    if p.1 ∉ patched ∧ p.1 ∉ toDelete then
      let r := allocA acc.1 ((readA acc.1 p.2).copy true true)
      (r.1, { acc.2 with natoms := dput acc.2.natoms p.1 r.2,
                         nbonds := dput acc.2.nbonds p.1 [] })
    else acc) (s, st)

/-- `carryBondStep` over the store: the back-link at lines 155-156 shares a
new-table cell, lines 160 and 163 allocate fresh copies of the host bond. -/
def carryBondStepS (toDelete patched : List Nat) (s : Store) (st : AsmStateS)
    (n m cb : Nat) : Store × AsmStateS :=
  if m ∈ toDelete ∨ (n ∈ patched ∧ m ∈ patched) then (s, st)
  else
    match ((dget st.nbonds m).getD []).lookup n with
    | some c => (s, { st with nbonds := bputS st.nbonds n m c })
    | none =>
      let b := readB s cb
      if b.stereo.isSome ∧ (n ∈ patched ∨ m ∈ patched) then
        let r := allocB s b.copy
        (r.1, { st with nbonds := bputS st.nbonds n m r.2,
                        stereoBonds := st.stereoBonds ++ [(n, m)] })
      else
        let r := allocB s (b.copy true)
        (r.1, { st with nbonds := bputS st.nbonds n m r.2 })

/-- The carry-over bond loop over the store. -/
def carryBondsS (hostRef : MoleculeRef) (toDelete patched : List Nat)
    (s : Store) (st : AsmStateS) : Store × AsmStateS :=
  hostRef.bonds.foldl (fun acc p =>
    if p.1 ∈ toDelete then acc
    else p.2.foldl (fun acc q =>
      carryBondStepS toDelete patched acc.1 acc.2 p.1 q.1 q.2) acc) (s, st)

/-- Lines 165-167 over the store: `calc_implicit` writes the hydrogen count
through the new table's cell reference. -/
def hfoldS (calcH : Molecule → Nat → Option Nat) (nref : MoleculeRef)
    (l : List (Nat × Nat)) (s : Store) : Store :=
  l.foldl (fun s p =>
    if (readA s p.2).hyd = none then
      writeA s p.2 (fun a => { a with hyd := calcH (realize s nref) p.1 })
    else s) s

/-- One marked-atom iteration (lines 171-184) over the store:
`natoms[n]._stereo = s` writes through the new table's cell reference. -/
def stereoAtomStepS (ext : StereoExt) (host : Molecule)
    (tetraNew alleneNew hostTetra hostAllene : List (Nat × List Nat))
    (nref : MoleculeRef) (s : Store) (n : Nat) : Store :=
  if (tetraNew.lookup n).isSome then
    if listSetEq (adj host.bonds n) (adjR nref.bonds n) then
      let sg := ext.transTetra (realize s nref) n ((hostTetra.lookup n).getD [])
                  (atomStereoOf host n)
      match nref.atoms.lookup n with
      | some c => writeA s c (fun a => { a with stereo := some sg })
      | none => s
    else s
  else if (alleneNew.lookup n).isSome then
    if listSetEq ((alleneNew.lookup n).getD []) ((hostAllene.lookup n).getD []) then
      let env := (hostAllene.lookup n).getD []
      let sg := ext.transAllene (realize s nref) n (env.headD 0) ((env.drop 1).headD 0)
                  (atomStereoOf host n)
      match nref.atoms.lookup n with
      | some c => writeA s c (fun a => { a with stereo := some sg })
      | none => s
    else s
  else s

/-- The marked-atom loop over the store. -/
def stereoAtomPassS (ext : StereoExt) (host : Molecule)
    (tetraNew alleneNew hostTetra hostAllene : List (Nat × List Nat))
    (nref : MoleculeRef) (marked : List Nat) (s : Store) : Store :=
  marked.foldl (stereoAtomStepS ext host tetraNew alleneNew hostTetra hostAllene nref) s

/-- One marked-bond iteration (lines 186-191) over the store: the sign
computed at line 190 is discarded, so no cell is written. -/
def stereoBondStepS (ext : StereoExt) (host : Molecule)
    (ctTermNew : List (Nat × (Nat × Nat)))
    (ctNew ctHost : List ((Nat × Nat) × List Nat))
    (nref : MoleculeRef) (s : Store) (nm : Nat × Nat) : Store :=
  match ctTermNew.lookup nm.1, ctTermNew.lookup nm.2 with
  | some t1, some t2 =>
    if t1 = t2 then
      if listSetEq ((ctNew.lookup t1).getD []) ((ctHost.lookup t1).getD []) then
        let env := (ctHost.lookup t1).getD []
        let _ := ext.transCT (realize s nref) t1.1 t1.2 (env.headD 0)
                   ((env.drop 1).headD 0) (bondStereoOf host nm.1 nm.2)
        s
      else s
    else s
  | _, _ => s

/-- The marked-bond loop over the store. -/
def stereoBondPassS (ext : StereoExt) (host : Molecule)
    (ctTermNew : List (Nat × (Nat × Nat)))
    (ctNew ctHost : List ((Nat × Nat) × List Nat))
    (nref : MoleculeRef) (marked : List (Nat × Nat)) (s : Store) : Store :=
  marked.foldl (stereoBondStepS ext host ctTermNew ctNew ctHost nref) s

/-- The store phase of `_patcher` (lines 72-190): assembly plus the
in-place hydrogen and stereo passes over the heap.  Lines 193-198 then hand
`realize s ⟨st.natoms, st.nbonds⟩` — the new graph, owning only its own
cells — to the finalization externals. -/
def patcherS (ext : Ext) (s0 : Store) (hostRef : MoleculeRef) (repl : Replacement)
    (toDeletePattern : List Nat) (mapping : List (Nat × Nat)) :
    Except (PatchErr × (Store × AsmStateS)) (Store × AsmStateS) :=
  let host := realize s0 hostRef
  let toDelete := getDeleted host mapping toDeletePattern
  let st0 : AsmStateS := { natoms := [], nbonds := [], mapping := mapping,
                           maxAtom := maxKey host.atoms, stereoAtoms := [],
                           stereoBonds := [] }
  match atomLoopS hostRef repl.atoms s0 st0 with
  | .error e => .error e
  | .ok r1 =>
    let r2 := templateBondLoopS hostRef repl.bonds r1.1 r1.2
    let patched := dkeys r2.2.natoms
    let r3 := carryAtomsS hostRef toDelete patched r2.1 r2.2
    let r4 := carryBondsS hostRef toDelete patched r3.1 r3.2
    let st := r4.2
    let nref : MoleculeRef := { atoms := st.natoms, bonds := st.nbonds }
    let s5 := hfoldS ext.calcH nref st.natoms r4.1
    let g1 := realize s5 nref
    let s6 := stereoAtomPassS ext.st host (ext.st.tetra g1) (ext.st.allenes g1)
                (ext.st.tetra host) (ext.st.allenes host) nref st.stereoAtoms s5
    let g2 := realize s6 nref
    let s7 := stereoBondPassS ext.st host (ext.st.ctTerm g2) (ext.st.cisTrans g2)
                (ext.st.cisTrans host) nref st.stereoBonds s6
    .ok (s7, st)

/-- Host preservation: the allocator only grows, and every cell address
allocated before the call still resolves exactly as before — no host cell
is ever written. -/
def PresBelow (s0 s : Store) : Prop :=
  s0.anext ≤ s.anext ∧ s0.bnext ≤ s.bnext
  ∧ (∀ c, c < s0.anext → s.acells.lookup c = s0.acells.lookup c)
  ∧ (∀ c, c < s0.bnext → s.bcells.lookup c = s0.bcells.lookup c)

/-- Freshness of the new graph's tables: every atom cell and bond cell they
reference was allocated during the call — no entry aliases host state. -/
def TablesFresh (s0 : Store) (st : AsmStateS) : Prop :=
  (∀ p ∈ st.natoms, s0.anext ≤ (p : Nat × Nat).2)
  ∧ (∀ p ∈ st.nbonds, ∀ q ∈ (p : Nat × List (Nat × Nat)).2, s0.bnext ≤ (q : Nat × Nat).2)

/-- Store scenario encoding the conservation host `1-2-3`: three atom cells
and four bond cells, next addresses 3 and 4. -/
def c8Store : Store :=
  { acells := [(0, cAtom), (1, cAtom), (2, cAtom)],
    bcells := [(0, ⟨1, none⟩), (1, ⟨1, none⟩), (2, ⟨1, none⟩), (3, ⟨1, none⟩)],
    anext := 3, bnext := 4 }

/-- Reference graph of the store scenario (realizes to `c5Host`). -/
def c8HostRef : MoleculeRef :=
  { atoms := [(1, 0), (2, 1), (3, 2)],
    bonds := [(1, [(2, 0)]), (2, [(1, 1), (3, 2)]), (3, [(2, 3)])] }

/-- The store and assembly tables produced by the store phase on the
scenario. -/
def c8Res : Store × AsmStateS :=
  match patcherS idExt c8Store c8HostRef c5Repl [2] c5Map with
  | .ok r => r
  | .error _ => (c8Store, { natoms := [], nbonds := [], mapping := [],
                            maxAtom := 0, stereoAtoms := [], stereoBonds := [] })

/-! ## Helper lemmas: Python-set operations -/

theorem mem_sinsert {x k : Nat} {s : List Nat} : x ∈ sinsert k s ↔ x = k ∨ x ∈ s := by
  unfold sinsert
  by_cases h : k ∈ s <;> simp [h, List.mem_append]
  · rintro rfl
    exact h
  · exact Or.comm

theorem mem_supdate {x : Nat} {s xs : List Nat} : x ∈ supdate s xs ↔ x ∈ s ∨ x ∈ xs := by
  induction xs generalizing s with
  | nil => simp [supdate]
  | cons k ks ih =>
    show x ∈ supdate (sinsert k s) ks ↔ _
    rw [ih, mem_sinsert]
    simp
    tauto

/-! ## Helper lemmas: the deletion walk never commits a retained atom -/

theorem walkLoop_seen_disjoint (bonds : List (Nat × List (Nat × Bond)))
    (toDelete remain : List Nat) :
    ∀ (stack seen g : List Nat) (r : Nat), r ∈ remain → r ∉ seen →
      r ∉ (walkLoop bonds toDelete remain stack seen g).2.1 := by
  intro stack seen g
  induction stack, seen, g using walkLoop.induct bonds toDelete remain with
  | case1 seen g =>
    intro r _ hs
    simpa [walkLoop] using hs
  | case2 current stack seen g h1 =>
    intro r _ hs
    simpa [walkLoop, h1] using hs
  | case3 current stack seen g h1 h2 ih =>
    intro r hr hs
    rw [walkLoop, if_neg h1, if_pos h2]
    exact ih r hr hs
  | case4 current stack seen g h1 h2 seen' g' pushed ih =>
    intro r hr hs
    rw [walkLoop, if_neg h1, if_neg h2]
    refine ih r hr ?_
    rw [mem_sinsert]
    rintro (rfl | h)
    · exact h1 hr
    · exact hs h

theorem neighborLoop_disjoint (bonds : List (Nat × List (Nat × Bond)))
    (toDelete remain : List Nat) :
    ∀ (ns : List Nat) (delete g : List Nat) (r : Nat), r ∈ remain → r ∉ delete →
      r ∉ (neighborLoop bonds toDelete remain ns (delete, g)).1 := by
  intro ns
  induction ns with
  | nil => intro delete g r _ hd; simpa [neighborLoop] using hd
  | cons n ns ih =>
    intro delete g r hr hd
    rw [neighborLoop]
    split
    next hskip => exact ih delete g r hr hd
    next hskip =>
      split
      next heq => exact ih delete _ r hr hd
      next seen g2 heq =>
        refine ih _ _ r hr ?_
        rw [mem_supdate]
        rintro (h | h)
        · exact hd h
        · have hseen := walkLoop_seen_disjoint bonds toDelete remain
            (((adj bonds n).filter (fun x => x ∉ sinsert n g)).reverse) [n] (sinsert n g) r hr
            (by
              intro hmem
              rcases List.mem_singleton.mp hmem with rfl
              exact hskip (Or.inr hr))
          rw [heq] at hseen
          exact hseen h

theorem foldNeighbor_disjoint (bonds : List (Nat × List (Nat × Bond)))
    (toDelete remain : List Nat) :
    ∀ (xs : List Nat) (st : List Nat × List Nat) (r : Nat), r ∈ remain → r ∉ st.1 →
      r ∉ (xs.foldl (fun st x => neighborLoop bonds toDelete remain (adj bonds x) st) st).1 := by
  intro xs
  induction xs with
  | nil => intro st r _ hd; simpa using hd
  | cons x xs ih =>
    intro st r hr hd
    rw [List.foldl_cons]
    exact ih _ r hr (neighborLoop_disjoint bonds toDelete remain (adj bonds x) st.1 st.2 r hr hd)

/-- A retained atom that is not itself in the core deletion set is never
deleted: committed branch atoms avoid `remain` by construction. -/
theorem getDeletedCore_remain_disjoint (bonds : List (Nat × List (Nat × Bond)))
    (toDelete remain : List Nat) (r : Nat) (hr : r ∈ remain) (hnd : r ∉ toDelete) :
    r ∉ getDeletedCore bonds toDelete remain := by
  unfold getDeletedCore
  rw [mem_supdate, mem_supdate]
  simp only [List.not_mem_nil, false_or]
  rintro (h | h)
  · exact hnd h
  · exact foldNeighbor_disjoint bonds toDelete remain toDelete ([], []) r hr
      (List.not_mem_nil r) h

/-- The instrumented neighbour loop agrees with the plain one on the
deletion set and the globally visited set. -/
theorem neighborLoopT_agree (bonds : List (Nat × List (Nat × Bond)))
    (toDelete remain : List Nat) :
    ∀ (ns : List Nat) (d g : List Nat) (tr : List (List Nat)),
      (neighborLoopT bonds toDelete remain ns (d, g, tr)).1
          = (neighborLoop bonds toDelete remain ns (d, g)).1
      ∧ (neighborLoopT bonds toDelete remain ns (d, g, tr)).2.1
          = (neighborLoop bonds toDelete remain ns (d, g)).2 := by
  intro ns
  induction ns with
  | nil =>
    intro d g tr
    exact ⟨rfl, rfl⟩
  | cons n rest ih =>
    intro d g tr
    rw [neighborLoopT, neighborLoop]
    split
    · exact ih d g tr
    · rcases hW : walkLoop bonds toDelete remain
          (((adj bonds n).filter (fun x => x ∉ sinsert n g)).reverse) [n] (sinsert n g)
        with ⟨b, seen, g2⟩
      cases b
      · exact ih _ _ _
      · exact ih _ _ _

/-- Through the instrumented loop the deletion set is exactly the union of
the recorded committed branches. -/
theorem neighborLoopT_mem (bonds : List (Nat × List (Nat × Bond)))
    (toDelete remain : List Nat) :
    ∀ (ns : List Nat) (d g : List Nat) (tr : List (List Nat)),
      (∀ k, k ∈ d ↔ ∃ s ∈ tr, k ∈ s) →
      ∀ k, k ∈ (neighborLoopT bonds toDelete remain ns (d, g, tr)).1
        ↔ ∃ s ∈ (neighborLoopT bonds toDelete remain ns (d, g, tr)).2.2, k ∈ s := by
  intro ns
  induction ns with
  | nil =>
    intro d g tr h k
    exact h k
  | cons n rest ih =>
    intro d g tr h k
    rw [neighborLoopT]
    split
    · exact ih d g tr h k
    · rcases hW : walkLoop bonds toDelete remain
          (((adj bonds n).filter (fun x => x ∉ sinsert n g)).reverse) [n] (sinsert n g)
        with ⟨b, seen, g2⟩
      cases b
      · refine ih _ g2 (tr ++ [seen]) ?_ k
        intro j
        rw [mem_supdate, h j]
        constructor
        · rintro (⟨s, hs, hj⟩ | hj)
          · exact ⟨s, List.mem_append.mpr (Or.inl hs), hj⟩
          · exact ⟨seen, List.mem_append.mpr (Or.inr (List.mem_singleton.mpr rfl)), hj⟩
        · rintro ⟨s, hs, hj⟩
          rcases List.mem_append.mp hs with hs1 | hs1
          · exact Or.inl ⟨s, hs1, hj⟩
          · rw [List.mem_singleton.mp hs1] at hj
            exact Or.inr hj
      · exact ih d g2 tr h k

/-- Committed branches recorded by the instrumented loop never contain a
retained atom: the walk breaks at line 60 before `seen` could take one. -/
theorem neighborLoopT_remain (bonds : List (Nat × List (Nat × Bond)))
    (toDelete remain : List Nat) :
    ∀ (ns : List Nat) (d g : List Nat) (tr : List (List Nat)),
      (∀ s ∈ tr, ∀ r ∈ remain, r ∉ s) →
      ∀ s ∈ (neighborLoopT bonds toDelete remain ns (d, g, tr)).2.2,
        ∀ r ∈ remain, r ∉ s := by
  intro ns
  induction ns with
  | nil =>
    intro d g tr h
    exact h
  | cons n rest ih =>
    intro d g tr h
    rw [neighborLoopT]
    split
    · exact ih d g tr h
    next hcond =>
      rcases hW : walkLoop bonds toDelete remain
          (((adj bonds n).filter (fun x => x ∉ sinsert n g)).reverse) [n] (sinsert n g)
        with ⟨b, seen, g2⟩
      cases b
      · refine ih _ g2 (tr ++ [seen]) ?_
        intro s hs r hr
        rcases List.mem_append.mp hs with hs1 | hs1
        · exact h s hs1 r hr
        · rw [List.mem_singleton.mp hs1]
          have hseen := walkLoop_seen_disjoint bonds toDelete remain
            (((adj bonds n).filter (fun x => x ∉ sinsert n g)).reverse) [n] (sinsert n g) r hr
            (by
              intro hmem
              rcases List.mem_singleton.mp hmem with rfl
              exact hcond (Or.inr hr))
          rw [hW] at hseen
          exact hseen
      · exact ih d g2 tr h

/-- Agreement of the traced and plain folds over the core deletion set. -/
theorem foldNeighborT_agree (bonds : List (Nat × List (Nat × Bond)))
    (toDelete remain : List Nat) :
    ∀ (xs : List Nat) (d g : List Nat) (tr : List (List Nat)),
      (xs.foldl (fun st x => neighborLoopT bonds toDelete remain (adj bonds x) st)
          (d, g, tr)).1
        = (xs.foldl (fun st x => neighborLoop bonds toDelete remain (adj bonds x) st)
          (d, g)).1 := by
  intro xs
  induction xs with
  | nil =>
    intro d g tr
    rfl
  | cons x rest ih =>
    intro d g tr
    rw [List.foldl_cons, List.foldl_cons]
    rcases hT : neighborLoopT bonds toDelete remain (adj bonds x) (d, g, tr)
      with ⟨d1, g1, tr1⟩
    rcases hP : neighborLoop bonds toDelete remain (adj bonds x) (d, g) with ⟨d2, g2⟩
    have hag := neighborLoopT_agree bonds toDelete remain (adj bonds x) d g tr
    rw [hT, hP] at hag
    have e1 : d1 = d2 := hag.1
    have e2 : g1 = g2 := hag.2
    subst e1
    subst e2
    exact ih d1 g1 tr1

/-- The traced fold's deletion set is exactly the union of its recorded
committed branches. -/
theorem foldNeighborT_mem (bonds : List (Nat × List (Nat × Bond)))
    (toDelete remain : List Nat) :
    ∀ (xs : List Nat) (d g : List Nat) (tr : List (List Nat)),
      (∀ k, k ∈ d ↔ ∃ s ∈ tr, k ∈ s) →
      ∀ k, k ∈ (xs.foldl (fun st x => neighborLoopT bonds toDelete remain (adj bonds x) st)
            (d, g, tr)).1
        ↔ ∃ s ∈ (xs.foldl
            (fun st x => neighborLoopT bonds toDelete remain (adj bonds x) st)
            (d, g, tr)).2.2, k ∈ s := by
  intro xs
  induction xs with
  | nil =>
    intro d g tr h k
    exact h k
  | cons x rest ih =>
    intro d g tr h k
    rw [List.foldl_cons]
    rcases hT : neighborLoopT bonds toDelete remain (adj bonds x) (d, g, tr)
      with ⟨d1, g1, tr1⟩
    refine ih d1 g1 tr1 ?_ k
    have hm := neighborLoopT_mem bonds toDelete remain (adj bonds x) d g tr h
    rw [hT] at hm
    exact hm

/-- The traced fold records no committed branch containing a retained
atom. -/
theorem foldNeighborT_remain (bonds : List (Nat × List (Nat × Bond)))
    (toDelete remain : List Nat) :
    ∀ (xs : List Nat) (d g : List Nat) (tr : List (List Nat)),
      (∀ s ∈ tr, ∀ r ∈ remain, r ∉ s) →
      ∀ s ∈ (xs.foldl (fun st x => neighborLoopT bonds toDelete remain (adj bonds x) st)
            (d, g, tr)).2.2, ∀ r ∈ remain, r ∉ s := by
  intro xs
  induction xs with
  | nil =>
    intro d g tr h
    exact h
  | cons x rest ih =>
    intro d g tr h
    rw [List.foldl_cons]
    rcases hT : neighborLoopT bonds toDelete remain (adj bonds x) (d, g, tr)
      with ⟨d1, g1, tr1⟩
    refine ih d1 g1 tr1 ?_
    have hr := neighborLoopT_remain bonds toDelete remain (adj bonds x) d g tr h
    rw [hT] at hr
    exact hr

/-- Membership characterization of the expanded deletion set: the core set
united with exactly the atoms of the committed (exhausting) walks. -/
theorem getDeletedCore_trace_char (bonds : List (Nat × List (Nat × Bond)))
    (toDelete remain : List Nat) (k : Nat) :
    k ∈ getDeletedCore bonds toDelete remain ↔
      k ∈ toDelete ∨ ∃ s ∈ committedSeens bonds toDelete remain, k ∈ s := by
  unfold getDeletedCore committedSeens
  rw [mem_supdate, mem_supdate]
  simp only [List.not_mem_nil, false_or]
  have hag := foldNeighborT_agree bonds toDelete remain toDelete [] [] []
  have hm := foldNeighborT_mem bonds toDelete remain toDelete [] [] []
    (fun j => by simp) k
  constructor
  · rintro (h | h)
    · exact Or.inl h
    · right
      rw [← hag] at h
      exact hm.mp h
  · rintro (h | h)
    · exact Or.inl h
    · right
      rw [← hag]
      exact hm.mpr h

/-- No committed branch contains a retained atom. -/
theorem committedSeens_remain (bonds : List (Nat × List (Nat × Bond)))
    (toDelete remain : List Nat) :
    ∀ s ∈ committedSeens bonds toDelete remain, ∀ r ∈ remain, r ∉ s := by
  unfold committedSeens
  exact foldNeighborT_remain bonds toDelete remain toDelete [] [] []
    (fun s hs => absurd hs (List.not_mem_nil s))

/-- Concrete run of the deletion analysis on the Scenario B host: the walk
seeded at `D` breaks on retained `C`, so only the core `{B}` is deleted. -/
theorem getDeletedCore_branch_eval : getDeletedCore branchBonds [2] [1, 3] = [2] := by
  simp [getDeletedCore, neighborLoop, walkLoop, adj, dget, dkeys, sinsert, supdate,
    branchBonds, List.lookup]

/-! ## C1: DeletionAnalyzer -/

/-- C1: `computeDeletions` returns the empty set on an empty core set;
otherwise it returns the core deletion set united with exactly the atoms
visited by the walks that exhausted (the committed branches), so a branch
whose walk reached a retained atom contributes nothing; no committed
branch contains a retained atom; a retained atom outside the core is never
deleted; and on host `A-B-C` plus `B-D` plus `D-C` with core deletion
`{B}` and retained `{A, C}` the result is exactly `{B}`, so `D` (which has
the alternate path `D-C` to the retained structure) is preserved. -/
theorem C1_computeDeletions :
    (∀ (bonds : List (Nat × List (Nat × Bond))) (remain : List Nat),
      getDeletedCore bonds [] remain = [])
    ∧ (∀ (bonds : List (Nat × List (Nat × Bond))) (toDelete remain : List Nat) (k : Nat),
        k ∈ getDeletedCore bonds toDelete remain ↔
          k ∈ toDelete ∨ ∃ s ∈ committedSeens bonds toDelete remain, k ∈ s)
    ∧ (∀ (bonds : List (Nat × List (Nat × Bond))) (toDelete remain : List Nat),
        ∀ s ∈ committedSeens bonds toDelete remain, ∀ r ∈ remain, r ∉ s)
    ∧ (∀ (bonds : List (Nat × List (Nat × Bond))) (toDelete remain : List Nat) (r : Nat),
        r ∈ remain → r ∉ toDelete → r ∉ getDeletedCore bonds toDelete remain)
    ∧ getDeletedCore branchBonds [2] [1, 3] = [2]
    ∧ (4 : Nat) ∉ getDeletedCore branchBonds [2] [1, 3] := by
  refine ⟨fun bonds remain => rfl, getDeletedCore_trace_char, committedSeens_remain,
    getDeletedCore_remain_disjoint, getDeletedCore_branch_eval, ?_⟩
  rw [getDeletedCore_branch_eval]
  decide

/-- Witness for C1 at concrete inputs: retained atom `3` (atom `C`) is not
deleted on the Scenario B host. -/
theorem C1_computeDeletions_witness :
    (3 : Nat) ∈ [1, 3] ∧ (3 : Nat) ∉ [2] ∧ (3 : Nat) ∉ getDeletedCore branchBonds [2] [1, 3] :=
  ⟨by decide, by decide,
    C1_computeDeletions.2.2.2.1 branchBonds [2] [1, 3] 3 (by decide) (by decide)⟩

/-! ## C2: the marked-bond stereo translation never writes its result -/

/-- One marked-bond iteration leaves the new graph unchanged in every
branch: the sign computed at line 190 is never assigned. -/
theorem stereoBondStep_eq (ext : StereoExt) (host : Molecule)
    (ctTermNew : List (Nat × (Nat × Nat))) (ctNew ctHost : List ((Nat × Nat) × List Nat))
    (g : Molecule) (nm : Nat × Nat) :
    stereoBondStep ext host ctTermNew ctNew ctHost g nm = g := by
  unfold stereoBondStep
  split
  · split
    · split
      · rfl
      · rfl
    · rfl
  · rfl

/-- The whole marked-bond pass is the identity on the graph. -/
theorem stereoBondPass_eq (ext : StereoExt) (host : Molecule)
    (ctTermNew : List (Nat × (Nat × Nat))) (ctNew ctHost : List ((Nat × Nat) × List Nat))
    (marked : List (Nat × Nat)) (g : Molecule) :
    stereoBondPass ext host ctTermNew ctNew ctHost marked g = g := by
  induction marked generalizing g with
  | nil => rfl
  | cons nm rest ih =>
    show stereoBondPass ext host ctTermNew ctNew ctHost rest
      (stereoBondStep ext host ctTermNew ctNew ctHost g nm) = g
    rw [stereoBondStep_eq]
    exact ih g

/-- C2: the claim fails on the code.  The marked-bond loop (lines 186-191)
computes the translated cis/trans sign but never assigns it, so the pass is
the identity on the new graph for every input; in particular on a concrete
system whose terminal atoms and environments agree exactly between old and
new graph (so the claim demands the translated label be assigned), the new
bond's stereo label stays absent while the old bond carried `some true`. -/
theorem C2_translate_cis_trans_discarded :
    (∀ (ext : StereoExt) (host : Molecule) (ctTermNew : List (Nat × (Nat × Nat)))
        (ctNew ctHost : List ((Nat × Nat) × List Nat))
        (marked : List (Nat × Nat)) (g : Molecule),
      stereoBondPass ext host ctTermNew ctNew ctHost marked g = g)
    ∧ c2Term.lookup 2 = some (2, 3)
    ∧ c2Term.lookup 3 = some (2, 3)
    ∧ bondStereoOf c2Host 2 3 = some true
    ∧ bondStereoOf (stereoBondPass trivialStereoExt c2Host c2Term c2Env c2Env
        [(2, 3)] c2New) 2 3 = none := by
  refine ⟨stereoBondPass_eq, by decide, by decide, by decide, ?_⟩
  rw [stereoBondPass_eq]
  decide

/-! ## C3: finalization call order -/

/-- C3 counterexample: with externals where the aromatization routine
reports that it altered ring aromatization (`thiele` returns `true`), the
claim requires the stereo-consistency fix to be invoked, but the source
(`if not new.thiele(...): new.fix_stereo()`) skips it. -/
theorem C3_counterexample :
    (finThieleChanged.thiele false (finThieleChanged.kek emptyMol)).2 = true
    ∧ FinStep.fixStereo ∉ (finalize finThieleChanged true false emptyMol).2 :=
  ⟨rfl, by decide⟩

/-- C3 amended: when `fixRings` is true the patcher invokes kekulization
then the aromatization routine, and invokes the stereo-consistency fix if
and only if the aromatization routine reports NO change (the routine fixes
stereo itself when it aromatized a ring); when `fixRings` is false only the
stereo-consistency fix is invoked. -/
theorem C3_finalize_calls :
    ∀ (fx : FinExt) (fixTautomers : Bool) (g : Molecule),
      ((finalize fx true fixTautomers g).2 =
        if (fx.thiele fixTautomers (fx.kek g)).2 then [FinStep.kekule, FinStep.thiele]
        else [FinStep.kekule, FinStep.thiele, FinStep.fixStereo])
      ∧ (FinStep.fixStereo ∈ (finalize fx true fixTautomers g).2 ↔
          (fx.thiele fixTautomers (fx.kek g)).2 = false)
      ∧ (finalize fx false fixTautomers g).2 = [FinStep.fixStereo] := by
  intro fx t g
  unfold finalize
  rcases hb : (fx.thiele t (fx.kek g)).2 <;> simp [hb]

/-! ## C7: identity law -/

/-- C7: the identity law fails on the code.  Applying a patch whose
replacement template is structurally identical to the matched host fragment
(same atoms, same bond orders, no deletions, identity mapping) returns the
host graph with the same atoms and connectivity but with the cis/trans
stereo label of the re-evaluated bond `(2,3)` absent instead of unchanged:
the marked-bond translation discards the translated sign (line 190), so the
output is not label-isomorphic to the host. -/
theorem C7_identity_law_fails :
    patcher idExt idHost idRepl [] false false idMap = .ok (idLost, idMap)
    ∧ idLost.atoms = idHost.atoms
    ∧ bondStereoOf idHost 2 3 = some true
    ∧ bondStereoOf idLost 2 3 = none
    ∧ idLost ≠ idHost := by
  refine ⟨rfl, by decide, by decide, by decide, by decide⟩

/-! ## Helper lemmas: dict updates and the atom loop -/

theorem lookup_updVal_ne {α : Type} (n : Nat) (f : α → α) (k : Nat) (hk : k ≠ n) :
    ∀ l : List (Nat × α), (updVal l n f).lookup k = l.lookup k := by
  intro l
  induction l with
  | nil => rfl
  | cons p rest ih =>
    rcases p with ⟨pk, pv⟩
    by_cases hp : pk = n
    · subst hp
      have hcons : updVal ((pk, pv) :: rest) pk f = (pk, f pv) :: updVal rest pk f := by
        simp [updVal]
      rw [hcons, List.lookup_cons, List.lookup_cons, beq_false_of_ne hk]
      exact ih
    · have hcons : updVal ((pk, pv) :: rest) n f = (pk, pv) :: updVal rest n f := by
        simp [updVal, hp]
      rw [hcons, List.lookup_cons, List.lookup_cons]
      cases k == pk
      · exact ih
      · rfl

theorem lookup_updVal_self {α : Type} (n : Nat) (f : α → α) :
    ∀ l : List (Nat × α), (updVal l n f).lookup n = (l.lookup n).map f := by
  intro l
  induction l with
  | nil => rfl
  | cons p rest ih =>
    rcases p with ⟨pk, pv⟩
    by_cases hp : pk = n
    · subst hp
      have hcons : updVal ((pk, pv) :: rest) pk f = (pk, f pv) :: updVal rest pk f := by
        simp [updVal]
      rw [hcons, List.lookup_cons, List.lookup_cons]
      have hb : (pk == pk) = true := by simp
      rw [hb]
      rfl
    · have hcons : updVal ((pk, pv) :: rest) n f = (pk, pv) :: updVal rest n f := by
        simp [updVal, hp]
      rw [hcons, List.lookup_cons, List.lookup_cons]
      have hb : (n == pk) = false := beq_false_of_ne (Ne.symm hp)
      rw [hb]
      exact ih

theorem dkeys_updVal {α : Type} (n : Nat) (f : α → α) :
    ∀ l : List (Nat × α), dkeys (updVal l n f) = dkeys l := by
  intro l
  induction l with
  | nil => rfl
  | cons p rest ih =>
    have hcons : dkeys (updVal (p :: rest) n f)
        = (if p.1 = n then (p.1, f p.2) else p).1 :: dkeys (updVal rest n f) := by
      simp [updVal, dkeys]
    rw [hcons, ih]
    by_cases hp : p.1 = n <;> simp [hp, dkeys]

theorem lookup_append_single {α : Type} (n : Nat) (v : α) (k : Nat) (hk : k ≠ n) :
    ∀ l : List (Nat × α), List.lookup k (l ++ [(n, v)]) = List.lookup k l := by
  intro l
  induction l with
  | nil => simp [List.lookup_cons, beq_false_of_ne hk]
  | cons p rest ih =>
    rcases p with ⟨pk, pv⟩
    simp only [List.cons_append, List.lookup_cons]
    cases k == pk
    · exact ih
    · rfl

theorem lookup_dput_ne {α : Type} (l : List (Nat × α)) (n : Nat) (v : α) (k : Nat)
    (hk : k ≠ n) : (dput l n v).lookup k = l.lookup k := by
  unfold dput
  split
  · exact lookup_updVal_ne n _ k hk l
  · exact lookup_append_single n v k hk l

theorem lookup_append_self {α : Type} (n : Nat) (v : α) :
    ∀ l : List (Nat × α), l.lookup n = none → List.lookup n (l ++ [(n, v)]) = some v := by
  intro l
  induction l with
  | nil =>
    intro _
    simp [List.lookup_cons]
  | cons p rest ih =>
    intro h
    rcases p with ⟨pk, pv⟩
    rw [List.lookup_cons] at h
    rw [List.cons_append, List.lookup_cons]
    cases hb : n == pk
    · rw [hb] at h
      exact ih h
    · rw [hb] at h
      exact absurd h (by simp)

theorem lookup_dput_self {α : Type} (l : List (Nat × α)) (n : Nat) (v : α) :
    (dput l n v).lookup n = some v := by
  unfold dput
  split
  next hsome =>
    rw [lookup_updVal_self]
    rcases Option.isSome_iff_exists.mp hsome with ⟨w, hw⟩
    rw [hw]
    rfl
  next hnone =>
    apply lookup_append_self
    cases hl : l.lookup n
    · rfl
    · rw [hl] at hnone
      exact absurd rfl hnone

theorem lookup_mem {α : Type} : ∀ (l : List (Nat × α)) (k : Nat) (a : α),
    l.lookup k = some a → (k, a) ∈ l := by
  intro l
  induction l with
  | nil => intro k a h; exact absurd h (by simp)
  | cons p rest ih =>
    intro k a h
    rcases p with ⟨pk, pv⟩
    rw [List.lookup_cons] at h
    cases hb : k == pk
    · rw [hb] at h
      exact List.mem_cons_of_mem _ (ih k a h)
    · rw [hb] at h
      injection h with h2
      have hkp : k = pk := eq_of_beq hb
      subst hkp
      subst h2
      exact List.mem_cons_self _ _

theorem lookup_isSome_iff_mem_dkeys {α : Type} :
    ∀ (l : List (Nat × α)) (k : Nat), (l.lookup k).isSome = true ↔ k ∈ dkeys l := by
  intro l
  induction l with
  | nil => intro k; simp [dkeys]
  | cons p rest ih =>
    intro k
    rcases p with ⟨pk, pv⟩
    rw [List.lookup_cons]
    cases hb : k == pk
    · have hne : k ≠ pk := by
        intro hkp
        subst hkp
        simp at hb
      show (List.lookup k rest).isSome = true ↔ k ∈ dkeys ((pk, pv) :: rest)
      rw [ih k]
      simp [dkeys, hne]
    · have hkp : k = pk := eq_of_beq hb
      subst hkp
      show (some pv).isSome = true ↔ k ∈ dkeys ((k, pv) :: rest)
      simp [dkeys]

theorem lookup_eq_none_of_not_mem_dkeys {α : Type} (l : List (Nat × α)) (k : Nat)
    (h : k ∉ dkeys l) : l.lookup k = none := by
  cases hl : l.lookup k
  · rfl
  · exact absurd ((lookup_isSome_iff_mem_dkeys l k).mp (by simp [hl])) h

theorem dput_of_not_mem {α : Type} (l : List (Nat × α)) (k : Nat) (v : α)
    (h : k ∉ dkeys l) : dput l k v = l ++ [(k, v)] := by
  unfold dput
  rw [lookup_eq_none_of_not_mem_dkeys l k h]
  rfl

theorem mem_dput {α : Type} (l : List (Nat × α)) (n : Nat) (v : α) (p : Nat × α)
    (h : p ∈ dput l n v) : p ∈ l ∨ p = (n, v) := by
  unfold dput at h
  split at h
  · rcases List.mem_map.mp h with ⟨q, hq, hfq⟩
    by_cases hqn : q.1 = n
    · right
      rw [← hfq]
      simp [updVal, hqn]
    · left
      rw [← hfq]
      simp [hqn]
      exact hq
  · rcases List.mem_append.mp h with h1 | h1
    · left; exact h1
    · right; simpa using h1

theorem mem_dkeys_dput {α : Type} (l : List (Nat × α)) (n : Nat) (v : α) (k : Nat) :
    k ∈ dkeys (dput l n v) ↔ k ∈ dkeys l ∨ k = n := by
  by_cases hk : k = n
  · subst hk
    constructor
    · intro _; right; rfl
    · intro _
      rw [← lookup_isSome_iff_mem_dkeys]
      rw [lookup_dput_self]
      rfl
  · rw [← lookup_isSome_iff_mem_dkeys, lookup_dput_ne l n v k hk,
      lookup_isSome_iff_mem_dkeys]
    simp [hk]

theorem nodup_dkeys_dput {α : Type} (l : List (Nat × α)) (n : Nat) (v : α)
    (h : (dkeys l).Nodup) : (dkeys (dput l n v)).Nodup := by
  unfold dput
  split
  next hsome =>
    have : dkeys (updVal l n (fun _ => v)) = dkeys l := dkeys_updVal n _ l
    rw [this]
    exact h
  next hnone =>
    have hnmem : n ∉ dkeys l := by
      intro hmem
      rw [← lookup_isSome_iff_mem_dkeys] at hmem
      exact hnone hmem
    have : dkeys (l ++ [(n, v)]) = dkeys l ++ [n] := by simp [dkeys]
    rw [this]
    simp [List.nodup_append, h, hnmem]

theorem le_maxKey {α : Type} : ∀ (l : List (Nat × α)) (k : Nat),
    k ∈ dkeys l → k ≤ maxKey l := by
  intro l
  induction l with
  | nil => intro k h; simp [dkeys] at h
  | cons p rest ih =>
    intro k h
    rcases List.mem_cons.mp h with h1 | h2
    · subst h1
      show p.1 ≤ max p.1 (maxKey rest)
      exact Nat.le_max_left _ _
    · show k ≤ max p.1 (maxKey rest)
      calc k ≤ maxKey rest := ih k h2
        _ ≤ max p.1 (maxKey rest) := Nat.le_max_right _ _


theorem pyGet_dput_ne (l : List (Nat × Nat)) (n v k : Nat) (hk : k ≠ n) :
    pyGet (dput l n v) k = pyGet l k := by
  unfold pyGet
  rw [lookup_dput_ne l n v k hk]

theorem offends_congr (m1 m2 : List (Nat × Nat)) (p : Nat × TAtom)
    (h : pyGet m1 p.1 = pyGet m2 p.1) : offends m1 p = offends m2 p := by
  rcases p with ⟨n, ra⟩
  cases ra <;> simp [offends, h]

/-- An `atomStep` raises exactly on an offending template atom. -/
theorem atomStep_error_iff (hostAtoms : List (Nat × Atom)) (st : AsmState)
    (n : Nat) (ra : TAtom) :
    (∃ e, atomStep hostAtoms st n ra = .error e) ↔ offends st.mapping (n, ra) = true := by
  cases ra with
  | anyE c r s =>
    unfold atomStep offends
    cases h : pyGet st.mapping n <;> simp [h]
  | queryE an iso c r s hl =>
    unfold atomStep offends
    cases h : pyGet st.mapping n
    · match hl with
      | [] => simp [h]
      | [x] => simp [h]
      | x :: y :: t =>
        have hlen : (x :: y :: t).length ≠ 1 := by
          simp only [List.length_cons]
          omega
        simp [h, hlen]
    · simp [h]
  | elemE an iso c r s hy x y =>
    unfold atomStep offends
    cases h : pyGet st.mapping n <;> simp [h]

/-- A successful `atomStep` changes the mapping at most at its own key. -/
theorem atomStep_ok_mapping (hostAtoms : List (Nat × Atom)) (st : AsmState)
    (n : Nat) (ra : TAtom) (st1 : AsmState)
    (h : atomStep hostAtoms st n ra = .ok st1) (k : Nat) (hk : k ≠ n) :
    pyGet st1.mapping k = pyGet st.mapping k := by
  cases ra with
  | anyE c r s =>
    unfold atomStep at h
    cases hm : pyGet st.mapping n <;> rw [hm] at h <;> simp only [] at h
    · exact absurd h (by simp)
    · split at h <;> (cases h; first | rfl | (split <;> rfl))
  | queryE an iso c r s hl =>
    unfold atomStep at h
    cases hm : pyGet st.mapping n <;> rw [hm] at h <;> simp only [] at h
    · split at h
      · cases h
        exact pyGet_dput_ne _ _ _ _ hk
      · split at h
        · cases h
          exact pyGet_dput_ne _ _ _ _ hk
        · exact absurd h (by simp)
    · split at h <;> (cases h; first | rfl | (split <;> rfl))
  | elemE an iso c r s hy x y =>
    unfold atomStep at h
    cases hm : pyGet st.mapping n <;> rw [hm] at h <;> simp only [] at h
    · cases h
      exact pyGet_dput_ne _ _ _ _ hk
    · split at h <;> (cases h; first | rfl | (split <;> rfl))

/-- The atom loop succeeds iff no template atom offends against the initial
mapping (template atom identifiers are distinct). -/
theorem atomLoop_isOk_iff (hostAtoms : List (Nat × Atom)) (mapping0 : List (Nat × Nat)) :
    ∀ (l : List (Nat × TAtom)) (st : AsmState),
      (l.map (·.1)).Nodup →
      (∀ p ∈ l, pyGet st.mapping p.1 = pyGet mapping0 p.1) →
      ((atomLoop hostAtoms l st).isOk = true ↔ ∀ p ∈ l, offends mapping0 p = false) := by
  intro l
  induction l with
  | nil => intro st _ _; simp [atomLoop, Except.isOk, Except.toBool]
  | cons p rest ih =>
    intro st hnd hag
    rcases p with ⟨n, ra⟩
    rw [atomLoop]
    cases hstep : atomStep hostAtoms st n ra with
    | error e =>
      have hoff : offends st.mapping (n, ra) = true :=
        (atomStep_error_iff hostAtoms st n ra).mp ⟨e, hstep⟩
      have hoff0 : offends mapping0 (n, ra) = true := by
        rw [← offends_congr st.mapping mapping0 (n, ra) (hag (n, ra) (List.mem_cons_self _ _))]
        exact hoff
      simp only [Except.isOk, Except.toBool]
      constructor
      · intro h; exact absurd h (by simp)
      · intro hall
        exact absurd (hall (n, ra) (List.mem_cons_self _ _)) (by simp [hoff0])
    | ok st1 =>
      have hnd1 : (rest.map (·.1)).Nodup := (List.nodup_cons.mp hnd).2
      have hne : ∀ q ∈ rest, q.1 ≠ n := by
        intro q hq
        intro hqn
        exact (List.nodup_cons.mp hnd).1 (hqn ▸ List.mem_map_of_mem (·.1) hq)
      have hag1 : ∀ q ∈ rest, pyGet st1.mapping q.1 = pyGet mapping0 q.1 := by
        intro q hq
        rw [atomStep_ok_mapping hostAtoms st n ra st1 hstep q.1 (hne q hq)]
        exact hag q (List.mem_cons_of_mem _ hq)
      rw [ih st1 hnd1 hag1]
      have hoffn : offends mapping0 (n, ra) = false := by
        have hno : ¬ ∃ e, atomStep hostAtoms st n ra = .error e := by
          rintro ⟨e, he⟩
          rw [hstep] at he
          exact absurd he (by simp)
        have := (atomStep_error_iff hostAtoms st n ra).not.mp hno
        have hoff : offends st.mapping (n, ra) = false := by
          cases hb : offends st.mapping (n, ra)
          · rfl
          · exact absurd hb this
        rw [← offends_congr st.mapping mapping0 (n, ra) (hag (n, ra) (List.mem_cons_self _ _))]
        exact hoff
      constructor
      · intro hall q hq
        rcases List.mem_cons.mp hq with rfl | hq2
        · exact hoffn
        · exact hall q hq2
      · intro hall q hq
        exact hall q (List.mem_cons_of_mem _ hq)

/-! ## C6: patch-time error conditions -/

/-- C6: `applyPatch` raises exactly when some `AnyElement` template atom has
no (truthy) mapping entry or some unmapped `QueryElement` template atom
carries more than one implicit-hydrogen alternative; on every other input
the full new graph is returned.  Template atom identifiers are distinct
(dict keys). -/
theorem C6_patch_errors (ext : Ext) (host : Molecule) (repl : Replacement)
    (toDeletePattern : List Nat) (fixRings fixTautomers : Bool)
    (mapping : List (Nat × Nat))
    (hnd : (repl.atoms.map (·.1)).Nodup) :
    (∃ e, patcher ext host repl toDeletePattern fixRings fixTautomers mapping = .error e)
      ↔ ∃ p ∈ repl.atoms, offends mapping p = true := by
  have hloop := atomLoop_isOk_iff host.atoms mapping repl.atoms
      { natoms := [], nbonds := [], mapping := mapping, maxAtom := maxKey host.atoms,
        stereoAtoms := [], stereoBonds := [] } hnd (fun p _ => rfl)
  unfold patcher assemble
  cases hA : atomLoop host.atoms repl.atoms
      { natoms := [], nbonds := [], mapping := mapping, maxAtom := maxKey host.atoms,
        stereoAtoms := [], stereoBonds := [] } with
  | error e =>
    rw [hA] at hloop
    simp only [hA]
    constructor
    · intro _
      by_contra hno
      push_neg at hno
      have hall : ∀ p ∈ repl.atoms, offends mapping p = false := by
        intro p hp
        cases hb : offends mapping p
        · rfl
        · exact absurd hb (hno p hp)
      have hok := hloop.mpr hall
      simp [Except.isOk, Except.toBool] at hok
    · intro _
      exact ⟨(e.1, e.2.mapping), rfl⟩
  | ok st1 =>
    rw [hA] at hloop
    simp only [hA]
    constructor
    · rintro ⟨e2, he2⟩
      exact absurd he2 (by simp)
    · rintro ⟨p, hp, hoff⟩
      have hall := hloop.mp (by simp [Except.isOk, Except.toBool])
      exact absurd hoff (by simp [hall p hp])

/-- Witness for C6: a template with a single unmatched `AnyElement` makes
the patcher raise. -/
theorem C6_patch_errors_witness :
    ∃ e, patcher idExt oneAtomHost unmatchedAnyRepl [] false false [] = .error e :=
  (C6_patch_errors idExt oneAtomHost unmatchedAnyRepl [] false false [] (by decide)).mpr
    ⟨(5, .anyE 0 false none), by decide, by decide⟩

/-! ## C10: the mapping is extended in place and not rolled back on error -/

/-- One `atomStep` preserves every nonzero binding of the mapping, in both
the success and the error outcome (a key is only rebound when its lookup is
absent or falsy). -/
theorem atomStep_mapping_mono (hostAtoms : List (Nat × Atom)) (st : AsmState)
    (n : Nat) (ra : TAtom) (k v : Nat)
    (hkv : st.mapping.lookup k = some v) (hv : v ≠ 0) :
    (loopMapping (atomStep hostAtoms st n ra)).lookup k = some v := by
  have hkn : pyGet st.mapping n = none → k ≠ n := by
    intro hpg heq
    subst heq
    unfold pyGet at hpg
    rw [hkv] at hpg
    have hif : (if v = 0 then none else some v : Option Nat) = none := hpg
    rw [if_neg hv] at hif
    exact absurd hif (by simp)
  cases ra with
  | anyE c r s =>
    unfold atomStep
    cases hm : pyGet st.mapping n
    · exact hkv
    · simp only []
      split
      · exact hkv
      · split <;> exact hkv
  | queryE an iso c r s hl =>
    unfold atomStep
    cases hm : pyGet st.mapping n
    · have hne := hkn hm
      simp only []
      split
      · show (dput st.mapping n (st.maxAtom + 1)).lookup k = some v
        rw [lookup_dput_ne st.mapping n _ k hne]
        exact hkv
      · split
        · show (dput st.mapping n (st.maxAtom + 1)).lookup k = some v
          rw [lookup_dput_ne st.mapping n _ k hne]
          exact hkv
        · show (dput st.mapping n (st.maxAtom + 1)).lookup k = some v
          rw [lookup_dput_ne st.mapping n _ k hne]
          exact hkv
    · simp only []
      split
      · exact hkv
      · split <;> exact hkv
  | elemE an iso c r s hy x y =>
    unfold atomStep
    cases hm : pyGet st.mapping n
    · have hne := hkn hm
      show (dput st.mapping n (st.maxAtom + 1)).lookup k = some v
      rw [lookup_dput_ne st.mapping n _ k hne]
      exact hkv
    · simp only []
      split
      · exact hkv
      · split <;> exact hkv

/-- The whole atom loop preserves every nonzero binding, also when it
raises midway. -/
theorem atomLoop_mapping_mono (hostAtoms : List (Nat × Atom)) :
    ∀ (l : List (Nat × TAtom)) (st : AsmState) (k v : Nat),
      st.mapping.lookup k = some v → v ≠ 0 →
      (loopMapping (atomLoop hostAtoms l st)).lookup k = some v := by
  intro l
  induction l with
  | nil => intro st k v hkv _; exact hkv
  | cons p rest ih =>
    intro st k v hkv hv
    rcases p with ⟨n, ra⟩
    rw [atomLoop]
    cases hstep : atomStep hostAtoms st n ra with
    | error e =>
      have := atomStep_mapping_mono hostAtoms st n ra k v hkv hv
      rw [hstep] at this
      exact this
    | ok st1 =>
      have hst1 := atomStep_mapping_mono hostAtoms st n ra k v hkv hv
      rw [hstep] at hst1
      exact ih st1 k v hst1 hv

/-- C10: the patcher extends the caller's mapping in place when it
allocates a fresh identifier and does not roll the extension back on
failure.  Concretely, a template whose unmapped `QueryElement` atom `10` is
processed before an unmatched `AnyElement` raises `unmatchedAny` with the
mapping already extended by the fresh entry `(10, 2)` even though no graph
is returned; in general every nonzero binding the caller supplied survives
into the mapping carried by the raise. -/
theorem C10_mapping_not_rolled_back :
    patcher idExt oneAtomHost freshThenAnyRepl [] false false []
      = .error (.unmatchedAny, [(10, 2)])
    ∧ (∀ (ext : Ext) (host : Molecule) (repl : Replacement)
        (toDeletePattern : List Nat) (fixRings fixTautomers : Bool)
        (mapping : List (Nat × Nat)) (e : PatchErr × List (Nat × Nat)),
        patcher ext host repl toDeletePattern fixRings fixTautomers mapping = .error e →
        ∀ k v, mapping.lookup k = some v → v ≠ 0 → e.2.lookup k = some v) := by
  constructor
  · rfl
  · intro ext host repl toDeletePattern fixRings fixTautomers mapping e he k v hkv hv
    unfold patcher assemble at he
    simp only [] at he
    cases hA : atomLoop host.atoms repl.atoms
        { natoms := [], nbonds := [], mapping := mapping, maxAtom := maxKey host.atoms,
          stereoAtoms := [], stereoBonds := [] } with
    | error e0 =>
      rw [hA] at he
      simp only [] at he
      cases he
      have := atomLoop_mapping_mono host.atoms repl.atoms
        { natoms := [], nbonds := [], mapping := mapping, maxAtom := maxKey host.atoms,
          stereoAtoms := [], stereoBonds := [] } k v hkv hv
      rw [hA] at this
      exact this
    | ok st1 =>
      rw [hA] at he
      exact absurd he (by simp)

/-- Witness for C10's general part: a caller binding `(7, 9)` survives into
the mapping carried by the raise, next to the fresh entry. -/
theorem C10_mapping_not_rolled_back_witness :
    List.lookup 7 [(7, 9), (10, 2)] = some 9 :=
  C10_mapping_not_rolled_back.2 idExt oneAtomHost freshThenAnyRepl [] false false
    [(7, 9)] (.unmatchedAny, [(7, 9), (10, 2)]) rfl 7 9 rfl (by decide)

/-! ## Helper lemmas: structure of the assembly phase -/

/-- Structure of a successful `atomStep`: either the template atom was
mapped (the new graph gains the host-side key, with an undetermined
hydrogen count, and the mapping and counter are untouched) or it was
unmapped (the new graph gains the fresh key `maxAtom + 1` and the mapping
is extended by it). -/
theorem atomStep_ok_cases (hostAtoms : List (Nat × Atom)) (st : AsmState)
    (n : Nat) (ra : TAtom) (st1 : AsmState)
    (h : atomStep hostAtoms st n ra = .ok st1) :
    (∃ m a, pyGet st.mapping n = some m ∧ a.hyd = none
      ∧ st1.natoms = dput st.natoms m a ∧ st1.nbonds = dput st.nbonds m []
      ∧ st1.maxAtom = st.maxAtom ∧ st1.mapping = st.mapping)
    ∨ (∃ a, pyGet st.mapping n = none
      ∧ st1.natoms = dput st.natoms (st.maxAtom + 1) a
      ∧ st1.nbonds = dput st.nbonds (st.maxAtom + 1) []
      ∧ st1.maxAtom = st.maxAtom + 1
      ∧ st1.mapping = dput st.mapping n (st.maxAtom + 1)) := by
  cases ra with
  | anyE c r s =>
    unfold atomStep at h
    cases hm : pyGet st.mapping n <;> rw [hm] at h <;> simp only [] at h
    · exact absurd h (by simp)
    · cases h
      left
      split
      · exact ⟨_, _, rfl, rfl, rfl, rfl, rfl, rfl⟩
      · split
        · exact ⟨_, _, rfl, rfl, rfl, rfl, rfl, rfl⟩
        · exact ⟨_, _, rfl, rfl, rfl, rfl, rfl, rfl⟩
  | queryE an iso c r s hl =>
    unfold atomStep at h
    cases hm : pyGet st.mapping n <;> rw [hm] at h <;> simp only [] at h
    · split at h
      · cases h
        right
        exact ⟨_, rfl, rfl, rfl, rfl, rfl⟩
      · split at h
        · cases h
          right
          exact ⟨_, rfl, rfl, rfl, rfl, rfl⟩
        · exact absurd h (by simp)
    · cases h
      left
      split
      · exact ⟨_, _, rfl, rfl, rfl, rfl, rfl, rfl⟩
      · split
        · exact ⟨_, _, rfl, rfl, rfl, rfl, rfl, rfl⟩
        · exact ⟨_, _, rfl, rfl, rfl, rfl, rfl, rfl⟩
  | elemE an iso c r s hy x y =>
    unfold atomStep at h
    cases hm : pyGet st.mapping n <;> rw [hm] at h <;> simp only [] at h
    · cases h
      right
      exact ⟨_, rfl, rfl, rfl, rfl, rfl⟩
    · cases h
      left
      split
      · exact ⟨_, _, rfl, rfl, rfl, rfl, rfl, rfl⟩
      · split
        · exact ⟨_, _, rfl, rfl, rfl, rfl, rfl, rfl⟩
        · exact ⟨_, _, rfl, rfl, rfl, rfl, rfl, rfl⟩

/-- Invariants along a successful atom loop: the counter only grows, small
keys keep undetermined hydrogens, atom keys stay duplicate-free and
persist, and every mapped template atom ends with its host-side key
present. -/
theorem atomLoop_invariants (hostAtoms : List (Nat × Atom)) (maxK : Nat) :
    ∀ (l : List (Nat × TAtom)) (st st1 : AsmState),
      atomLoop hostAtoms l st = .ok st1 →
      (l.map (·.1)).Nodup →
      maxK ≤ st.maxAtom →
      (∀ p ∈ st.natoms, p.1 ≤ maxK → p.2.hyd = none) →
      (dkeys st.natoms).Nodup →
      ( maxK ≤ st1.maxAtom
        ∧ (∀ p ∈ st1.natoms, p.1 ≤ maxK → p.2.hyd = none)
        ∧ (dkeys st1.natoms).Nodup
        ∧ (∀ k, k ∈ dkeys st.natoms → k ∈ dkeys st1.natoms)
        ∧ (∀ n ra m, (n, ra) ∈ l → pyGet st.mapping n = some m →
            m ∈ dkeys st1.natoms) ) := by
  intro l
  induction l with
  | nil =>
    intro st st1 h _ hmax hhyd hnd2
    cases h
    exact ⟨hmax, hhyd, hnd2, fun k hk => hk, fun n ra m hmem _ => absurd hmem (by simp)⟩
  | cons p rest ih =>
    intro st st1 h hnd hmax hhyd hnd2
    rcases p with ⟨n0, ra0⟩
    rw [atomLoop] at h
    cases hstep : atomStep hostAtoms st n0 ra0 with
    | error e =>
      rw [hstep] at h
      exact absurd h (by simp)
    | ok st2 =>
      rw [hstep] at h
      have hndr : (rest.map (·.1)).Nodup := (List.nodup_cons.mp hnd).2
      have hne : ∀ q ∈ rest, (q : Nat × TAtom).1 ≠ n0 := by
        intro q hq hqn
        exact (List.nodup_cons.mp hnd).1 (hqn ▸ List.mem_map_of_mem (·.1) hq)
      rcases atomStep_ok_cases hostAtoms st n0 ra0 st2 hstep with
        ⟨m0, a0, hm0, ha0, hnat, _, hmx, hmap⟩ | ⟨a0, hm0, hnat, _, hmx, hmap⟩
      · -- mapped atom
        have hmax2 : maxK ≤ st2.maxAtom := by rw [hmx]; exact hmax
        have hhyd2 : ∀ p ∈ st2.natoms, p.1 ≤ maxK → p.2.hyd = none := by
          intro p hp hple
          rw [hnat] at hp
          rcases mem_dput st.natoms m0 a0 p hp with hin | rfl
          · exact hhyd p hin hple
          · exact ha0
        have hnd22 : (dkeys st2.natoms).Nodup := by
          rw [hnat]
          exact nodup_dkeys_dput _ _ _ hnd2
        rcases ih st2 st1 h hndr hmax2 hhyd2 hnd22 with ⟨i1, i2, i3, i4, i5⟩
        refine ⟨i1, i2, i3, ?_, ?_⟩
        · intro k hk
          apply i4
          rw [hnat, mem_dkeys_dput]
          exact Or.inl hk
        · intro n ra m hmem hpg
          rcases List.mem_cons.mp hmem with heq | hmem2
          · cases heq
            rw [hm0] at hpg
            injection hpg with hpg2
            subst hpg2
            apply i4
            rw [hnat, mem_dkeys_dput]
            exact Or.inr rfl
          · apply i5 n ra m hmem2
            rw [hmap]
            exact hpg
      · -- fresh atom
        have hmax2 : maxK ≤ st2.maxAtom := by
          rw [hmx]
          omega
        have hhyd2 : ∀ p ∈ st2.natoms, p.1 ≤ maxK → p.2.hyd = none := by
          intro p hp hple
          rw [hnat] at hp
          rcases mem_dput st.natoms (st.maxAtom + 1) a0 p hp with hin | rfl
          · exact hhyd p hin hple
          · exact absurd hple (by simp; omega)
        have hnd22 : (dkeys st2.natoms).Nodup := by
          rw [hnat]
          exact nodup_dkeys_dput _ _ _ hnd2
        rcases ih st2 st1 h hndr hmax2 hhyd2 hnd22 with ⟨i1, i2, i3, i4, i5⟩
        refine ⟨i1, i2, i3, ?_, ?_⟩
        · intro k hk
          apply i4
          rw [hnat, mem_dkeys_dput]
          exact Or.inl hk
        · intro n ra m hmem hpg
          rcases List.mem_cons.mp hmem with heq | hmem2
          · cases heq
            rw [hm0] at hpg
            exact absurd hpg (by simp)
          · apply i5 n ra m hmem2
            rw [hmap]
            rw [pyGet_dput_ne st.mapping n0 (st.maxAtom + 1) n (hne (n, ra) hmem2)]
            exact hpg

/-- The template-bond step touches only `nbonds` and `stereoBonds`. -/
theorem templateBondStep_frame (hostBonds : List (Nat × List (Nat × Bond)))
    (st : AsmState) (n m : Nat) (rb : TBond) :
    ((templateBondStep hostBonds st n m rb).natoms,
     (templateBondStep hostBonds st n m rb).mapping,
     (templateBondStep hostBonds st n m rb).maxAtom,
     (templateBondStep hostBonds st n m rb).stereoAtoms)
      = (st.natoms, st.mapping, st.maxAtom, st.stereoAtoms) := by
  unfold templateBondStep
  split
  · rfl
  · split
    · rfl
    · split
      · split
        · rfl
        · rfl
      · rfl

/-- A fold whose step preserves a projection preserves it overall. -/
theorem foldl_pres {β γ : Type} (π : AsmState → γ) (f : AsmState → β → AsmState)
    (hf : ∀ st b, π (f st b) = π st) :
    ∀ (l : List β) (st : AsmState), π (l.foldl f st) = π st := by
  intro l
  induction l with
  | nil => intro st; rfl
  | cons b rest ih =>
    intro st
    rw [List.foldl_cons, ih, hf]

/-- The template-bond loop touches only `nbonds` and `stereoBonds`. -/
theorem templateBondLoop_frame (hostBonds : List (Nat × List (Nat × Bond)))
    (rbonds : List (Nat × List (Nat × TBond))) (st : AsmState) :
    ((templateBondLoop hostBonds rbonds st).natoms,
     (templateBondLoop hostBonds rbonds st).mapping,
     (templateBondLoop hostBonds rbonds st).maxAtom,
     (templateBondLoop hostBonds rbonds st).stereoAtoms)
      = (st.natoms, st.mapping, st.maxAtom, st.stereoAtoms) := by
  apply foldl_pres (fun st => (st.natoms, st.mapping, st.maxAtom, st.stereoAtoms))
  intro st p
  apply foldl_pres (fun st => (st.natoms, st.mapping, st.maxAtom, st.stereoAtoms))
  intro st q
  exact templateBondStep_frame hostBonds st _ _ q.2

/-- The carry-over bond step touches only `nbonds` and `stereoBonds`. -/
theorem carryBondStep_frame (toDelete patched : List Nat) (st : AsmState)
    (n m : Nat) (b : Bond) :
    ((carryBondStep toDelete patched st n m b).natoms,
     (carryBondStep toDelete patched st n m b).mapping,
     (carryBondStep toDelete patched st n m b).maxAtom,
     (carryBondStep toDelete patched st n m b).stereoAtoms)
      = (st.natoms, st.mapping, st.maxAtom, st.stereoAtoms) := by
  unfold carryBondStep
  split
  · rfl
  · split
    · rfl
    · split
      · rfl
      · rfl

/-- The carry-over bond loop touches only `nbonds` and `stereoBonds`. -/
theorem carryBonds_frame (hostBonds : List (Nat × List (Nat × Bond)))
    (toDelete patched : List Nat) (st : AsmState) :
    ((carryBonds hostBonds toDelete patched st).natoms,
     (carryBonds hostBonds toDelete patched st).mapping,
     (carryBonds hostBonds toDelete patched st).maxAtom,
     (carryBonds hostBonds toDelete patched st).stereoAtoms)
      = (st.natoms, st.mapping, st.maxAtom, st.stereoAtoms) := by
  apply foldl_pres (fun st => (st.natoms, st.mapping, st.maxAtom, st.stereoAtoms))
  intro st p
  split
  · rfl
  · apply foldl_pres (fun st => (st.natoms, st.mapping, st.maxAtom, st.stereoAtoms))
    intro st q
    exact carryBondStep_frame toDelete patched st p.1 q.1 q.2

/-- Atom carry-over does not disturb the looked-up value of a patched
atom: it only writes keys outside `patched`. -/
theorem carryAtoms_lookup_patched (toDelete patched : List Nat) (m : Nat)
    (hm : m ∈ patched) :
    ∀ (l : List (Nat × Atom)) (st : AsmState),
      (carryAtoms l toDelete patched st).natoms.lookup m = st.natoms.lookup m := by
  intro l
  induction l with
  | nil => intro st; rfl
  | cons p rest ih =>
    intro st
    unfold carryAtoms at ih ⊢
    rw [List.foldl_cons, ih]
    by_cases hc : p.1 ∉ patched ∧ p.1 ∉ toDelete
    · simp only [if_pos hc]
      apply lookup_dput_ne
      intro hmp
      exact hc.1 (hmp ▸ hm)
    · simp only [if_neg hc]

/-- Atom carry-over keeps the atom keys duplicate-free when the host keys
are duplicate-free and unprocessed host keys outside `patched` are not yet
present. -/
theorem carryAtoms_nodup (toDelete patched : List Nat) :
    ∀ (l : List (Nat × Atom)) (st : AsmState),
      (dkeys st.natoms).Nodup →
      (l.map (·.1)).Nodup →
      (∀ p ∈ l, p.1 ∉ patched → p.1 ∉ dkeys st.natoms) →
      (dkeys (carryAtoms l toDelete patched st).natoms).Nodup := by
  intro l
  induction l with
  | nil => intro st h _ _; exact h
  | cons p rest ih =>
    intro st hnd hndl hout
    unfold carryAtoms at ih ⊢
    rw [List.foldl_cons]
    by_cases hc : p.1 ∉ patched ∧ p.1 ∉ toDelete
    · simp only [if_pos hc]
      apply ih
      · exact nodup_dkeys_dput _ _ _ hnd
      · exact (List.nodup_cons.mp hndl).2
      · intro q hq hqp
        rw [mem_dkeys_dput]
        rintro (h1 | h1)
        · exact hout q (List.mem_cons_of_mem _ hq) hqp h1
        · refine (List.nodup_cons.mp hndl).1 ?_
          show p.1 ∈ List.map (fun x => x.1) rest
          rw [← h1]
          exact List.mem_map_of_mem (·.1) hq
    · simp only [if_neg hc]
      apply ih st hnd (List.nodup_cons.mp hndl).2
      intro q hq
      exact hout q (List.mem_cons_of_mem _ hq)

theorem lookup_setHyd_ne (g : Molecule) (n : Nat) (v : Option Nat) (k : Nat)
    (hk : k ≠ n) : (setHyd g n v).atoms.lookup k = g.atoms.lookup k := by
  show (updVal g.atoms n (fun a => { a with hyd := v })).lookup k = g.atoms.lookup k
  exact lookup_updVal_ne n _ k hk g.atoms

theorem lookup_setHyd_self (g : Molecule) (n : Nat) (v : Option Nat) :
    (setHyd g n v).atoms.lookup n = (g.atoms.lookup n).map (fun a => { a with hyd := v }) := by
  show (updVal g.atoms n (fun a => { a with hyd := v })).lookup n = _
  exact lookup_updVal_self n _ g.atoms

/-- The hydrogen fold leaves keys it never visits untouched. -/
theorem hfold_lookup_ne (c : Molecule → Nat → Option Nat) :
    ∀ (l : List (Nat × Atom)) (acc : Molecule) (k : Nat),
      (∀ p ∈ l, (p : Nat × Atom).1 ≠ k) →
      (hfold c l acc).atoms.lookup k = acc.atoms.lookup k := by
  intro l
  induction l with
  | nil => intro acc k _; rfl
  | cons p rest ih =>
    intro acc k hne
    unfold hfold at ih ⊢
    rw [List.foldl_cons, ih _ k (fun q hq => hne q (List.mem_cons_of_mem _ hq))]
    by_cases hc : p.2.hyd = none
    · simp only [if_pos hc]
      exact lookup_setHyd_ne acc p.1 _ k (fun h => hne p (List.mem_cons_self _ _) h.symm)
    · simp only [if_neg hc]

/-- The hydrogen fold recomputes exactly the undetermined counts: a
determined count is untouched, an undetermined one is replaced by the
external routine's value at some intermediate graph. -/
theorem hfold_main (c : Molecule → Nat → Option Nat) :
    ∀ (l : List (Nat × Atom)) (acc : Molecule) (k : Nat) (a : Atom),
      (k, a) ∈ l → (l.map (·.1)).Nodup → acc.atoms.lookup k = some a →
      ((a.hyd ≠ none → (hfold c l acc).atoms.lookup k = some a)
       ∧ (a.hyd = none → ∃ g2, (hfold c l acc).atoms.lookup k
            = some { a with hyd := c g2 k })) := by
  intro l
  induction l with
  | nil => intro acc k a hmem _ _; exact absurd hmem (by simp)
  | cons p rest ih =>
    intro acc k a hmem hnd hacc
    rcases List.mem_cons.mp hmem with heq | hr
    · -- the visited entry is (k, a) itself
      cases heq
      have hkrest : ∀ q ∈ rest, (q : Nat × Atom).1 ≠ k := by
        intro q hq hqk
        exact (List.nodup_cons.mp hnd).1 (hqk ▸ List.mem_map_of_mem (·.1) hq)
      have hunf : hfold c ((k, a) :: rest) acc
          = hfold c rest (if a.hyd = none then setHyd acc k (c acc k) else acc) := by
        unfold hfold
        rw [List.foldl_cons]
      constructor
      · intro hsome
        rw [hunf, hfold_lookup_ne c rest _ k hkrest, if_neg hsome]
        exact hacc
      · intro hnone
        refine ⟨acc, ?_⟩
        rw [hunf, hfold_lookup_ne c rest _ k hkrest, if_pos hnone]
        rw [lookup_setHyd_self, hacc]
        rfl
    · -- the visited entry is further down
      have hpk : p.1 ≠ k := by
        intro hpk
        subst hpk
        exact (List.nodup_cons.mp hnd).1 (List.mem_map_of_mem (·.1) hr)
      have hstep : (if p.2.hyd = none then setHyd acc p.1 (c acc p.1) else acc).atoms.lookup k
          = some a := by
        by_cases hc : p.2.hyd = none
        · rw [if_pos hc]
          rw [lookup_setHyd_ne acc p.1 _ k (Ne.symm hpk)]
          exact hacc
        · rw [if_neg hc]
          exact hacc
      have hunf : hfold c (p :: rest) acc
          = hfold c rest (if p.2.hyd = none then setHyd acc p.1 (c acc p.1) else acc) := by
        unfold hfold
        rw [List.foldl_cons]
      rw [hunf]
      exact ih _ k a hr (List.nodup_cons.mp hnd).2 hstep

/-- `pyGet` returning a value means the underlying lookup returned it. -/
theorem pyGet_eq_some (l : List (Nat × Nat)) (n m : Nat)
    (h : pyGet l n = some m) : l.lookup n = some m := by
  unfold pyGet at h
  cases hl : l.lookup n <;> rw [hl] at h <;> simp only [] at h
  · exact absurd h (by simp)
  · split at h
    · exact absurd h (by simp)
    · injection h with h2
      rw [h2]

/-! ## C9: hydrogen counts of mapped atoms -/

/-- C9: a template atom mapped to an existing host atom leaves the output
atom's implicit-hydrogen count undetermined during assembly (taken neither
from the host atom nor from the template) and the post-assembly hydrogen
pass replaces it with the external routine's value; only freshly allocated
atoms receive a hydrogen count from the template (witnessed by a fresh
`Element` atom whose template count survives assembly). -/
theorem C9_mapped_hydrogens_recomputed :
    (∀ (calcH : Molecule → Nat → Option Nat) (host : Molecule) (repl : Replacement)
        (toDeletePattern : List Nat) (mapping : List (Nat × Nat)) (st : AsmState),
      (repl.atoms.map (·.1)).Nodup →
      (host.atoms.map (·.1)).Nodup →
      (∀ p ∈ mapping, (p : Nat × Nat).2 ∈ dkeys host.atoms) →
      assemble host repl toDeletePattern mapping = .ok st →
      ∀ n ra m, (n, ra) ∈ repl.atoms → pyGet mapping n = some m →
        ∃ a, st.natoms.lookup m = some a ∧ a.hyd = none
          ∧ ∃ g2, (hPass calcH { atoms := st.natoms, bonds := st.nbonds }).atoms.lookup m
              = some { a with hyd := calcH g2 m })
    ∧ (assemble oneAtomHost freshElemRepl [] []).toOption.map
        (fun s => s.natoms.lookup 2)
      = some (some { anum := 7, isotope := none, charge := 0, isRadical := false,
                     hyd := some 2, stereo := none, x := 1, y := 1 }) := by
  constructor
  · intro calcH host repl toDeletePattern mapping st hnd hhost hmap hasm n ra m hmem hpg
    unfold assemble at hasm
    simp only [] at hasm
    cases hA : atomLoop host.atoms repl.atoms
        { natoms := [], nbonds := [], mapping := mapping, maxAtom := maxKey host.atoms,
          stereoAtoms := [], stereoBonds := [] } with
    | error e =>
      rw [hA] at hasm
      exact absurd hasm (by simp)
    | ok st1 =>
      rw [hA] at hasm
      simp only [] at hasm
      injection hasm with hasm
      have hinv := atomLoop_invariants host.atoms (maxKey host.atoms) repl.atoms
        { natoms := [], nbonds := [], mapping := mapping, maxAtom := maxKey host.atoms,
          stereoAtoms := [], stereoBonds := [] } st1 hA hnd (Nat.le_refl _)
        (fun p hp => absurd hp (by simp)) (by simp [dkeys])
      rcases hinv with ⟨_, i2, i3, _, i5⟩
      have hmK : m ≤ maxKey host.atoms :=
        le_maxKey host.atoms m (hmap (n, m) (lookup_mem mapping n m (pyGet_eq_some mapping n m hpg)))
      have hmem1 : m ∈ dkeys st1.natoms := i5 n ra m hmem hpg
      have hfr2 := templateBondLoop_frame host.bonds repl.bonds st1
      simp only [Prod.mk.injEq] at hfr2
      have hna2 : (templateBondLoop host.bonds repl.bonds st1).natoms = st1.natoms :=
        hfr2.1
      -- the looked-up assembled atom
      rcases Option.isSome_iff_exists.mp
          ((lookup_isSome_iff_mem_dkeys st1.natoms m).mpr hmem1) with ⟨a, ha⟩
      have hahyd : a.hyd = none := i2 (m, a) (lookup_mem st1.natoms m a ha) hmK
      have hmem2 : m ∈ dkeys (templateBondLoop host.bonds repl.bonds st1).natoms := by
        rw [hna2]
        exact hmem1
      have hlook3 : (carryAtoms host.atoms (getDeleted host mapping toDeletePattern)
            (dkeys (templateBondLoop host.bonds repl.bonds st1).natoms)
            (templateBondLoop host.bonds repl.bonds st1)).natoms.lookup m
          = some a := by
        rw [carryAtoms_lookup_patched _ _ m hmem2 host.atoms _, hna2]
        exact ha
      have hlookf : st.natoms.lookup m = some a := by
        rw [← hasm]
        have hfr4 := carryBonds_frame host.bonds (getDeleted host mapping toDeletePattern)
          (dkeys (templateBondLoop host.bonds repl.bonds st1).natoms)
          (carryAtoms host.atoms (getDeleted host mapping toDeletePattern)
            (dkeys (templateBondLoop host.bonds repl.bonds st1).natoms)
            (templateBondLoop host.bonds repl.bonds st1))
        simp only [Prod.mk.injEq] at hfr4
        rw [hfr4.1]
        exact hlook3
      have hndf : (st.natoms.map (·.1)).Nodup := by
        rw [← hasm]
        have hfr4 := carryBonds_frame host.bonds (getDeleted host mapping toDeletePattern)
          (dkeys (templateBondLoop host.bonds repl.bonds st1).natoms)
          (carryAtoms host.atoms (getDeleted host mapping toDeletePattern)
            (dkeys (templateBondLoop host.bonds repl.bonds st1).natoms)
            (templateBondLoop host.bonds repl.bonds st1))
        simp only [Prod.mk.injEq] at hfr4
        show (dkeys (carryBonds _ _ _ _).natoms).Nodup
        rw [hfr4.1]
        apply carryAtoms_nodup
        · rw [hna2]
          exact i3
        · exact hhost
        · intro p _ hp
          exact hp
      refine ⟨a, hlookf, hahyd, ?_⟩
      have := hfold_main calcH st.natoms { atoms := st.natoms, bonds := st.nbonds } m a
        (lookup_mem st.natoms m a hlookf) hndf hlookf
      exact this.2 hahyd
  · rfl

/-- Witness for C9 at the mapped-query scenario: host atom 1 of `idHost`
carries `hyd = some 3`, yet the assembled atom is undetermined and the
hydrogen pass installs the external routine's value. -/
theorem C9_mapped_hydrogens_recomputed_witness :
    ∃ a, c9St.natoms.lookup 1 = some a ∧ a.hyd = none
      ∧ ∃ _g2 : Molecule, (hPass (fun _ _ => some 9)
            { atoms := c9St.natoms, bonds := c9St.nbonds }).atoms.lookup 1
          = some { a with hyd := some 9 } :=
  C9_mapped_hydrogens_recomputed.1 (fun _ _ => some 9) idHost c9Repl [] [(1, 1)] c9St
    (by decide) (by decide) (by decide) rfl 1 (.queryE 6 none 0 false none []) 1
    (by decide) (by decide)

/-! ## C4: stereo labels and their topological support -/

theorem lookup_setAtomStereo_ne (g : Molecule) (n : Nat) (s : Option Bool) (k : Nat)
    (hk : k ≠ n) : (setAtomStereo g n s).atoms.lookup k = g.atoms.lookup k := by
  show (updVal g.atoms n (fun a => { a with stereo := s })).lookup k = _
  exact lookup_updVal_ne n _ k hk g.atoms

theorem lookup_setAtomStereo_self (g : Molecule) (n : Nat) (s : Option Bool) :
    (setAtomStereo g n s).atoms.lookup n
      = (g.atoms.lookup n).map (fun a => { a with stereo := s }) := by
  show (updVal g.atoms n (fun a => { a with stereo := s })).lookup n = _
  exact lookup_updVal_self n _ g.atoms

/-- One marked-atom iteration never changes the bond table. -/
theorem stereoAtomStep_bonds (ext : StereoExt) (host : Molecule)
    (tN aN hT hA : List (Nat × List Nat)) (g : Molecule) (n : Nat) :
    (stereoAtomStep ext host tN aN hT hA g n).bonds = g.bonds := by
  unfold stereoAtomStep
  split
  · split
    · rfl
    · rfl
  · split
    · split
      · rfl
      · rfl
    · rfl

/-- The marked-atom pass never changes the bond table. -/
theorem stereoAtomPass_bonds (ext : StereoExt) (host : Molecule)
    (tN aN hT hA : List (Nat × List Nat)) :
    ∀ (marked : List Nat) (g : Molecule),
      (stereoAtomPass ext host tN aN hT hA marked g).bonds = g.bonds := by
  intro marked
  induction marked with
  | nil => intro g; rfl
  | cons m rest ih =>
    intro g
    unfold stereoAtomPass at ih ⊢
    rw [List.foldl_cons, ih, stereoAtomStep_bonds]

/-- One marked-atom iteration leaves every other atom untouched. -/
theorem stereoAtomStep_lookup_ne (ext : StereoExt) (host : Molecule)
    (tN aN hT hA : List (Nat × List Nat)) (g : Molecule) (m n : Nat) (hmn : m ≠ n) :
    (stereoAtomStep ext host tN aN hT hA g m).atoms.lookup n = g.atoms.lookup n := by
  unfold stereoAtomStep
  split
  · split
    · exact lookup_setAtomStereo_ne g m _ n (Ne.symm hmn)
    · rfl
  · split
    · split
      · exact lookup_setAtomStereo_ne g m _ n (Ne.symm hmn)
      · rfl
    · rfl

/-- A marked atom whose support does not match (or which is no longer a
stereocenter) is left exactly as assembled by one iteration. -/
theorem stereoAtomStep_flush (ext : StereoExt) (host : Molecule)
    (tN aN hT hA : List (Nat × List Nat)) (g : Molecule) (n : Nat)
    (hcond : ((tN.lookup n).isSome = true
        ∧ listSetEq (adj host.bonds n) (adj g.bonds n) = false)
      ∨ ((tN.lookup n).isSome = false ∧ (aN.lookup n).isSome = true
          ∧ listSetEq ((aN.lookup n).getD []) ((hA.lookup n).getD []) = false)
      ∨ ((tN.lookup n).isSome = false ∧ (aN.lookup n).isSome = false)) :
    stereoAtomStep ext host tN aN hT hA g n = g := by
  unfold stereoAtomStep
  rcases hcond with ⟨h1, h2⟩ | ⟨h1, h2, h3⟩ | ⟨h1, h2⟩
  · rw [if_pos h1, if_neg (by simp [h2])]
  · rw [if_neg (by simp [h1]), if_pos h2, if_neg (by simp [h3])]
  · rw [if_neg (by simp [h1]), if_neg (by simp [h2])]

/-- Flushing through the whole pass: mismatched support means the label of
`n` is exactly what assembly left there (absent unless the template set it). -/
theorem stereoAtomPass_flush (ext : StereoExt) (host : Molecule)
    (tN aN hT hA : List (Nat × List Nat)) :
    ∀ (marked : List Nat) (g : Molecule) (n : Nat),
      (((tN.lookup n).isSome = true
          ∧ listSetEq (adj host.bonds n) (adj g.bonds n) = false)
        ∨ ((tN.lookup n).isSome = false ∧ (aN.lookup n).isSome = true
            ∧ listSetEq ((aN.lookup n).getD []) ((hA.lookup n).getD []) = false)
        ∨ ((tN.lookup n).isSome = false ∧ (aN.lookup n).isSome = false)) →
      (stereoAtomPass ext host tN aN hT hA marked g).atoms.lookup n
        = g.atoms.lookup n := by
  intro marked
  induction marked with
  | nil => intro g n _; rfl
  | cons m rest ih =>
    intro g n hcond
    unfold stereoAtomPass at ih ⊢
    rw [List.foldl_cons]
    have hcond2 : ((tN.lookup n).isSome = true
        ∧ listSetEq (adj host.bonds n)
            (adj (stereoAtomStep ext host tN aN hT hA g m).bonds n) = false)
      ∨ ((tN.lookup n).isSome = false ∧ (aN.lookup n).isSome = true
          ∧ listSetEq ((aN.lookup n).getD []) ((hA.lookup n).getD []) = false)
      ∨ ((tN.lookup n).isSome = false ∧ (aN.lookup n).isSome = false) := by
      rcases hcond with ⟨h1, h2⟩ | h
      · left
        refine ⟨h1, ?_⟩
        rw [stereoAtomStep_bonds]
        exact h2
      · right
        exact h
    rw [ih _ n hcond2]
    by_cases hmn : m = n
    · subst hmn
      rw [stereoAtomStep_flush ext host tN aN hT hA g m hcond]
    · exact stereoAtomStep_lookup_ne ext host tN aN hT hA g m n hmn

/-- Once a marked tetrahedral atom with matching support carries a label,
the rest of the pass keeps a label on it. -/
theorem stereoAtomPass_keepSome (ext : StereoExt) (host : Molecule)
    (tN aN hT hA : List (Nat × List Nat)) :
    ∀ (marked : List Nat) (g : Molecule) (n : Nat),
      (tN.lookup n).isSome = true →
      listSetEq (adj host.bonds n) (adj g.bonds n) = true →
      (∃ a, g.atoms.lookup n = some a ∧ a.stereo.isSome = true) →
      ∃ a, (stereoAtomPass ext host tN aN hT hA marked g).atoms.lookup n = some a
        ∧ a.stereo.isSome = true := by
  intro marked
  induction marked with
  | nil => intro g n _ _ h; exact h
  | cons m rest ih =>
    intro g n htetra hseq hsome
    unfold stereoAtomPass at ih ⊢
    rw [List.foldl_cons]
    apply ih _ n htetra
    · rw [stereoAtomStep_bonds]
      exact hseq
    · by_cases hmn : m = n
      · subst hmn
        rcases hsome with ⟨a, ha, _⟩
        unfold stereoAtomStep
        rw [if_pos htetra, if_pos hseq, lookup_setAtomStereo_self, ha]
        exact ⟨_, rfl, rfl⟩
      · rw [stereoAtomStep_lookup_ne ext host tN aN hT hA g m n hmn]
        exact hsome

/-- A marked tetrahedral atom with matching support receives a label. -/
theorem stereoAtomPass_assign (ext : StereoExt) (host : Molecule)
    (tN aN hT hA : List (Nat × List Nat)) :
    ∀ (marked : List Nat) (g : Molecule) (n : Nat),
      n ∈ marked →
      (tN.lookup n).isSome = true →
      listSetEq (adj host.bonds n) (adj g.bonds n) = true →
      (g.atoms.lookup n).isSome = true →
      ∃ a, (stereoAtomPass ext host tN aN hT hA marked g).atoms.lookup n = some a
        ∧ a.stereo.isSome = true := by
  intro marked
  induction marked with
  | nil => intro g n hmem _ _ _; exact absurd hmem (by simp)
  | cons m rest ih =>
    intro g n hmem htetra hseq hlook
    unfold stereoAtomPass at ih ⊢
    rw [List.foldl_cons]
    rcases List.mem_cons.mp hmem with rfl | hr
    · -- first occurrence assigns, the rest keeps
      rcases Option.isSome_iff_exists.mp hlook with ⟨a, ha⟩
      have hset : ∃ b, (stereoAtomStep ext host tN aN hT hA g n).atoms.lookup n = some b
          ∧ b.stereo.isSome = true := by
        unfold stereoAtomStep
        rw [if_pos htetra, if_pos hseq, lookup_setAtomStereo_self, ha]
        exact ⟨_, rfl, rfl⟩
      have := stereoAtomPass_keepSome ext host tN aN hT hA rest
        (stereoAtomStep ext host tN aN hT hA g n) n htetra
        (by rw [stereoAtomStep_bonds]; exact hseq) hset
      unfold stereoAtomPass at this
      exact this
    · by_cases hmn : m = n
      · subst hmn
        rcases Option.isSome_iff_exists.mp hlook with ⟨a, ha⟩
        have hset : ∃ b, (stereoAtomStep ext host tN aN hT hA g m).atoms.lookup m = some b
            ∧ b.stereo.isSome = true := by
          unfold stereoAtomStep
          rw [if_pos htetra, if_pos hseq, lookup_setAtomStereo_self, ha]
          exact ⟨_, rfl, rfl⟩
        have := stereoAtomPass_keepSome ext host tN aN hT hA rest
          (stereoAtomStep ext host tN aN hT hA g m) m htetra
          (by rw [stereoAtomStep_bonds]; exact hseq) hset
        unfold stereoAtomPass at this
        exact this
      · apply ih _ n hr htetra
        · rw [stereoAtomStep_bonds]
          exact hseq
        · rw [stereoAtomStep_lookup_ne ext host tN aN hT hA g m n hmn]
          exact hlook

/-- C4 counterexample: the claim as stated is false on the code.  In the
output of the patcher on `c4Host`/`c4Repl`, atom 1 is a tetrahedral
stereocenter (per the external index), carries the stereo label `some true`
(the template's explicit override), yet its neighbour set in the output
(`{3, 2}`) differs from its support in the host (`{2}`). -/
theorem C4_counterexample :
    patcher c4Ext c4Host c4Repl [] false false [(1, 1)] = .ok (c4Out, [(1, 1), (3, 3)])
    ∧ ((c4Ext.st.tetra c4Out).lookup 1).isSome = true
    ∧ atomStereoOf c4Out 1 = some true
    ∧ listSetEq (adj c4Host.bonds 1) (adj c4Out.bonds 1) = false := by
  refine ⟨rfl, by decide, by decide, by decide⟩

/-- C4 amended: the support-matching invariant holds for the labels handled
by the marked-stereocenter translation pass, not for template-overridden or
carried-over labels.  The pass never changes connectivity; a marked atom
whose tetrahedral neighbour sets differ between old and new graph (or whose
allene terminal sets differ, or which is no stereocenter at all) keeps
exactly its assembled label (absent unless the template set it); a marked
tetrahedral atom with matching support receives a label; and marked
cis/trans bond labels are never assigned at all (the translated sign is
discarded), so no stale cis/trans label is ever installed either. -/
theorem C4_amended_support_check :
    (∀ (ext : StereoExt) (host : Molecule) (tN aN hT hA : List (Nat × List Nat))
        (marked : List Nat) (g : Molecule),
      (stereoAtomPass ext host tN aN hT hA marked g).bonds = g.bonds)
    ∧ (∀ (ext : StereoExt) (host : Molecule) (tN aN hT hA : List (Nat × List Nat))
        (marked : List Nat) (g : Molecule) (n : Nat),
      (((tN.lookup n).isSome = true
          ∧ listSetEq (adj host.bonds n) (adj g.bonds n) = false)
        ∨ ((tN.lookup n).isSome = false ∧ (aN.lookup n).isSome = true
            ∧ listSetEq ((aN.lookup n).getD []) ((hA.lookup n).getD []) = false)
        ∨ ((tN.lookup n).isSome = false ∧ (aN.lookup n).isSome = false)) →
      (stereoAtomPass ext host tN aN hT hA marked g).atoms.lookup n
        = g.atoms.lookup n)
    ∧ (∀ (ext : StereoExt) (host : Molecule) (tN aN hT hA : List (Nat × List Nat))
        (marked : List Nat) (g : Molecule) (n : Nat),
      n ∈ marked →
      (tN.lookup n).isSome = true →
      listSetEq (adj host.bonds n) (adj g.bonds n) = true →
      (g.atoms.lookup n).isSome = true →
      ∃ a, (stereoAtomPass ext host tN aN hT hA marked g).atoms.lookup n = some a
        ∧ a.stereo.isSome = true)
    ∧ (∀ (ext : StereoExt) (host : Molecule) (ctTermNew : List (Nat × (Nat × Nat)))
        (ctNew ctHost : List ((Nat × Nat) × List Nat))
        (marked : List (Nat × Nat)) (g : Molecule),
      stereoBondPass ext host ctTermNew ctNew ctHost marked g = g) :=
  ⟨fun ext host tN aN hT hA marked g => stereoAtomPass_bonds ext host tN aN hT hA marked g,
   fun ext host tN aN hT hA marked g n h =>
     stereoAtomPass_flush ext host tN aN hT hA marked g n h,
   fun ext host tN aN hT hA marked g n h1 h2 h3 h4 =>
     stereoAtomPass_assign ext host tN aN hT hA marked g n h1 h2 h3 h4,
   fun ext host ctT ctN ctH marked g => stereoBondPass_eq ext host ctT ctN ctH marked g⟩

/-- Witness for C4's amended theorem: a marked atom that is no longer a
stereocenter keeps its assembled (absent) label, and a marked tetrahedral
atom with matching support receives one. -/
theorem C4_amended_support_check_witness :
    ((stereoAtomPass trivialStereoExt c4Host [] [] [] [] [2] c4Host).atoms.lookup 2
      = c4Host.atoms.lookup 2)
    ∧ ∃ a, (stereoAtomPass trivialStereoExt c4Host [(2, [1])] [] [] [] [2]
          c4Host).atoms.lookup 2 = some a ∧ a.stereo.isSome = true :=
  ⟨C4_amended_support_check.2.1 trivialStereoExt c4Host [] [] [] [] [2] c4Host 2
    (Or.inr (Or.inr ⟨rfl, rfl⟩)),
   C4_amended_support_check.2.2.1 trivialStereoExt c4Host [(2, [1])] [] [] [] [2] c4Host 2
    (by decide) (by decide) (by decide) (by decide)⟩

/-! ## Helper lemmas towards atom-count conservation (C5) -/

theorem nodup_sinsert (k : Nat) (s : List Nat) (h : s.Nodup) : (sinsert k s).Nodup := by
  unfold sinsert
  split
  · exact h
  · simpa [List.nodup_append, h] using (by assumption : ¬ k ∈ s)

theorem nodup_supdate (s : List Nat) (xs : List Nat) (h : s.Nodup) :
    (supdate s xs).Nodup := by
  induction xs generalizing s with
  | nil => exact h
  | cons k ks ih =>
    show (supdate (sinsert k s) ks).Nodup
    exact ih (sinsert k s) (nodup_sinsert k s h)

/-- The expanded deletion set is duplicate-free by construction. -/
theorem getDeletedCore_nodup (bonds : List (Nat × List (Nat × Bond)))
    (toDelete remain : List Nat) : (getDeletedCore bonds toDelete remain).Nodup := by
  unfold getDeletedCore
  exact nodup_supdate _ _ (nodup_supdate _ _ List.nodup_nil)

/-- Adjacency atoms lie within the graph when the bond table is
well-formed. -/
theorem mem_adj_sub (bonds : List (Nat × List (Nat × Bond))) (atomKeys : List Nat)
    (hWF : ∀ p ∈ bonds, p.1 ∈ atomKeys ∧ ∀ q ∈ p.2, (q : Nat × Bond).1 ∈ atomKeys)
    (x k : Nat) (hk : k ∈ adj bonds x) : k ∈ atomKeys := by
  unfold adj dkeys at hk
  cases hb : dget bonds x with
  | none => rw [hb] at hk; simp at hk
  | some l =>
    rw [hb] at hk
    rcases List.mem_map.mp hk with ⟨q, hq, rfl⟩
    exact (hWF (x, l) (lookup_mem bonds x l hb) ).2 q hq

/-- The walk only visits graph atoms. -/
theorem walkLoop_seen_sub (bonds : List (Nat × List (Nat × Bond)))
    (toDelete remain : List Nat) (atomKeys : List Nat)
    (hWF : ∀ p ∈ bonds, p.1 ∈ atomKeys ∧ ∀ q ∈ p.2, (q : Nat × Bond).1 ∈ atomKeys) :
    ∀ (stack seen g : List Nat),
      (∀ k ∈ stack, k ∈ atomKeys) → (∀ k ∈ seen, k ∈ atomKeys) →
      ∀ k ∈ (walkLoop bonds toDelete remain stack seen g).2.1, k ∈ atomKeys := by
  intro stack seen g
  induction stack, seen, g using walkLoop.induct bonds toDelete remain with
  | case1 seen g =>
    intro _ hs k hk
    exact hs k (by simpa [walkLoop] using hk)
  | case2 current stack seen g h1 =>
    intro _ hs k hk
    rw [walkLoop, if_pos h1] at hk
    exact hs k hk
  | case3 current stack seen g h1 h2 ih =>
    intro hst hs k hk
    rw [walkLoop, if_neg h1, if_pos h2] at hk
    exact ih (fun j hj => hst j (List.mem_cons_of_mem _ hj)) hs k hk
  | case4 current stack seen g h1 h2 seen' g' pushed ih =>
    intro hst hs k hk
    rw [walkLoop, if_neg h1, if_neg h2] at hk
    refine ih ?_ ?_ k hk
    · intro j hj
      rcases List.mem_append.mp hj with hj1 | hj1
      · exact mem_adj_sub bonds atomKeys hWF current j
          (List.mem_of_mem_filter (List.mem_reverse.mp hj1))
      · exact hst j (List.mem_cons_of_mem _ hj1)
    · intro j hj
      rcases mem_sinsert.mp hj with rfl | hj1
      · exact hst j (List.mem_cons_self _ _)
      · exact hs j hj1

/-- The committed branches only contain graph atoms. -/
theorem neighborLoop_delete_sub (bonds : List (Nat × List (Nat × Bond)))
    (toDelete remain : List Nat) (atomKeys : List Nat)
    (hWF : ∀ p ∈ bonds, p.1 ∈ atomKeys ∧ ∀ q ∈ p.2, (q : Nat × Bond).1 ∈ atomKeys) :
    ∀ (ns : List Nat) (delete g : List Nat),
      (∀ k ∈ ns, k ∈ atomKeys) → (∀ k ∈ delete, k ∈ atomKeys) →
      ∀ k ∈ (neighborLoop bonds toDelete remain ns (delete, g)).1, k ∈ atomKeys := by
  intro ns
  induction ns with
  | nil => intro delete g _ hd k hk; exact hd k hk
  | cons n rest ih =>
    intro delete g hns hd k hk
    rw [neighborLoop] at hk
    split at hk
    · exact ih delete g (fun j hj => hns j (List.mem_cons_of_mem _ hj)) hd k hk
    · split at hk
      next heq =>
        exact ih _ _ (fun j hj => hns j (List.mem_cons_of_mem _ hj)) hd k hk
      next seen g2 heq =>
        refine ih _ _ (fun j hj => hns j (List.mem_cons_of_mem _ hj)) ?_ k hk
        intro j hj
        rcases mem_supdate.mp hj with hj1 | hj1
        · exact hd j hj1
        · have := walkLoop_seen_sub bonds toDelete remain atomKeys hWF
            (((adj bonds n).filter (fun x => x ∉ sinsert n g)).reverse) [n] (sinsert n g)
            (fun i hi => mem_adj_sub bonds atomKeys hWF n i
              (List.mem_of_mem_filter (List.mem_reverse.mp hi)))
            (fun i hi => by
              rcases List.mem_singleton.mp hi with rfl
              exact hns i (List.mem_cons_self _ _))
          rw [heq] at this
          exact this j hj1

/-- The expanded deletion set stays within the graph when the core set
does. -/
theorem getDeletedCore_sub (bonds : List (Nat × List (Nat × Bond)))
    (toDelete remain : List Nat) (atomKeys : List Nat)
    (hWF : ∀ p ∈ bonds, p.1 ∈ atomKeys ∧ ∀ q ∈ p.2, (q : Nat × Bond).1 ∈ atomKeys)
    (htd : ∀ k ∈ toDelete, k ∈ atomKeys) :
    ∀ k ∈ getDeletedCore bonds toDelete remain, k ∈ atomKeys := by
  intro k hk
  unfold getDeletedCore at hk
  rcases mem_supdate.mp hk with hk1 | hk1
  · rcases mem_supdate.mp hk1 with hk2 | hk2
    · exact absurd hk2 (by simp)
    · exact htd k hk2
  · -- committed branch atoms of the outer fold
    have hfold : ∀ (xs : List Nat) (st : List Nat × List Nat),
        (∀ j ∈ xs, True) → (∀ j ∈ st.1, j ∈ atomKeys) →
        ∀ j ∈ (xs.foldl (fun st x =>
            neighborLoop bonds toDelete remain (adj bonds x) st) st).1, j ∈ atomKeys := by
      intro xs
      induction xs with
      | nil => intro st _ hst j hj; exact hst j hj
      | cons x rest ih =>
        intro st _ hst j hj
        rw [List.foldl_cons] at hj
        refine ih _ (fun _ _ => trivial) ?_ j hj
        intro i hi
        exact neighborLoop_delete_sub bonds toDelete remain atomKeys hWF
          (adj bonds x) st.1 st.2
          (fun q hq => mem_adj_sub bonds atomKeys hWF x q hq)
          hst i hi
    exact hfold toDelete ([], []) (fun _ _ => trivial) (fun j hj => absurd hj (by simp)) k hk1

theorem length_dput_append {α : Type} (l : List (Nat × α)) (k : Nat) (v : α)
    (h : k ∉ dkeys l) : (dput l k v).length = l.length + 1 := by
  rw [dput_of_not_mem l k v h]
  simp

/-- With distinct mapped targets inside the host and fresh identifiers
above the counter, every atom iteration appends a new key, so the atom loop
adds exactly one atom per template atom. -/
theorem atomLoop_length (hostAtoms : List (Nat × Atom)) (maxK : Nat) :
    ∀ (l : List (Nat × TAtom)) (st st1 : AsmState),
      atomLoop hostAtoms l st = .ok st1 →
      (l.map (·.1)).Nodup →
      maxK ≤ st.maxAtom →
      (∀ p ∈ st.natoms, p.1 ≤ st.maxAtom) →
      (∀ n ra m, (n, ra) ∈ l → pyGet st.mapping n = some m →
        m ≤ maxK ∧ m ∉ dkeys st.natoms) →
      (∀ n ra m n2 ra2 m2, (n, ra) ∈ l → (n2, ra2) ∈ l → n ≠ n2 →
        pyGet st.mapping n = some m → pyGet st.mapping n2 = some m2 → m ≠ m2) →
      st1.natoms.length = st.natoms.length + l.length := by
  intro l
  induction l with
  | nil =>
    intro st st1 h _ _ _ _ _
    cases h
    simp
  | cons p rest ih =>
    intro st st1 h hnd hmax hkb htgt hpair
    rcases p with ⟨n0, ra0⟩
    rw [atomLoop] at h
    cases hstep : atomStep hostAtoms st n0 ra0 with
    | error e =>
      rw [hstep] at h
      exact absurd h (by simp)
    | ok st2 =>
      rw [hstep] at h
      have hndr : (rest.map (·.1)).Nodup := (List.nodup_cons.mp hnd).2
      have hne : ∀ q ∈ rest, (q : Nat × TAtom).1 ≠ n0 := by
        intro q hq hqn
        exact (List.nodup_cons.mp hnd).1 (hqn ▸ List.mem_map_of_mem (·.1) hq)
      rcases atomStep_ok_cases hostAtoms st n0 ra0 st2 hstep with
        ⟨m0, a0, hm0, _, hnat, _, hmx, hmap⟩ | ⟨a0, hm0, hnat, _, hmx, hmap⟩
      · -- mapped atom: key m0 is fresh in natoms
        rcases htgt n0 ra0 m0 (List.mem_cons_self _ _) hm0 with ⟨hm0K, hm0nin⟩
        have hlen2 : st2.natoms.length = st.natoms.length + 1 := by
          rw [hnat]
          exact length_dput_append st.natoms m0 a0 hm0nin
        have := ih st2 st1 h hndr (hmx ▸ hmax)
          (by
            intro q hq
            rw [hnat] at hq
            rcases mem_dput st.natoms m0 a0 q hq with hin | heq
            · rw [hmx]
              exact hkb q hin
            · rw [heq, hmx]
              exact le_trans hm0K hmax)
          (by
            intro n ra m hmem hpg
            rw [hmap] at hpg
            rcases htgt n ra m (List.mem_cons_of_mem _ hmem) hpg with ⟨hmK, hmnin⟩
            refine ⟨hmK, ?_⟩
            rw [hnat, mem_dkeys_dput]
            rintro (h1 | rfl)
            · exact hmnin h1
            · exact hpair n ra m n0 ra0 m (List.mem_cons_of_mem _ hmem)
                (List.mem_cons_self _ _) (hne (n, ra) hmem) hpg hm0 rfl)
          (by
            intro n ra m n2 ra2 m2 hmem hmem2 hne12 hpg hpg2
            rw [hmap] at hpg hpg2
            exact hpair n ra m n2 ra2 m2 (List.mem_cons_of_mem _ hmem)
              (List.mem_cons_of_mem _ hmem2) hne12 hpg hpg2)
        rw [this, hlen2]
        simp
        omega
      · -- fresh atom: key maxAtom + 1 is above every present key
        have hfreshnin : st.maxAtom + 1 ∉ dkeys st.natoms := by
          intro hmem
          rcases List.mem_map.mp hmem with ⟨q, hq, hq1⟩
          have := hkb q hq
          omega
        have hlen2 : st2.natoms.length = st.natoms.length + 1 := by
          rw [hnat]
          exact length_dput_append st.natoms (st.maxAtom + 1) a0 hfreshnin
        have := ih st2 st1 h hndr (by rw [hmx]; omega)
          (by
            intro q hq
            rw [hnat] at hq
            rcases mem_dput st.natoms (st.maxAtom + 1) a0 q hq with hin | heq
            · rw [hmx]
              exact le_trans (hkb q hin) (by omega)
            · rw [heq, hmx])
          (by
            intro n ra m hmem hpg
            have hpg0 : pyGet st.mapping n = some m := by
              rw [hmap, pyGet_dput_ne st.mapping n0 (st.maxAtom + 1) n
                (hne (n, ra) hmem)] at hpg
              exact hpg
            rcases htgt n ra m (List.mem_cons_of_mem _ hmem) hpg0 with ⟨hmK, hmnin⟩
            refine ⟨hmK, ?_⟩
            rw [hnat, mem_dkeys_dput]
            rintro (h1 | rfl)
            · exact hmnin h1
            · omega)
          (by
            intro n ra m n2 ra2 m2 hmem hmem2 hne12 hpg hpg2
            rw [hmap, pyGet_dput_ne st.mapping n0 (st.maxAtom + 1) n
              (hne (n, ra) hmem)] at hpg
            rw [hmap, pyGet_dput_ne st.mapping n0 (st.maxAtom + 1) n2
              (hne (n2, ra2) hmem2)] at hpg2
            exact hpair n ra m n2 ra2 m2 (List.mem_cons_of_mem _ hmem)
              (List.mem_cons_of_mem _ hmem2) hne12 hpg hpg2)
        rw [this, hlen2]
        simp
        omega

/-- Atom carry-over appends exactly the host atoms outside `patched` and
outside the deletion set, in host order. -/
theorem carryAtoms_natoms_eq (toDelete patched : List Nat) :
    ∀ (l : List (Nat × Atom)) (st : AsmState),
      (l.map (·.1)).Nodup →
      (∀ p ∈ l, p.1 ∉ patched → p.1 ∉ dkeys st.natoms) →
      (carryAtoms l toDelete patched st).natoms
        = st.natoms ++ (l.filter (fun p => decide (p.1 ∉ patched ∧ p.1 ∉ toDelete))).map
            (fun p => (p.1, p.2.copy true true)) := by
  intro l
  induction l with
  | nil => intro st _ _; simp [carryAtoms]
  | cons p rest ih =>
    intro st hnd hout
    unfold carryAtoms at ih ⊢
    rw [List.foldl_cons]
    by_cases hc : p.1 ∉ patched ∧ p.1 ∉ toDelete
    · have hnin : p.1 ∉ dkeys st.natoms := hout p (List.mem_cons_self _ _) hc.1
      have hdputs : dput st.natoms p.1 (p.2.copy true true)
          = st.natoms ++ [(p.1, p.2.copy true true)] := dput_of_not_mem _ _ _ hnin
      simp only [if_pos hc]
      rw [ih _ (List.nodup_cons.mp hnd).2 ?hrest]
      case hrest =>
        intro q hq hqp
        show q.1 ∉ dkeys (dput st.natoms p.1 (p.2.copy true true))
        rw [mem_dkeys_dput]
        rintro (h1 | h1)
        · exact hout q (List.mem_cons_of_mem _ hq) hqp h1
        · refine (List.nodup_cons.mp hnd).1 ?_
          show p.1 ∈ List.map (fun x => x.1) rest
          rw [← h1]
          exact List.mem_map_of_mem (·.1) hq
      show dput st.natoms p.1 (p.2.copy true true) ++ _ = _
      rw [hdputs, List.filter_cons_of_pos (by simpa using hc), List.map_cons,
        List.append_assoc]
      rfl
    · simp only [if_neg hc]
      rw [ih st (List.nodup_cons.mp hnd).2
        (fun q hq => hout q (List.mem_cons_of_mem _ hq)),
        List.filter_cons_of_neg (by simpa using hc)]

/-- Every atom key produced by the atom loop is either already present, a
mapped target of some processed template atom, or a fresh identifier above
`maxK`. -/
theorem atomLoop_keys_sub (hostAtoms : List (Nat × Atom)) (maxK : Nat) :
    ∀ (l : List (Nat × TAtom)) (st st1 : AsmState),
      atomLoop hostAtoms l st = .ok st1 →
      (l.map (·.1)).Nodup →
      maxK ≤ st.maxAtom →
      ∀ k ∈ dkeys st1.natoms,
        k ∈ dkeys st.natoms
        ∨ (∃ n ra, (n, ra) ∈ l ∧ pyGet st.mapping n = some k)
        ∨ maxK < k := by
  intro l
  induction l with
  | nil =>
    intro st st1 h _ _ k hk
    cases h
    exact Or.inl hk
  | cons p rest ih =>
    intro st st1 h hnd hmax k hk
    rcases p with ⟨n0, ra0⟩
    rw [atomLoop] at h
    cases hstep : atomStep hostAtoms st n0 ra0 with
    | error e =>
      rw [hstep] at h
      exact absurd h (by simp)
    | ok st2 =>
      rw [hstep] at h
      have hndr : (rest.map (·.1)).Nodup := (List.nodup_cons.mp hnd).2
      have hne : ∀ q ∈ rest, (q : Nat × TAtom).1 ≠ n0 := by
        intro q hq hqn
        exact (List.nodup_cons.mp hnd).1 (hqn ▸ List.mem_map_of_mem (·.1) hq)
      rcases atomStep_ok_cases hostAtoms st n0 ra0 st2 hstep with
        ⟨m0, a0, hm0, _, hnat, _, hmx, hmap⟩ | ⟨a0, hm0, hnat, _, hmx, hmap⟩
      · rcases ih st2 st1 h hndr (hmx ▸ hmax) k hk with h1 | ⟨n, ra, hmem, hpg⟩ | h1
        · rw [hnat, mem_dkeys_dput] at h1
          rcases h1 with h2 | rfl
          · exact Or.inl h2
          · exact Or.inr (Or.inl ⟨n0, ra0, List.mem_cons_self _ _, hm0⟩)
        · rw [hmap] at hpg
          exact Or.inr (Or.inl ⟨n, ra, List.mem_cons_of_mem _ hmem, hpg⟩)
        · exact Or.inr (Or.inr h1)
      · rcases ih st2 st1 h hndr (by rw [hmx]; omega) k hk with h1 | ⟨n, ra, hmem, hpg⟩ | h1
        · rw [hnat, mem_dkeys_dput] at h1
          rcases h1 with h2 | rfl
          · exact Or.inl h2
          · exact Or.inr (Or.inr (by omega))
        · rw [hmap, pyGet_dput_ne st.mapping n0 (st.maxAtom + 1) n (hne (n, ra) hmem)] at hpg
          exact Or.inr (Or.inl ⟨n, ra, List.mem_cons_of_mem _ hmem, hpg⟩)
        · exact Or.inr (Or.inr h1)

/-- Mapped-target count: the `filterMap` over `pyGet` has as many elements
as there are mapped template atoms. -/
theorem length_filterMap_pyGet (mapping : List (Nat × Nat)) :
    ∀ (l : List (Nat × TAtom)),
      (l.filterMap (fun p => pyGet mapping p.1)).length
        = (l.filter (fun p => (pyGet mapping p.1).isSome)).length := by
  intro l
  induction l with
  | nil => rfl
  | cons p rest ih =>
    cases hpg : pyGet mapping p.1 with
    | none => simp [List.filterMap_cons, List.filter_cons, hpg, ih]
    | some m => simp [List.filterMap_cons, List.filter_cons, hpg, ih]

/-- Mapped targets are distinct when the mapping is injective and the
template atom keys are distinct. -/
theorem nodup_filterMap_pyGet (mapping : List (Nat × Nat))
    (hinj : ∀ k1 k2 v, mapping.lookup k1 = some v → mapping.lookup k2 = some v → k1 = k2) :
    ∀ (l : List (Nat × TAtom)), (l.map (·.1)).Nodup →
      (l.filterMap (fun p => pyGet mapping p.1)).Nodup := by
  intro l
  induction l with
  | nil => intro _; simp
  | cons p rest ih =>
    intro hnd
    rw [List.filterMap_cons]
    cases hpg : pyGet mapping p.1 with
    | none => exact ih (List.nodup_cons.mp hnd).2
    | some m =>
      rw [List.nodup_cons]
      refine ⟨?_, ih (List.nodup_cons.mp hnd).2⟩
      intro hmem
      rcases List.mem_filterMap.mp hmem with ⟨q, hq, hpgq⟩
      have hq1 : q.1 = p.1 := hinj q.1 p.1 m (pyGet_eq_some _ _ _ hpgq) (pyGet_eq_some _ _ _ hpg)
      refine (List.nodup_cons.mp hnd).1 ?_
      show p.1 ∈ List.map (fun x => x.1) rest
      rw [← hq1]
      exact List.mem_map_of_mem (·.1) hq

theorem setHyd_dkeys (g : Molecule) (n : Nat) (v : Option Nat) :
    dkeys (setHyd g n v).atoms = dkeys g.atoms := by
  show dkeys (updVal g.atoms n (fun a => { a with hyd := v })) = _
  exact dkeys_updVal n _ g.atoms

theorem setAtomStereo_dkeys (g : Molecule) (n : Nat) (s : Option Bool) :
    dkeys (setAtomStereo g n s).atoms = dkeys g.atoms := by
  show dkeys (updVal g.atoms n (fun a => { a with stereo := s })) = _
  exact dkeys_updVal n _ g.atoms

/-- The hydrogen pass preserves the atom keys exactly. -/
theorem hfold_dkeys (c : Molecule → Nat → Option Nat) :
    ∀ (l : List (Nat × Atom)) (acc : Molecule),
      dkeys (hfold c l acc).atoms = dkeys acc.atoms := by
  intro l
  induction l with
  | nil => intro acc; rfl
  | cons p rest ih =>
    intro acc
    unfold hfold at ih ⊢
    rw [List.foldl_cons, ih]
    by_cases hc : p.2.hyd = none
    · simp only [if_pos hc]
      exact setHyd_dkeys acc p.1 _
    · simp only [if_neg hc]

/-- One marked-atom iteration preserves the atom keys exactly. -/
theorem stereoAtomStep_dkeys (ext : StereoExt) (host : Molecule)
    (tN aN hT hA : List (Nat × List Nat)) (g : Molecule) (n : Nat) :
    dkeys (stereoAtomStep ext host tN aN hT hA g n).atoms = dkeys g.atoms := by
  unfold stereoAtomStep
  split
  · split
    · simp only []
      exact setAtomStereo_dkeys g n _
    · rfl
  · split
    · split
      · simp only []
        exact setAtomStereo_dkeys g n _
      · rfl
    · rfl

/-- The marked-atom pass preserves the atom keys exactly. -/
theorem stereoAtomPass_dkeys (ext : StereoExt) (host : Molecule)
    (tN aN hT hA : List (Nat × List Nat)) :
    ∀ (marked : List Nat) (g : Molecule),
      dkeys (stereoAtomPass ext host tN aN hT hA marked g).atoms = dkeys g.atoms := by
  intro marked
  induction marked with
  | nil => intro g; rfl
  | cons m rest ih =>
    intro g
    unfold stereoAtomPass at ih ⊢
    rw [List.foldl_cons, ih, stereoAtomStep_dkeys]

/-- Finalization preserves atom keys whenever the external routines do. -/
theorem finalize_dkeys (fx : FinExt) (fixRings fixTautomers : Bool) (g : Molecule)
    (hk : ∀ g2, dkeys (fx.kek g2).atoms = dkeys g2.atoms)
    (ht : ∀ t g2, dkeys (fx.thiele t g2).1.atoms = dkeys g2.atoms)
    (hf : ∀ g2, dkeys (fx.fixS g2).atoms = dkeys g2.atoms) :
    dkeys (finalize fx fixRings fixTautomers g).1.atoms = dkeys g.atoms := by
  unfold finalize
  simp only []
  split
  · split
    · show dkeys (fx.thiele fixTautomers (fx.kek g)).1.atoms = _
      rw [ht, hk]
    · show dkeys (fx.fixS (fx.thiele fixTautomers (fx.kek g)).1).atoms = _
      rw [hf, ht, hk]
  · show dkeys (fx.fixS g).atoms = _
    rw [hf]

/-- Generic key-counting: a filter over the atom table by a key predicate
has as many entries as any duplicate-free list holding exactly the
satisfying keys. -/
theorem length_filter_keys (al : List (Nat × Atom)) (pr : Nat → Bool) (target : List Nat)
    (hnd : (al.map (·.1)).Nodup) (ht : target.Nodup)
    (hiff : ∀ k, k ∈ target ↔ k ∈ dkeys al ∧ pr k = true) :
    (al.filter (fun p => pr p.1)).length = target.length := by
  have h1 : (al.filter (fun p => pr p.1)).length
      = ((al.filter (fun p => pr p.1)).map (·.1)).length := (List.length_map _ _).symm
  have h2 : (al.filter (fun p => pr p.1)).map (·.1) = (al.map (·.1)).filter pr := by
    rw [List.filter_map]
    rfl
  have hperm : ((al.map (·.1)).filter pr).Perm target := by
    rw [List.perm_ext_iff_of_nodup (List.Nodup.filter _ hnd) ht]
    intro k
    rw [List.mem_filter]
    exact (hiff k).symm
  rw [h1, h2, hperm.length_eq]

/-- C5: the output atom set of the patcher is exactly the host atoms minus
the expanded deletion set, united with the freshly allocated identifiers:
no deleted atom appears in the output, every retained host atom does,
every output atom is a host atom or a fresh identifier above the host's
maximum, and the atom count satisfies
`|new| = |host| - |deleted| + |fresh|`, with the deletion set being the
reachability-expanded `getDeleted`, not merely the caller-supplied core. -/
theorem C5_atom_conservation :
    ∀ (ext : Ext) (host : Molecule) (repl : Replacement) (toDeletePattern : List Nat)
      (fixRings fixTautomers : Bool) (mapping : List (Nat × Nat))
      (g : Molecule) (mfin : List (Nat × Nat)),
      (repl.atoms.map (·.1)).Nodup →
      (host.atoms.map (·.1)).Nodup →
      (∀ p ∈ mapping, (p : Nat × Nat).2 ∈ dkeys host.atoms) →
      (∀ k1 k2 v, mapping.lookup k1 = some v → mapping.lookup k2 = some v → k1 = k2) →
      (∀ x ∈ toDeletePattern, (mapping.lookup x).isSome = true) →
      (∀ n ∈ dkeys repl.atoms, n ∉ toDeletePattern) →
      (∀ p ∈ host.bonds, p.1 ∈ dkeys host.atoms
        ∧ ∀ q ∈ p.2, (q : Nat × Bond).1 ∈ dkeys host.atoms) →
      (∀ g2, dkeys (ext.fin.kek g2).atoms = dkeys g2.atoms) →
      (∀ t g2, dkeys (ext.fin.thiele t g2).1.atoms = dkeys g2.atoms) →
      (∀ g2, dkeys (ext.fin.fixS g2).atoms = dkeys g2.atoms) →
      patcher ext host repl toDeletePattern fixRings fixTautomers mapping = .ok (g, mfin) →
      ((∀ k ∈ dkeys g.atoms, k ∉ getDeleted host mapping toDeletePattern)
       ∧ (∀ k ∈ dkeys host.atoms, k ∉ getDeleted host mapping toDeletePattern →
            k ∈ dkeys g.atoms)
       ∧ (∀ k ∈ dkeys g.atoms, k ∈ dkeys host.atoms ∨ maxKey host.atoms < k)
       ∧ g.atoms.length = host.atoms.length
           - (getDeleted host mapping toDeletePattern).length
           + (repl.atoms.filter (fun p => (pyGet mapping p.1).isNone)).length) := by
  intro ext host repl toDeletePattern fixRings fixTautomers mapping g mfin
  intro hnd hhost hmap hinj htdp htdisj hWF hkek hthl hfxs hpat
  -- dissect the patcher
  unfold patcher assemble at hpat
  simp only [] at hpat
  cases hA : atomLoop host.atoms repl.atoms
      { natoms := [], nbonds := [], mapping := mapping, maxAtom := maxKey host.atoms,
        stereoAtoms := [], stereoBonds := [] } with
  | error e =>
    rw [hA] at hpat
    exact absurd hpat (by simp)
  | ok st1 =>
    rw [hA] at hpat
    simp only [] at hpat
    injection hpat with hpat
    injection hpat with hpat _
    -- abbreviations
    have hmK : ∀ n ra m, (n, ra) ∈ repl.atoms → pyGet mapping n = some m →
        m ∈ dkeys host.atoms := by
      intro n ra m _ hpg
      exact hmap (n, m) (lookup_mem mapping n m (pyGet_eq_some mapping n m hpg))
    -- deletion-set facts
    have hdel : (getDeleted host mapping toDeletePattern).Nodup
        ∧ (∀ k ∈ getDeleted host mapping toDeletePattern, k ∈ dkeys host.atoms)
        ∧ (∀ n ra m, (n, ra) ∈ repl.atoms → pyGet mapping n = some m →
            m ∉ getDeleted host mapping toDeletePattern) := by
      unfold getDeleted
      by_cases htd0 : toDeletePattern = []
      · simp [htd0]
      · simp only [if_neg htd0]
        have htdsub : ∀ k ∈ toDeletePattern.map (fun x => (mapping.lookup x).getD 0),
            k ∈ dkeys host.atoms := by
          intro k hk
          rcases List.mem_map.mp hk with ⟨x, hx, rfl⟩
          rcases Option.isSome_iff_exists.mp (htdp x hx) with ⟨v, hv⟩
          rw [hv]
          exact hmap (x, v) (lookup_mem mapping x v hv)
        refine ⟨getDeletedCore_nodup _ _ _, getDeletedCore_sub _ _ _ _ hWF htdsub, ?_⟩
        intro n ra m hmem hpg
        have hmntd : m ∉ toDeletePattern.map (fun x => (mapping.lookup x).getD 0) := by
          intro hmem2
          rcases List.mem_map.mp hmem2 with ⟨x, hx, hxm⟩
          rcases Option.isSome_iff_exists.mp (htdp x hx) with ⟨v, hv⟩
          rw [hv] at hxm
          have hvm : v = m := by simpa using hxm
          have hxn : x = n := hinj x n m (by rw [hv, hvm]) (pyGet_eq_some mapping n m hpg)
          exact htdisj n (List.mem_map_of_mem (·.1) hmem) (hxn ▸ hx)
        apply getDeletedCore_remain_disjoint _ _ _ m _ hmntd
        rw [List.mem_filter]
        constructor
        · exact List.mem_map_of_mem (·.2) (lookup_mem mapping n m (pyGet_eq_some mapping n m hpg))
        · simpa using hmntd
    rcases hdel with ⟨hdelnd, hdelsub, hdeltgt⟩
    -- atom-loop facts
    have hinv := atomLoop_invariants host.atoms (maxKey host.atoms) repl.atoms
      { natoms := [], nbonds := [], mapping := mapping, maxAtom := maxKey host.atoms,
        stereoAtoms := [], stereoBonds := [] } st1 hA hnd (Nat.le_refl _)
      (fun p hp => absurd hp (by simp)) (by simp [dkeys])
    rcases hinv with ⟨_, _, i3, _, i5⟩
    have hchar := atomLoop_keys_sub host.atoms (maxKey host.atoms) repl.atoms
      { natoms := [], nbonds := [], mapping := mapping, maxAtom := maxKey host.atoms,
        stereoAtoms := [], stereoBonds := [] } st1 hA hnd (Nat.le_refl _)
    have hlen1 := atomLoop_length host.atoms (maxKey host.atoms) repl.atoms
      { natoms := [], nbonds := [], mapping := mapping, maxAtom := maxKey host.atoms,
        stereoAtoms := [], stereoBonds := [] } st1 hA hnd (Nat.le_refl _)
      (fun p hp => absurd hp (by simp))
      (by
        intro n ra m hmem hpg
        exact ⟨le_maxKey host.atoms m (hmK n ra m hmem hpg), by simp [dkeys]⟩)
      (by
        intro n ra m n2 ra2 m2 _ _ hne12 hpg hpg2 heq
        exact hne12 (hinj n n2 m (pyGet_eq_some _ _ _ hpg)
          (by rw [← heq] at hpg2; exact pyGet_eq_some _ _ _ hpg2)))
    simp only [List.length_nil] at hlen1
    -- phase frames
    have hfr2 := templateBondLoop_frame host.bonds repl.bonds st1
    simp only [Prod.mk.injEq] at hfr2
    have hpatch_eq : dkeys (templateBondLoop host.bonds repl.bonds st1).natoms
        = dkeys st1.natoms := by rw [hfr2.1]
    -- carried atoms
    have hcarry := carryAtoms_natoms_eq (getDeleted host mapping toDeletePattern)
      (dkeys (templateBondLoop host.bonds repl.bonds st1).natoms) host.atoms
      (templateBondLoop host.bonds repl.bonds st1) hhost (fun p _ hp => hp)
    have hfr4 := carryBonds_frame host.bonds (getDeleted host mapping toDeletePattern)
      (dkeys (templateBondLoop host.bonds repl.bonds st1).natoms)
      (carryAtoms host.atoms (getDeleted host mapping toDeletePattern)
        (dkeys (templateBondLoop host.bonds repl.bonds st1).natoms)
        (templateBondLoop host.bonds repl.bonds st1))
    simp only [Prod.mk.injEq] at hfr4
    -- the final atom table
    have hnat4 : (carryBonds host.bonds (getDeleted host mapping toDeletePattern)
        (dkeys (templateBondLoop host.bonds repl.bonds st1).natoms)
        (carryAtoms host.atoms (getDeleted host mapping toDeletePattern)
          (dkeys (templateBondLoop host.bonds repl.bonds st1).natoms)
          (templateBondLoop host.bonds repl.bonds st1))).natoms
        = st1.natoms
          ++ (host.atoms.filter (fun p =>
                decide (p.1 ∉ dkeys (templateBondLoop host.bonds repl.bonds st1).natoms
                  ∧ p.1 ∉ getDeleted host mapping toDeletePattern))).map
              (fun p => (p.1, p.2.copy true true)) := by
      rw [hfr4.1, hcarry, hfr2.1]
    -- output atom keys equal the assembled keys
    have hkeys : dkeys g.atoms
        = dkeys (carryBonds host.bonds (getDeleted host mapping toDeletePattern)
            (dkeys (templateBondLoop host.bonds repl.bonds st1).natoms)
            (carryAtoms host.atoms (getDeleted host mapping toDeletePattern)
              (dkeys (templateBondLoop host.bonds repl.bonds st1).natoms)
              (templateBondLoop host.bonds repl.bonds st1))).natoms := by
      rw [← hpat, finalize_dkeys ext.fin fixRings fixTautomers _ hkek hthl hfxs,
        stereoBondPass_eq, stereoAtomPass_dkeys]
      show dkeys (hfold ext.calcH _ _).atoms = _
      rw [hfold_dkeys]
    rw [hnat4] at hkeys
    -- conjunct 1: no deleted atom survives
    have hc1 : ∀ k ∈ dkeys g.atoms, k ∉ getDeleted host mapping toDeletePattern := by
      intro k hk
      rw [hkeys] at hk
      unfold dkeys at hk
      rw [List.map_append] at hk
      rcases List.mem_append.mp hk with hk1 | hk1
      · rcases hchar k hk1 with h0 | ⟨n, ra, hmem, hpg⟩ | h0
        · simp [dkeys] at h0
        · exact hdeltgt n ra k hmem hpg
        · intro hkd
          exact absurd (le_maxKey host.atoms k (hdelsub k hkd)) (by omega)
      · rcases List.mem_map.mp hk1 with ⟨e, he, he1⟩
        rcases List.mem_map.mp he with ⟨p, hp, rfl⟩
        rcases List.mem_filter.mp hp with ⟨_, hfil⟩
        have := of_decide_eq_true hfil
        rw [← he1]
        exact this.2
    -- conjunct 2: every retained host atom survives
    have hc2 : ∀ k ∈ dkeys host.atoms, k ∉ getDeleted host mapping toDeletePattern →
        k ∈ dkeys g.atoms := by
      intro k hk hkd
      rw [hkeys]
      unfold dkeys
      rw [List.map_append]
      by_cases hpm : k ∈ dkeys st1.natoms
      · exact List.mem_append.mpr (Or.inl hpm)
      · refine List.mem_append.mpr (Or.inr ?_)
        rcases List.mem_map.mp hk with ⟨p, hp, rfl⟩
        have hfil : decide (p.1 ∉ dkeys (templateBondLoop host.bonds repl.bonds st1).natoms
            ∧ p.1 ∉ getDeleted host mapping toDeletePattern) = true := by
          rw [decide_eq_true_eq]
          refine ⟨?_, hkd⟩
          rw [hpatch_eq]
          exact hpm
        have hmemf : p ∈ host.atoms.filter (fun p =>
            decide (p.1 ∉ dkeys (templateBondLoop host.bonds repl.bonds st1).natoms
              ∧ p.1 ∉ getDeleted host mapping toDeletePattern)) :=
          List.mem_filter.mpr ⟨hp, hfil⟩
        exact List.mem_map.mpr ⟨(p.1, p.2.copy true true), List.mem_map.mpr ⟨p, hmemf, rfl⟩, rfl⟩
    -- conjunct 3: every output atom is a host atom or a fresh identifier
    have hc3 : ∀ k ∈ dkeys g.atoms, k ∈ dkeys host.atoms ∨ maxKey host.atoms < k := by
      intro k hk
      rw [hkeys] at hk
      unfold dkeys at hk
      rw [List.map_append] at hk
      rcases List.mem_append.mp hk with hk1 | hk1
      · rcases hchar k hk1 with h0 | ⟨n, ra, hmem, hpg⟩ | h0
        · simp [dkeys] at h0
        · exact Or.inl (hmK n ra k hmem hpg)
        · exact Or.inr h0
      · rcases List.mem_map.mp hk1 with ⟨e, he, he1⟩
        rcases List.mem_map.mp he with ⟨p, hp, rfl⟩
        rw [← he1]
        exact Or.inl (List.mem_map_of_mem (·.1) (List.mem_filter.mp hp).1)
    refine ⟨hc1, hc2, hc3, ?_⟩
    -- conjunct 4: the counting
    have hglen : g.atoms.length = st1.natoms.length
        + (host.atoms.filter (fun p =>
            decide (p.1 ∉ dkeys (templateBondLoop host.bonds repl.bonds st1).natoms
              ∧ p.1 ∉ getDeleted host mapping toDeletePattern))).length := by
      have e1 : g.atoms.length = (dkeys g.atoms).length := (List.length_map _ _).symm
      rw [e1, hkeys]
      unfold dkeys
      rw [List.map_append, List.length_append, List.length_map, List.length_map,
        List.length_map]
    have hsplit1 := List.length_eq_length_filter_add (l := host.atoms)
      (fun p => decide (p.1 ∉ dkeys (templateBondLoop host.bonds repl.bonds st1).natoms
        ∧ p.1 ∉ getDeleted host mapping toDeletePattern))
    have hcongr1 : host.atoms.filter (fun p =>
        !(decide (p.1 ∉ dkeys (templateBondLoop host.bonds repl.bonds st1).natoms
          ∧ p.1 ∉ getDeleted host mapping toDeletePattern)))
        = host.atoms.filter (fun p =>
            decide (p.1 ∈ dkeys (templateBondLoop host.bonds repl.bonds st1).natoms)
            || decide (p.1 ∈ getDeleted host mapping toDeletePattern)) := by
      apply List.filter_congr
      intro p _
      by_cases h1 : p.1 ∈ dkeys (templateBondLoop host.bonds repl.bonds st1).natoms <;>
        by_cases h2 : p.1 ∈ getDeleted host mapping toDeletePattern <;>
          simp [h1, h2]
    have hsplit2 := List.length_eq_length_filter_add
      (l := host.atoms.filter (fun p =>
        decide (p.1 ∈ dkeys (templateBondLoop host.bonds repl.bonds st1).natoms)
        || decide (p.1 ∈ getDeleted host mapping toDeletePattern)))
      (fun p => decide (p.1 ∈ getDeleted host mapping toDeletePattern))
    have hff1 : (host.atoms.filter (fun p =>
        decide (p.1 ∈ dkeys (templateBondLoop host.bonds repl.bonds st1).natoms)
        || decide (p.1 ∈ getDeleted host mapping toDeletePattern))).filter
          (fun p => decide (p.1 ∈ getDeleted host mapping toDeletePattern))
        = host.atoms.filter (fun p => decide (p.1 ∈ getDeleted host mapping toDeletePattern)) := by
      rw [List.filter_filter]
      apply List.filter_congr
      intro p _
      by_cases h1 : p.1 ∈ dkeys (templateBondLoop host.bonds repl.bonds st1).natoms <;>
        by_cases h2 : p.1 ∈ getDeleted host mapping toDeletePattern <;>
          simp [h1, h2]
    have hff2 : (host.atoms.filter (fun p =>
        decide (p.1 ∈ dkeys (templateBondLoop host.bonds repl.bonds st1).natoms)
        || decide (p.1 ∈ getDeleted host mapping toDeletePattern))).filter
          (fun p => !decide (p.1 ∈ getDeleted host mapping toDeletePattern))
        = host.atoms.filter (fun p =>
            decide (p.1 ∈ dkeys (templateBondLoop host.bonds repl.bonds st1).natoms)
            && !decide (p.1 ∈ getDeleted host mapping toDeletePattern)) := by
      rw [List.filter_filter]
      apply List.filter_congr
      intro p _
      by_cases h1 : p.1 ∈ dkeys (templateBondLoop host.bonds repl.bonds st1).natoms <;>
        by_cases h2 : p.1 ∈ getDeleted host mapping toDeletePattern <;>
          simp [h1, h2]
    have hdelcount : (host.atoms.filter (fun p =>
        decide (p.1 ∈ getDeleted host mapping toDeletePattern))).length
        = (getDeleted host mapping toDeletePattern).length := by
      apply length_filter_keys host.atoms
        (fun k => decide (k ∈ getDeleted host mapping toDeletePattern)) _ hhost hdelnd
      intro k
      constructor
      · intro hk
        exact ⟨hdelsub k hk, by simpa using hk⟩
      · intro ⟨_, hk⟩
        simpa using hk
    have hmtcount : (host.atoms.filter (fun p =>
        decide (p.1 ∈ dkeys (templateBondLoop host.bonds repl.bonds st1).natoms)
        && !decide (p.1 ∈ getDeleted host mapping toDeletePattern))).length
        = (repl.atoms.filterMap (fun p => pyGet mapping p.1)).length := by
      apply length_filter_keys host.atoms
        (fun k => decide (k ∈ dkeys (templateBondLoop host.bonds repl.bonds st1).natoms)
          && !decide (k ∈ getDeleted host mapping toDeletePattern)) _ hhost
        (nodup_filterMap_pyGet mapping hinj repl.atoms hnd)
      intro k
      constructor
      · intro hk
        rcases List.mem_filterMap.mp hk with ⟨p, hp, hpg⟩
        have hkd : k ∉ getDeleted host mapping toDeletePattern := hdeltgt p.1 p.2 k
          (by simpa using hp) hpg
        have hkp : k ∈ dkeys (templateBondLoop host.bonds repl.bonds st1).natoms := by
          rw [hpatch_eq]
          exact i5 p.1 p.2 k (by simpa using hp) hpg
        exact ⟨hmK p.1 p.2 k (by simpa using hp) hpg, by simp [hkp, hkd]⟩
      · intro ⟨hkh, hb⟩
        have hb2 : k ∈ dkeys (templateBondLoop host.bonds repl.bonds st1).natoms
            ∧ k ∉ getDeleted host mapping toDeletePattern := by
          simpa using hb
        have hkp := hb2.1
        rw [hpatch_eq] at hkp
        rcases hchar k hkp with h0 | ⟨n, ra, hmem, hpg⟩ | h0
        · simp [dkeys] at h0
        · exact List.mem_filterMap.mpr ⟨(n, ra), hmem, hpg⟩
        · exact absurd (le_maxKey host.atoms k hkh) (by omega)
    have hmtlen := length_filterMap_pyGet mapping repl.atoms
    have hreplsplit := List.length_eq_length_filter_add (l := repl.atoms)
      (fun p => (pyGet mapping p.1).isSome)
    have hcongr2 : repl.atoms.filter (fun p => !(pyGet mapping p.1).isSome)
        = repl.atoms.filter (fun p => (pyGet mapping p.1).isNone) := by
      apply List.filter_congr
      intro p _
      cases pyGet mapping p.1 <;> rfl
    rw [hcongr1] at hsplit1
    rw [hff1, hff2] at hsplit2
    rw [hcongr2] at hreplsplit
    rw [hglen, hlen1]
    omega

/-- Witness for C5: host chain `1-2-3`, pattern deletion of atom 2
expanding to `{2, 3}` by reachability, one mapped and one fresh template
atom — the output has `3 - 2 + 1 = 2` atoms, none of them deleted, all of
them retained host atoms or fresh identifiers. -/
theorem C5_atom_conservation_witness :
    (∀ k ∈ dkeys c5Res.1.atoms, k ∉ getDeleted c5Host c5Map [2])
    ∧ (∀ k ∈ dkeys c5Host.atoms, k ∉ getDeleted c5Host c5Map [2] →
        k ∈ dkeys c5Res.1.atoms)
    ∧ (∀ k ∈ dkeys c5Res.1.atoms, k ∈ dkeys c5Host.atoms ∨ maxKey c5Host.atoms < k)
    ∧ c5Res.1.atoms.length = c5Host.atoms.length
        - (getDeleted c5Host c5Map [2]).length
        + (c5Repl.atoms.filter (fun p => (pyGet c5Map p.1).isNone)).length :=
  C5_atom_conservation idExt c5Host c5Repl [2] false false c5Map c5Res.1 c5Res.2
    (by decide) (by decide) (by decide)
    (by
      intro k1 k2 v h1 h2
      have c : ∀ k w : Nat, c5Map.lookup k = some w →
          (k = 1 ∧ w = 1) ∨ (k = 2 ∧ w = 2) := by
        intro k w h
        simp only [c5Map, List.lookup] at h
        split at h
        · next heq =>
          exact Or.inl ⟨by simpa using heq, (Option.some.inj h).symm⟩
        · split at h
          · next heq =>
            exact Or.inr ⟨by simpa using heq, (Option.some.inj h).symm⟩
          · exact absurd h (by simp)
      rcases c k1 v h1 with ⟨e1, f1⟩ | ⟨e1, f1⟩ <;>
        rcases c k2 v h2 with ⟨e2, f2⟩ | ⟨e2, f2⟩ <;> omega)
    (by decide) (by decide) (by decide)
    (fun _ => rfl) (fun _ _ => rfl) (fun _ => rfl)
    rfl

/-! ## C8: the frame property over the store model -/

theorem tablesFresh_def (s0 : Store) (st : AsmStateS) :
    TablesFresh s0 st ↔ ((∀ p ∈ st.natoms, s0.anext ≤ (p : Nat × Nat).2)
      ∧ (∀ p ∈ st.nbonds, ∀ q ∈ (p : Nat × List (Nat × Nat)).2,
          s0.bnext ≤ (q : Nat × Nat).2)) :=
  Iff.rfl

theorem presBelow_refl (s : Store) : PresBelow s s :=
  ⟨Nat.le_refl _, Nat.le_refl _, fun _ _ => rfl, fun _ _ => rfl⟩

/-- Allocation leaves every previously allocated address intact. -/
theorem presBelow_allocA (s0 s : Store) (a : Atom) (hp : PresBelow s0 s) :
    PresBelow s0 (allocA s a).1 := by
  obtain ⟨h1, h2, h3, h4⟩ := hp
  refine ⟨Nat.le_succ_of_le h1, h2, ?_, h4⟩
  intro c hc
  show List.lookup c (s.acells ++ [(s.anext, a)]) = _
  rw [lookup_append_single s.anext a c (by omega)]
  exact h3 c hc

theorem presBelow_allocB (s0 s : Store) (b : Bond) (hp : PresBelow s0 s) :
    PresBelow s0 (allocB s b).1 := by
  obtain ⟨h1, h2, h3, h4⟩ := hp
  refine ⟨h1, Nat.le_succ_of_le h2, h3, ?_⟩
  intro c hc
  show List.lookup c (s.bcells ++ [(s.bnext, b)]) = _
  rw [lookup_append_single s.bnext b c (by omega)]
  exact h4 c hc

/-- Writing through a freshly allocated address leaves every host address
intact. -/
theorem presBelow_writeA (s0 s : Store) (c : Nat) (f : Atom → Atom)
    (hp : PresBelow s0 s) (hc : s0.anext ≤ c) : PresBelow s0 (writeA s c f) := by
  obtain ⟨h1, h2, h3, h4⟩ := hp
  refine ⟨h1, h2, ?_, h4⟩
  intro k hk
  show (updVal s.acells c f).lookup k = _
  rw [lookup_updVal_ne c f k (by omega)]
  exact h3 k hk

theorem fresh_dput_natoms (b : Nat) (natoms : List (Nat × Nat)) (m c : Nat)
    (h1 : ∀ p ∈ natoms, b ≤ (p : Nat × Nat).2) (hc : b ≤ c) :
    ∀ p ∈ dput natoms m c, b ≤ (p : Nat × Nat).2 := by
  intro p hp
  rcases mem_dput natoms m c p hp with h | h
  · exact h1 p h
  · rw [h]
    exact hc

theorem fresh_dput_empty (b : Nat) (nbonds : List (Nat × List (Nat × Nat))) (m : Nat)
    (h2 : ∀ p ∈ nbonds, ∀ q ∈ (p : Nat × List (Nat × Nat)).2, b ≤ (q : Nat × Nat).2) :
    ∀ p ∈ dput nbonds m ([] : List (Nat × Nat)),
      ∀ q ∈ (p : Nat × List (Nat × Nat)).2, b ≤ (q : Nat × Nat).2 := by
  intro p hp q hq
  rcases mem_dput nbonds m [] p hp with h | h
  · exact h2 p h q hq
  · subst h
    exact absurd hq (List.not_mem_nil q)

theorem fresh_inner_lookup (b : Nat) (nbonds : List (Nat × List (Nat × Nat)))
    (m n c : Nat)
    (h2 : ∀ p ∈ nbonds, ∀ q ∈ (p : Nat × List (Nat × Nat)).2, b ≤ (q : Nat × Nat).2)
    (hl : ((dget nbonds m).getD []).lookup n = some c) : b ≤ c := by
  cases hdg : dget nbonds m with
  | none =>
    rw [hdg] at hl
    exact absurd hl (by simp)
  | some l =>
    rw [hdg] at hl
    exact h2 (m, l) (lookup_mem nbonds m l hdg) (n, c) (lookup_mem l n c hl)

theorem fresh_bputS (b : Nat) (nbonds : List (Nat × List (Nat × Nat))) (n m c : Nat)
    (h2 : ∀ p ∈ nbonds, ∀ q ∈ (p : Nat × List (Nat × Nat)).2, b ≤ (q : Nat × Nat).2)
    (hc : b ≤ c) :
    ∀ p ∈ bputS nbonds n m c,
      ∀ q ∈ (p : Nat × List (Nat × Nat)).2, b ≤ (q : Nat × Nat).2 := by
  intro p hp q hq
  unfold bputS at hp
  rcases mem_dput _ _ _ p hp with h | h
  · exact h2 p h q hq
  · subst h
    rcases mem_dput _ _ _ q hq with h2q | h2q
    · cases hdg : dget nbonds n with
      | none =>
        rw [hdg] at h2q
        exact absurd h2q (List.not_mem_nil q)
      | some l =>
        rw [hdg] at h2q
        exact h2 (n, l) (lookup_mem nbonds n l hdg) q h2q
    · rw [h2q]
      exact hc

/-- One atom-loop iteration over the store: previously allocated cells keep
their value, and the new tables keep referencing only fresh cells — on
success and on either raise. -/
theorem atomStepS_inv (hostRef : MoleculeRef) (s : Store) (st : AsmStateS)
    (n : Nat) (ra : TAtom) (s0 : Store)
    (hp : PresBelow s0 s) (hf : TablesFresh s0 st) :
    (∀ r, atomStepS hostRef s st n ra = .ok r →
      PresBelow s0 r.1 ∧ TablesFresh s0 r.2)
    ∧ (∀ e, atomStepS hostRef s st n ra = .error e →
      PresBelow s0 e.2.1 ∧ TablesFresh s0 e.2.2) := by
  have hfa := (tablesFresh_def s0 st).mp hf
  constructor
  · intro r h
    cases ra with
    | anyE cg rr sv =>
      unfold atomStepS at h
      cases hm : pyGet st.mapping n <;> rw [hm] at h <;> simp only [] at h
      · exact absurd h (by simp)
      · split at h
        · injection h with h
          subst h
          exact ⟨presBelow_allocA s0 s _ hp,
            (tablesFresh_def _ _).mpr
              ⟨fresh_dput_natoms s0.anext st.natoms _ _ hfa.1 hp.1,
               fresh_dput_empty s0.bnext st.nbonds _ hfa.2⟩⟩
        · split at h <;>
            (injection h with h
             subst h
             exact ⟨presBelow_allocA s0 s _ hp,
               (tablesFresh_def _ _).mpr
                 ⟨fresh_dput_natoms s0.anext st.natoms _ _ hfa.1 hp.1,
                  fresh_dput_empty s0.bnext st.nbonds _ hfa.2⟩⟩)
    | queryE an iso cg rr sv hl =>
      unfold atomStepS at h
      cases hm : pyGet st.mapping n <;> rw [hm] at h <;> simp only [] at h
      · split at h
        · injection h with h
          subst h
          exact ⟨presBelow_allocA s0 s _ hp,
            (tablesFresh_def _ _).mpr
              ⟨fresh_dput_natoms s0.anext st.natoms _ _ hfa.1 hp.1,
               fresh_dput_empty s0.bnext st.nbonds _ hfa.2⟩⟩
        · split at h
          · injection h with h
            subst h
            exact ⟨presBelow_allocA s0 s _ hp,
              (tablesFresh_def _ _).mpr
                ⟨fresh_dput_natoms s0.anext st.natoms _ _ hfa.1 hp.1,
                 fresh_dput_empty s0.bnext st.nbonds _ hfa.2⟩⟩
          · exact absurd h (by simp)
      · split at h
        · injection h with h
          subst h
          exact ⟨presBelow_allocA s0 s _ hp,
            (tablesFresh_def _ _).mpr
              ⟨fresh_dput_natoms s0.anext st.natoms _ _ hfa.1 hp.1,
               fresh_dput_empty s0.bnext st.nbonds _ hfa.2⟩⟩
        · split at h <;>
            (injection h with h
             subst h
             exact ⟨presBelow_allocA s0 s _ hp,
               (tablesFresh_def _ _).mpr
                 ⟨fresh_dput_natoms s0.anext st.natoms _ _ hfa.1 hp.1,
                  fresh_dput_empty s0.bnext st.nbonds _ hfa.2⟩⟩)
    | elemE an iso cg rr sv hy x y =>
      unfold atomStepS at h
      cases hm : pyGet st.mapping n <;> rw [hm] at h <;> simp only [] at h
      · injection h with h
        subst h
        exact ⟨presBelow_allocA s0 s _ hp,
          (tablesFresh_def _ _).mpr
            ⟨fresh_dput_natoms s0.anext st.natoms _ _ hfa.1 hp.1,
             fresh_dput_empty s0.bnext st.nbonds _ hfa.2⟩⟩
      · split at h
        · injection h with h
          subst h
          exact ⟨presBelow_allocA s0 s _ hp,
            (tablesFresh_def _ _).mpr
              ⟨fresh_dput_natoms s0.anext st.natoms _ _ hfa.1 hp.1,
               fresh_dput_empty s0.bnext st.nbonds _ hfa.2⟩⟩
        · split at h <;>
            (injection h with h
             subst h
             exact ⟨presBelow_allocA s0 s _ hp,
               (tablesFresh_def _ _).mpr
                 ⟨fresh_dput_natoms s0.anext st.natoms _ _ hfa.1 hp.1,
                  fresh_dput_empty s0.bnext st.nbonds _ hfa.2⟩⟩)
  · intro e h
    cases ra with
    | anyE cg rr sv =>
      unfold atomStepS at h
      cases hm : pyGet st.mapping n <;> rw [hm] at h <;> simp only [] at h
      · injection h with h
        subst h
        exact ⟨hp, hf⟩
      · split at h
        · exact absurd h (by simp)
        · split at h <;> exact absurd h (by simp)
    | queryE an iso cg rr sv hl =>
      unfold atomStepS at h
      cases hm : pyGet st.mapping n <;> rw [hm] at h <;> simp only [] at h
      · split at h
        · exact absurd h (by simp)
        · split at h
          · exact absurd h (by simp)
          · injection h with h
            subst h
            exact ⟨hp, hf⟩
      · split at h
        · exact absurd h (by simp)
        · split at h <;> exact absurd h (by simp)
    | elemE an iso cg rr sv hy x y =>
      unfold atomStepS at h
      cases hm : pyGet st.mapping n <;> rw [hm] at h <;> simp only [] at h
      · exact absurd h (by simp)
      · split at h
        · exact absurd h (by simp)
        · split at h <;> exact absurd h (by simp)

/-- The invariant through the atom loop over the store. -/
theorem atomLoopS_inv (hostRef : MoleculeRef) (s0 : Store) :
    ∀ (l : List (Nat × TAtom)) (s : Store) (st : AsmStateS),
      PresBelow s0 s → TablesFresh s0 st →
      (∀ r, atomLoopS hostRef l s st = .ok r →
        PresBelow s0 r.1 ∧ TablesFresh s0 r.2)
      ∧ (∀ e, atomLoopS hostRef l s st = .error e →
        PresBelow s0 e.2.1 ∧ TablesFresh s0 e.2.2) := by
  intro l
  induction l with
  | nil =>
    intro s st hp hf
    constructor
    · intro r h
      injection h with h
      subst h
      exact ⟨hp, hf⟩
    · intro e h
      exact absurd h (by simp [atomLoopS])
  | cons pa rest ih =>
    intro s st hp hf
    rcases pa with ⟨n, ra⟩
    constructor
    · intro r h
      unfold atomLoopS at h
      cases hA : atomStepS hostRef s st n ra with
      | ok r1 =>
        rw [hA] at h
        have hstep := (atomStepS_inv hostRef s st n ra s0 hp hf).1 r1 hA
        exact (ih r1.1 r1.2 hstep.1 hstep.2).1 r h
      | error e =>
        rw [hA] at h
        exact absurd h (by simp)
    · intro e h
      unfold atomLoopS at h
      cases hA : atomStepS hostRef s st n ra with
      | ok r1 =>
        rw [hA] at h
        have hstep := (atomStepS_inv hostRef s st n ra s0 hp hf).1 r1 hA
        exact (ih r1.1 r1.2 hstep.1 hstep.2).2 e h
      | error e2 =>
        rw [hA] at h
        injection h with h
        subst h
        exact (atomStepS_inv hostRef s st n ra s0 hp hf).2 e2 hA

/-- Fold form of the invariant, for the store-threading loops. -/
theorem foldlS_inv {β : Type} (s0 : Store)
    (f : Store × AsmStateS → β → Store × AsmStateS)
    (hstep : ∀ acc b, PresBelow s0 acc.1 → TablesFresh s0 acc.2 →
      PresBelow s0 (f acc b).1 ∧ TablesFresh s0 (f acc b).2) :
    ∀ (l : List β) (acc : Store × AsmStateS),
      PresBelow s0 acc.1 → TablesFresh s0 acc.2 →
      PresBelow s0 (l.foldl f acc).1 ∧ TablesFresh s0 (l.foldl f acc).2 := by
  intro l
  induction l with
  | nil =>
    intro acc h1 h2
    exact ⟨h1, h2⟩
  | cons b rest ih =>
    intro acc h1 h2
    have h := hstep acc b h1 h2
    exact ih (f acc b) h.1 h.2

/-- One template-bond iteration over the store: back-links alias only cells
of the new table, everything else is freshly allocated. -/
theorem templateBondStepS_inv (hostRef : MoleculeRef) (s : Store) (st : AsmStateS)
    (n m : Nat) (rb : TBond) (s0 : Store)
    (hp : PresBelow s0 s) (hf : TablesFresh s0 st) :
    ∀ r, templateBondStepS hostRef s st n m rb = r →
      PresBelow s0 r.1 ∧ TablesFresh s0 r.2 := by
  have hfa := (tablesFresh_def s0 st).mp hf
  intro r h
  unfold templateBondStepS at h
  split at h
  · rename_i c hl
    subst h
    exact ⟨hp, (tablesFresh_def _ _).mpr ⟨hfa.1,
      fresh_bputS s0.bnext st.nbonds n m c hfa.2
        (fresh_inner_lookup s0.bnext st.nbonds m n c hfa.2 hl)⟩⟩
  · simp only [] at h
    split at h
    · subst h
      exact ⟨presBelow_allocB s0 s _ hp, (tablesFresh_def _ _).mpr ⟨hfa.1,
        fresh_bputS s0.bnext st.nbonds n m _ hfa.2 hp.2.1⟩⟩
    · split at h
      · split at h
        · subst h
          exact ⟨presBelow_allocB s0 s _ hp, (tablesFresh_def _ _).mpr ⟨hfa.1,
            fresh_bputS s0.bnext st.nbonds n m _ hfa.2 hp.2.1⟩⟩
        · subst h
          exact ⟨presBelow_allocB s0 s _ hp, (tablesFresh_def _ _).mpr ⟨hfa.1,
            fresh_bputS s0.bnext st.nbonds n m _ hfa.2 hp.2.1⟩⟩
      · subst h
        exact ⟨presBelow_allocB s0 s _ hp, (tablesFresh_def _ _).mpr ⟨hfa.1,
          fresh_bputS s0.bnext st.nbonds n m _ hfa.2 hp.2.1⟩⟩

/-- The invariant through the template-bond loop over the store. -/
theorem templateBondLoopS_inv (hostRef : MoleculeRef)
    (rbonds : List (Nat × List (Nat × TBond))) (s : Store) (st : AsmStateS)
    (s0 : Store) (hp : PresBelow s0 s) (hf : TablesFresh s0 st) :
    PresBelow s0 (templateBondLoopS hostRef rbonds s st).1
    ∧ TablesFresh s0 (templateBondLoopS hostRef rbonds s st).2 := by
  unfold templateBondLoopS
  refine foldlS_inv s0 _ ?_ rbonds (s, st) hp hf
  intro acc p hp1 hf1
  refine foldlS_inv s0 _ ?_ p.2 acc hp1 hf1
  intro acc2 q hp2 hf2
  exact templateBondStepS_inv hostRef acc2.1 acc2.2 _ _ q.2 s0 hp2 hf2 _ rfl

/-- The invariant through the atom carry-over over the store. -/
theorem carryAtomsS_inv (hostRef : MoleculeRef) (toDelete patched : List Nat)
    (s : Store) (st : AsmStateS) (s0 : Store)
    (hp : PresBelow s0 s) (hf : TablesFresh s0 st) :
    PresBelow s0 (carryAtomsS hostRef toDelete patched s st).1
    ∧ TablesFresh s0 (carryAtomsS hostRef toDelete patched s st).2 := by
  unfold carryAtomsS
  refine foldlS_inv s0 _ ?_ hostRef.atoms (s, st) hp hf
  intro acc p hp1 hf1
  split
  · have hfa := (tablesFresh_def s0 acc.2).mp hf1
    exact ⟨presBelow_allocA s0 acc.1 _ hp1, (tablesFresh_def _ _).mpr
      ⟨fresh_dput_natoms s0.anext acc.2.natoms p.1 _ hfa.1 hp1.1,
       fresh_dput_empty s0.bnext acc.2.nbonds p.1 hfa.2⟩⟩
  · exact ⟨hp1, hf1⟩

/-- One carry-over bond iteration over the store. -/
theorem carryBondStepS_inv (toDelete patched : List Nat) (s : Store) (st : AsmStateS)
    (n m cb : Nat) (s0 : Store) (hp : PresBelow s0 s) (hf : TablesFresh s0 st) :
    ∀ r, carryBondStepS toDelete patched s st n m cb = r →
      PresBelow s0 r.1 ∧ TablesFresh s0 r.2 := by
  have hfa := (tablesFresh_def s0 st).mp hf
  intro r h
  unfold carryBondStepS at h
  split at h
  · subst h
    exact ⟨hp, hf⟩
  · split at h
    · rename_i c hl
      subst h
      exact ⟨hp, (tablesFresh_def _ _).mpr ⟨hfa.1,
        fresh_bputS s0.bnext st.nbonds n m c hfa.2
          (fresh_inner_lookup s0.bnext st.nbonds m n c hfa.2 hl)⟩⟩
    · simp only [] at h
      split at h
      · subst h
        exact ⟨presBelow_allocB s0 s _ hp, (tablesFresh_def _ _).mpr ⟨hfa.1,
          fresh_bputS s0.bnext st.nbonds n m _ hfa.2 hp.2.1⟩⟩
      · subst h
        exact ⟨presBelow_allocB s0 s _ hp, (tablesFresh_def _ _).mpr ⟨hfa.1,
          fresh_bputS s0.bnext st.nbonds n m _ hfa.2 hp.2.1⟩⟩

/-- The invariant through the bond carry-over over the store. -/
theorem carryBondsS_inv (hostRef : MoleculeRef) (toDelete patched : List Nat)
    (s : Store) (st : AsmStateS) (s0 : Store)
    (hp : PresBelow s0 s) (hf : TablesFresh s0 st) :
    PresBelow s0 (carryBondsS hostRef toDelete patched s st).1
    ∧ TablesFresh s0 (carryBondsS hostRef toDelete patched s st).2 := by
  unfold carryBondsS
  refine foldlS_inv s0 _ ?_ hostRef.bonds (s, st) hp hf
  intro acc p hp1 hf1
  split
  · exact ⟨hp1, hf1⟩
  · refine foldlS_inv s0 _ ?_ p.2 acc hp1 hf1
    intro acc2 q hp2 hf2
    exact carryBondStepS_inv toDelete patched acc2.1 acc2.2 p.1 q.1 q.2 s0 hp2 hf2 _ rfl

/-- The hydrogen pass writes only through the (fresh) new atom table. -/
theorem hfoldS_pres (calcH : Molecule → Nat → Option Nat) (nref : MoleculeRef)
    (s0 : Store) :
    ∀ (l : List (Nat × Nat)) (s : Store),
      PresBelow s0 s → (∀ p ∈ l, s0.anext ≤ (p : Nat × Nat).2) →
      PresBelow s0 (hfoldS calcH nref l s) := by
  intro l
  induction l with
  | nil =>
    intro s hp _
    exact hp
  | cons p rest ih =>
    intro s hp hl
    have hstep : PresBelow s0 (if (readA s p.2).hyd = none
        then writeA s p.2 (fun a => { a with hyd := calcH (realize s nref) p.1 })
        else s) := by
      split
      · exact presBelow_writeA s0 s p.2 _ hp (hl p (List.mem_cons_self _ _))
      · exact hp
    exact ih _ hstep (fun q hq => hl q (List.mem_cons_of_mem _ hq))

/-- One marked-atom iteration writes only through the new atom table. -/
theorem stereoAtomStepS_pres (ext : StereoExt) (host : Molecule)
    (tN aN hT hA : List (Nat × List Nat)) (nref : MoleculeRef) (s0 s : Store)
    (n : Nat) (hp : PresBelow s0 s)
    (hfr : ∀ p ∈ nref.atoms, s0.anext ≤ (p : Nat × Nat).2) :
    PresBelow s0 (stereoAtomStepS ext host tN aN hT hA nref s n) := by
  unfold stereoAtomStepS
  split
  · split
    · simp only []
      cases hc : nref.atoms.lookup n with
      | some c =>
        exact presBelow_writeA s0 s c _ hp (hfr (n, c) (lookup_mem nref.atoms n c hc))
      | none => exact hp
    · exact hp
  · split
    · split
      · simp only []
        cases hc : nref.atoms.lookup n with
        | some c =>
          exact presBelow_writeA s0 s c _ hp (hfr (n, c) (lookup_mem nref.atoms n c hc))
        | none => exact hp
      · exact hp
    · exact hp

/-- The marked-atom pass writes only through the new atom table. -/
theorem stereoAtomPassS_pres (ext : StereoExt) (host : Molecule)
    (tN aN hT hA : List (Nat × List Nat)) (nref : MoleculeRef) (s0 : Store)
    (hfr : ∀ p ∈ nref.atoms, s0.anext ≤ (p : Nat × Nat).2) :
    ∀ (marked : List Nat) (s : Store), PresBelow s0 s →
      PresBelow s0 (stereoAtomPassS ext host tN aN hT hA nref marked s) := by
  intro marked
  induction marked with
  | nil =>
    intro s hp
    exact hp
  | cons n rest ih =>
    intro s hp
    exact ih _ (stereoAtomStepS_pres ext host tN aN hT hA nref s0 s n hp hfr)

/-- One marked-bond iteration leaves the store untouched (the translated
sign of line 190 is discarded). -/
theorem stereoBondStepS_eq (ext : StereoExt) (host : Molecule)
    (ctT : List (Nat × (Nat × Nat))) (ctN ctH : List ((Nat × Nat) × List Nat))
    (nref : MoleculeRef) (s : Store) (nm : Nat × Nat) :
    stereoBondStepS ext host ctT ctN ctH nref s nm = s := by
  unfold stereoBondStepS
  split
  · split
    · split
      · rfl
      · rfl
    · rfl
  · rfl

/-- The marked-bond pass leaves the store untouched. -/
theorem stereoBondPassS_eq (ext : StereoExt) (host : Molecule)
    (ctT : List (Nat × (Nat × Nat))) (ctN ctH : List ((Nat × Nat) × List Nat))
    (nref : MoleculeRef) :
    ∀ (marked : List (Nat × Nat)) (s : Store),
      stereoBondPassS ext host ctT ctN ctH nref marked s = s := by
  intro marked
  induction marked with
  | nil =>
    intro s
    rfl
  | cons nm rest ih =>
    intro s
    show stereoBondPassS ext host ctT ctN ctH nref rest
      (stereoBondStepS ext host ctT ctN ctH nref s nm) = s
    rw [stereoBondStepS_eq]
    exact ih s

/-- C8: one `_patcher` invocation never mutates host state.  Over the
allocation-instrumented embedding: every cell address allocated before the
call — in particular every atom cell, bond cell and index datum of the host
graph — still resolves exactly as before, whether the call succeeds or
raises; and on success every atom-cell and bond-cell reference placed in
the new graph's tables is a freshly allocated address, so the in-place
hydrogen and stereo writes of lines 165-184 (which go through those
tables) and the finalization externals (which receive only the realized
new graph) can only touch fresh cells, never a shared reference to host
state. -/
theorem C8_no_host_mutation :
    ∀ (ext : Ext) (s0 : Store) (hostRef : MoleculeRef) (repl : Replacement)
      (toDeletePattern : List Nat) (mapping : List (Nat × Nat)),
      (∀ s1 st1, patcherS ext s0 hostRef repl toDeletePattern mapping = .ok (s1, st1) →
        PresBelow s0 s1 ∧ TablesFresh s0 st1)
      ∧ (∀ e, patcherS ext s0 hostRef repl toDeletePattern mapping = .error e →
        PresBelow s0 e.2.1 ∧ TablesFresh s0 e.2.2) := by
  intro ext s0 hostRef repl toDeletePattern mapping
  have hst0 : TablesFresh s0
      { natoms := [], nbonds := [], mapping := mapping,
        maxAtom := maxKey (realize s0 hostRef).atoms, stereoAtoms := [],
        stereoBonds := [] } :=
    (tablesFresh_def _ _).mpr
      ⟨fun p hp => absurd hp (List.not_mem_nil p),
       fun p hp => absurd hp (List.not_mem_nil p)⟩
  have hAL := atomLoopS_inv hostRef s0 repl.atoms s0
      { natoms := [], nbonds := [], mapping := mapping,
        maxAtom := maxKey (realize s0 hostRef).atoms, stereoAtoms := [],
        stereoBonds := [] } (presBelow_refl s0) hst0
  constructor
  · intro s1 st1 h
    unfold patcherS at h
    simp only [] at h
    cases hA : atomLoopS hostRef repl.atoms s0
        { natoms := [], nbonds := [], mapping := mapping,
          maxAtom := maxKey (realize s0 hostRef).atoms, stereoAtoms := [],
          stereoBonds := [] } with
    | error e =>
      rw [hA] at h
      exact absurd h (by simp)
    | ok r1 =>
      rw [hA] at h
      simp only [] at h
      injection h with h
      injection h with h1 h2
      subst h1
      subst h2
      obtain ⟨hp1, hf1⟩ := hAL.1 r1 hA
      obtain ⟨hp2, hf2⟩ := templateBondLoopS_inv hostRef repl.bonds r1.1 r1.2 s0 hp1 hf1
      obtain ⟨hp3, hf3⟩ := carryAtomsS_inv hostRef
        (getDeleted (realize s0 hostRef) mapping toDeletePattern)
        (dkeys (templateBondLoopS hostRef repl.bonds r1.1 r1.2).2.natoms)
        (templateBondLoopS hostRef repl.bonds r1.1 r1.2).1
        (templateBondLoopS hostRef repl.bonds r1.1 r1.2).2 s0 hp2 hf2
      obtain ⟨hp4, hf4⟩ := carryBondsS_inv hostRef
        (getDeleted (realize s0 hostRef) mapping toDeletePattern)
        (dkeys (templateBondLoopS hostRef repl.bonds r1.1 r1.2).2.natoms)
        (carryAtomsS hostRef
          (getDeleted (realize s0 hostRef) mapping toDeletePattern)
          (dkeys (templateBondLoopS hostRef repl.bonds r1.1 r1.2).2.natoms)
          (templateBondLoopS hostRef repl.bonds r1.1 r1.2).1
          (templateBondLoopS hostRef repl.bonds r1.1 r1.2).2).1
        (carryAtomsS hostRef
          (getDeleted (realize s0 hostRef) mapping toDeletePattern)
          (dkeys (templateBondLoopS hostRef repl.bonds r1.1 r1.2).2.natoms)
          (templateBondLoopS hostRef repl.bonds r1.1 r1.2).1
          (templateBondLoopS hostRef repl.bonds r1.1 r1.2).2).2 s0 hp3 hf3
      have hfr := ((tablesFresh_def s0 _).mp hf4).1
      rw [stereoBondPassS_eq]
      refine ⟨stereoAtomPassS_pres _ _ _ _ _ _ _ s0 hfr _ _
        (hfoldS_pres ext.calcH _ s0 _ _ hp4 hfr), hf4⟩
  · intro e h
    unfold patcherS at h
    simp only [] at h
    cases hA : atomLoopS hostRef repl.atoms s0
        { natoms := [], nbonds := [], mapping := mapping,
          maxAtom := maxKey (realize s0 hostRef).atoms, stereoAtoms := [],
          stereoBonds := [] } with
    | ok r1 =>
      rw [hA] at h
      simp only [] at h
      exact absurd h (by simp)
    | error e2 =>
      rw [hA] at h
      injection h with h
      subst h
      exact hAL.2 e2 hA

/-- Witness for C8 on the conservation scenario encoded in an explicit
store: the three host atom cells and four host bond cells still resolve to
their original values after the call, and the produced tables reference
only cells at addresses 3 and upward (atoms) and 4 and upward (bonds). -/
theorem C8_no_host_mutation_witness :
    PresBelow c8Store c8Res.1 ∧ TablesFresh c8Store c8Res.2 :=
  (C8_no_host_mutation idExt c8Store c8HostRef c5Repl [2] c5Map).1 c8Res.1 c8Res.2 rfl

end Chython